import Mathlib

/-!
Shallow embedding of `gaphas/tree.py` (class `Tree` and class `TreeSorter`)
and of the operation-log ("state") machinery it declares itself to.

Python dicts are modelled as association lists (insertion ordered, no
duplicate keys in any reachable state); Python lists as `List`; raised
exceptions as `Except Err`; Python truthiness of node values via the
`Truthy` class (`if parent:` in the source tests truthiness of the value,
with `None` falsy).
-/

deriving instance DecidableEq for Except

namespace Gaphas

/-- Python exception kinds raised by the translated code. The spec renames
these: its `UnknownNodeError`/`UnknownParentError` is `keyError`, its
`NoSiblingError` is `indexError` (list index out of range), its
`DuplicateNodeError` is `assertionError`, and a `StaleKeyError` in the
sorter is `attributeError`. `recursionError` models Python's recursion
limit, reached only on structurally cyclic (hence unreachable) states. -/
inductive Err where
  | keyError
  | indexError
  | valueError
  | assertionError
  | attributeError
  | recursionError
deriving DecidableEq, Repr

/-- Python truthiness for node values: `if parent:` in the source branches
on `bool(parent)`. -/
class Truthy (α : Type) where
  tru : α → Bool

/-- Truthiness of an optional node value; `None` is falsy. -/
def truO {α : Type} [Truthy α] : Option α → Bool
  | none => false
  | some a => Truthy.tru a

/-- Python `int` nodes: `0` is falsy. -/
instance : Truthy Nat := ⟨fun n => n ≠ 0⟩

/-- An opaque application object used as a node: always truthy, as plain
Python object references are. -/
structure Ref where
  id : Nat
deriving DecidableEq, Repr

instance : Truthy Ref := ⟨fun _ => true⟩

/-- `d.get(k)` / `d[k]` lookup on a dict modelled as an association list. -/
def alookup {κ ν : Type} [DecidableEq κ] : List (κ × ν) → κ → Option ν
  | [], _ => none
  | (k, v) :: rest, key => if k = key then some v else alookup rest key

/-- `d[k] = v`: update in place if the key exists, else append a new entry
(insertion order of a Python dict). -/
def aset {κ ν : Type} [DecidableEq κ] : List (κ × ν) → κ → ν → List (κ × ν)
  | [], key, val => [(key, val)]
  | (k, v) :: rest, key, val =>
    if k = key then (k, val) :: rest else (k, v) :: aset rest key val

/-- `del d[k]`, removing the entry if present (no-op when absent; the one
`del` the source wraps in `try/except KeyError` is exactly the one that can
be absent). -/
def adel {κ ν : Type} [DecidableEq κ] : List (κ × ν) → κ → List (κ × ν)
  | [], _ => []
  | (k, v) :: rest, key => if k = key then rest else (k, v) :: adel rest key

/-- `l.index(a)`: position of the first occurrence, `ValueError` if absent. -/
def pyIndex {α : Type} [DecidableEq α] : List α → α → Except Err Nat
  | [], _ => .error .valueError
  | x :: rest, a => if x = a then .ok 0 else (pyIndex rest a).map (· + 1)

/-- `l.remove(a)`: drop the first occurrence, `ValueError` if absent. -/
def pyRemove {α : Type} [DecidableEq α] : List α → α → Except Err (List α)
  | [], _ => .error .valueError
  | x :: rest, a => if x = a then .ok rest else (pyRemove rest a).map (x :: ·)

/-- `l.insert(i, a)` for a non-negative index (clamped to the end, as in
Python). -/
def pyInsert {α : Type} : List α → Nat → α → List α
  | l, 0, a => a :: l
  | [], _ + 1, a => [a]
  | x :: rest, n + 1, a => x :: pyInsert rest n a

/-- Index assigned by repeated `setattr` over a list: the last occurrence
wins, so this is the last index of `a` in the list (`none` if absent). -/
def lastIdx {α : Type} [DecidableEq α] : List α → α → Option Nat
  | [], _ => none
  | x :: rest, a =>
    match lastIdx rest a with
    | some i => some (i + 1)
    | none => if x = a then some 0 else none

/-- The state of `gaphas.tree.Tree`: `_nodes` (render order), `_children`
(dict from node-or-`None` to list of direct children) and `_parents`
(dict from node to the stored parent value, which `reparent` can set to
`None`). -/
structure Tree (α : Type) where
  nodes : List α
  children : List (Option α × List α)
  parents : List (α × Option α)
deriving DecidableEq, Repr

/-- `Tree.__init__`. -/
def Tree.init {α : Type} : Tree α := ⟨[], [(none, [])], []⟩

/-- `Tree.get_parent`: `self._parents.get(node)` — total, `None` both for a
missing entry and for a stored `None`. -/
def getParent {α : Type} [DecidableEq α] (t : Tree α) (node : α) : Option α :=
  (alookup t.parents node).join

/-- `Tree.get_children`: `self._children[node]`, `KeyError` when the key is
absent. The root bucket is reached with the key `none`. -/
def get_children {α : Type} [DecidableEq α] (t : Tree α) (node : Option α) :
    Except Err (List α) :=
  match alookup t.children node with
  | some l => .ok l
  | none => .error .keyError

/-- `Tree.get_siblings`: `self._children[self.get_parent(node)]`. -/
def get_siblings {α : Type} [DecidableEq α] (t : Tree α) (node : α) :
    Except Err (List α) :=
  get_children t (getParent t node)

/-- `Tree.get_next_sibling`: `siblings[siblings.index(node) + 1]`. -/
def get_next_sibling {α : Type} [DecidableEq α] (t : Tree α) (node : α) :
    Except Err α := do
  let siblings ← get_siblings t node
  let i ← pyIndex siblings node
  match siblings.get? (i + 1) with
  | some x => .ok x
  | none => .error .indexError

/-- `Tree.get_previous_sibling`: index `siblings.index(node) - 1`, with an
explicit `IndexError` when it would be negative. -/
def get_previous_sibling {α : Type} [DecidableEq α] (t : Tree α) (node : α) :
    Except Err α := do
  let siblings ← get_siblings t node
  let i ← pyIndex siblings node
  if i = 0 then .error .indexError
  else
    match siblings.get? (i - 1) with
    | some x => .ok x
    | none => .error .indexError

/-- `Tree._add_to_nodes`, recursing along ancestors. The `fuel` bounds the
recursion depth as Python's interpreter stack does; any fuel larger than
the ancestor chain gives the function's value. Only an `IndexError` from
`get_next_sibling` is caught, as in the source. -/
def addToNodes {α : Type} [DecidableEq α] [Truthy α] (t : Tree α) (node : α) :
    Nat → Option α → Except Err (List α)
  | _, none => .ok (t.nodes ++ [node])
  | fuel, some p =>
    if Truthy.tru p then
      match fuel with
      | 0 => .error .recursionError
      | fuel' + 1 =>
        match get_next_sibling t p with
        | .error .indexError => addToNodes t node fuel' (getParent t p)
        | .error e => .error e
        | .ok next_uncle =>
          match pyIndex t.nodes next_uncle with
          | .error e => .error e
          | .ok i => .ok (pyInsert t.nodes i node)
    else .ok (t.nodes ++ [node])

/-- Fuel that always suffices on acyclic states: longer than any ancestor
chain. -/
def stdFuel {α : Type} (t : Tree α) : Nat := t.nodes.length + 1

/-- `Tree.add`. The `assert not self._children.get(node)` passes when the
node is absent or its bucket is the (falsy) empty list; `_parents` is only
written when the parent value is truthy. -/
def Tree.add {α : Type} [DecidableEq α] [Truthy α] (t : Tree α) (node : α)
    (parent : Option α) : Except Err (Tree α) :=
  match alookup t.children (some node) with
  | some (_ :: _) => .error .assertionError
  | _ =>
    match alookup t.children parent with
    | none => .error .keyError
    | some siblings =>
      match addToNodes t node (stdFuel t) parent with
      | .error e => .error e
      | .ok newNodes =>
        .ok { nodes := newNodes
              children := aset (aset t.children parent (siblings ++ [node]))
                (some node) []
              parents :=
                if truO parent then aset t.parents node parent else t.parents }

mutual

/-- `Tree.remove`: children are removed depth-first before the node itself,
then the node leaves its sibling list, its `_children` bucket, `_nodes`,
and (if present) its `_parents` entry. The fuel bounds recursion depth. -/
def removeFuel {α : Type} [DecidableEq α] : Nat → Tree α → α →
    Except Err (Tree α)
  | 0, _, _ => .error .recursionError
  | fuel + 1, t, node =>
    match alookup t.children (some node) with
    | none => .error .keyError
    | some cs =>
      match removeChildren fuel t cs with
      | .error e => .error e
      | .ok t1 =>
        match alookup t1.children (getParent t1 node) with
        | none => .error .keyError
        | some sibs =>
          match pyRemove sibs node with
          | .error e => .error e
          | .ok sibs2 =>
            match pyRemove t1.nodes node with
            | .error e => .error e
            | .ok newNodes =>
              .ok { nodes := newNodes
                    children := adel
                      (aset t1.children (getParent t1 node) sibs2) (some node)
                    parents := adel t1.parents node }
termination_by fuel _ _ => (fuel, 0)

/-- The `for c in list(self._children[node]): self.remove(c)` loop. -/
def removeChildren {α : Type} [DecidableEq α] : Nat → Tree α → List α →
    Except Err (Tree α)
  | _, t, [] => .ok t
  | fuel, t, c :: rest =>
    match removeFuel fuel t c with
    | .error e => .error e
    | .ok t2 => removeChildren fuel t2 rest
termination_by fuel _ cs => (fuel, cs.length + 1)

end

/-- `Tree.remove` with the standard fuel. -/
def Tree.remove {α : Type} [DecidableEq α] (t : Tree α) (node : α) :
    Except Err (Tree α) :=
  removeFuel (stdFuel t) t node

mutual

/-- `Tree._reparent_nodes`: pull the node out of `_nodes`, reinsert it via
`_add_to_nodes` under the new parent, then do the same for each child. -/
def reparentNodes {α : Type} [DecidableEq α] [Truthy α] : Nat → Tree α → α →
    Option α → Except Err (Tree α)
  | 0, _, _, _ => .error .recursionError
  | fuel + 1, t, node, parent =>
    match pyRemove t.nodes node with
    | .error e => .error e
    | .ok nodes1 =>
      let t1 : Tree α := { t with nodes := nodes1 }
      match addToNodes t1 node (stdFuel t1) parent with
      | .error e => .error e
      | .ok nodes2 =>
        let t2 : Tree α := { t1 with nodes := nodes2 }
        match alookup t2.children (some node) with
        | none => .error .keyError
        | some cs => reparentChildren fuel t2 cs node
termination_by fuel _ _ _ => (fuel, 0)

/-- The `for c in self._children[node]: self._reparent_nodes(c, node)`
loop. -/
def reparentChildren {α : Type} [DecidableEq α] [Truthy α] : Nat → Tree α →
    List α → α → Except Err (Tree α)
  | _, t, [], _ => .ok t
  | fuel, t, c :: rest, node =>
    match reparentNodes fuel t c (some node) with
    | .error e => .error e
    | .ok t2 => reparentChildren fuel t2 rest node
termination_by fuel _ cs _ => (fuel, cs.length + 1)

end

/-- `Tree.reparent`: the node leaves its old sibling list, is appended to
the new parent's children, `_parents[node] = parent` is stored
unconditionally (also when `parent` is `None`), and `_reparent_nodes`
relocates the subtree inside `_nodes`. The new sibling list is read after
the removal, reproducing the aliasing when old and new parent coincide. -/
def Tree.reparent {α : Type} [DecidableEq α] [Truthy α] (t : Tree α) (node : α)
    (parent : Option α) : Except Err (Tree α) :=
  match alookup t.children (getParent t node) with
  | none => .error .keyError
  | some sibs =>
    match pyRemove sibs node with
    | .error e => .error e
    | .ok sibs2 =>
      let t1 : Tree α := { t with children := aset t.children (getParent t node) sibs2 }
      match alookup t1.children parent with
      | none => .error .keyError
      | some newSibs =>
        let t2 : Tree α :=
          { t1 with children := aset t1.children parent (newSibs ++ [node]) }
        let t3 : Tree α := { t2 with parents := aset t2.parents node parent }
        reparentNodes (stdFuel t3) t3 node parent

/-- `Tree.get_all_children` flattened into a list: the generator yields
each child followed by its own recursive flattening. The fuel bounds
recursion depth. -/
def allChildrenAux {α : Type} [DecidableEq α] (t : Tree α) : Nat → List α →
    Except Err (List α)
  | _, [] => .ok []
  | 0, _ :: _ => .error .recursionError
  | fuel + 1, c :: rest =>
    match get_children t (some c) with
    | .error e => .error e
    | .ok cc =>
      match allChildrenAux t fuel cc with
      | .error e => .error e
      | .ok sub =>
        match allChildrenAux t (fuel + 1) rest with
        | .error e => .error e
        | .ok tail => .ok (c :: (sub ++ tail))
termination_by fuel cs => (fuel, cs.length)

/-- `list(Tree.get_all_children(node))` with the standard fuel. -/
def get_all_children {α : Type} [DecidableEq α] (t : Tree α) (node : α) :
    Except Err (List α) :=
  match get_children t (some node) with
  | .error e => .error e
  | .ok cs => allChildrenAux t (stdFuel t) cs

/-- The `while parent:` loop of `Tree.get_ancestors`; the loop condition is
truthiness, so it also stops at a falsy ancestor value. -/
def ancestorsFuel {α : Type} [DecidableEq α] [Truthy α] (t : Tree α) :
    Nat → Option α → Except Err (List α)
  | 0, p => if truO p then .error .recursionError else .ok []
  | fuel + 1, p =>
    match p with
    | none => .ok []
    | some q =>
      if Truthy.tru q then
        match ancestorsFuel t fuel (getParent t q) with
        | .error e => .error e
        | .ok rest => .ok (q :: rest)
      else .ok []

/-- `list(Tree.get_ancestors(node))` with the standard fuel. -/
def get_ancestors {α : Type} [DecidableEq α] [Truthy α] (t : Tree α) (node : α) :
    Except Err (List α) :=
  ancestorsFuel t (stdFuel t) (getParent t node)

/-- `TreeSorter.reindex`: the `_tree_sorter_key` attribute each node ends
up with — its (last) position in the `nodes` snapshot, absent for objects
not in the snapshot. -/
def TreeSorter.reindex {α : Type} [DecidableEq α] (t : Tree α) :
    α → Option Nat :=
  lastIdx t.nodes

/-- `TreeSorter.sort`: Python's stable `sorted` by the snapshot key;
`AttributeError` when some item was never indexed. `reverse=True` is a
stable sort by descending key. -/
def TreeSorter.sort {α : Type} (key : α → Option Nat) (items : List α)
    (reverse : Bool) : Except Err (List α) :=
  if items.all fun a => (key a).isSome then
    .ok (items.mergeSort fun a b =>
      if reverse then (key b).getD 0 ≤ (key a).getD 0
      else (key a).getD 0 ≤ (key b).getD 0)
  else .error .attributeError

/-! ### Abstract forests

A rose-tree forest serves as the abstract model against which the `Tree`
state is verified: a state is well-formed when it represents some forest.
-/

mutual
/-- A node of an abstract forest: a value and its ordered children. -/
inductive AT (α : Type) where
  | node : α → AL α → AT α
/-- An ordered list of abstract trees. -/
inductive AL (α : Type) where
  | nil : AL α
  | cons : AT α → AL α → AL α
end

/-- Value at the root of an abstract tree. -/
def rootVal {α : Type} : AT α → α
  | .node a _ => a

/-- Children of the root of an abstract tree. -/
def kids {α : Type} : AT α → AL α
  | .node _ ts => ts

mutual
/-- Pre-order flattening of a tree (the render order of its block). -/
def flatT {α : Type} : AT α → List α
  | .node a ts => a :: flatL ts
/-- Pre-order flattening of a forest (the full render order). -/
def flatL {α : Type} : AL α → List α
  | .nil => []
  | .cons t ts => flatT t ++ flatL ts
end

/-- Values at the roots of a forest. -/
def rootsOf {α : Type} : AL α → List α
  | .nil => []
  | .cons t ts => rootVal t :: rootsOf ts

/-- The trees of a forest as a `List`. -/
def treesOf {α : Type} : AL α → List (AT α)
  | .nil => []
  | .cons t ts => t :: treesOf ts

mutual
/-- Locate `x` in a tree: the part of the block before `x`'s subtree, the
subtree rooted at `x`, and the part after it. -/
def splitT {α : Type} [DecidableEq α] : AT α → α → Option (List α × AT α × List α)
  | .node a ts, x =>
    if a = x then some ([], .node a ts, [])
    else (splitL ts x).map fun r => (a :: r.1, r.2.1, r.2.2)
/-- Locate `x` in a forest, splitting its flattening around `x`'s subtree. -/
def splitL {α : Type} [DecidableEq α] : AL α → α → Option (List α × AT α × List α)
  | .nil, _ => none
  | .cons t ts, x =>
    match splitT t x with
    | some r => some (r.1, r.2.1, r.2.2 ++ flatL ts)
    | none => (splitL ts x).map fun r => (flatT t ++ r.1, r.2.1, r.2.2)
end

/-- The subtree rooted at `x`, if `x` occurs in the forest. -/
def subF {α : Type} [DecidableEq α] (F : AL α) (x : α) : Option (AT α) :=
  (splitL F x).map fun r => r.2.1

/-- The child values of `x` in the forest (the abstract children bucket). -/
def childF {α : Type} [DecidableEq α] (F : AL α) (x : α) : Option (List α) :=
  (subF F x).map fun s => rootsOf (kids s)

/-- The part of the forest's flattening after `x`'s subtree block. -/
def postF {α : Type} [DecidableEq α] (F : AL α) (x : α) : Option (List α) :=
  (splitL F x).map fun r => r.2.2

/-- The part of the forest's flattening before `x`'s subtree block. -/
def preF {α : Type} [DecidableEq α] (F : AL α) (x : α) : Option (List α) :=
  (splitL F x).map fun r => r.1

mutual
/-- The parent value of `x` within a tree (`none` when absent or the root). -/
def parT {α : Type} [DecidableEq α] : AT α → α → Option α
  | .node a ts, x => if x ∈ rootsOf ts then some a else parL ts x
/-- The parent value of `x` in a forest (`none` for roots and absentees). -/
def parL {α : Type} [DecidableEq α] : AL α → α → Option α
  | .nil, _ => none
  | .cons t ts, x =>
    match parT t x with
    | some p => some p
    | none => parL ts x
end

/-- Append a tree at the end of a forest. -/
def snocL {α : Type} : AL α → AT α → AL α
  | .nil, s => .cons s .nil
  | .cons t ts, s => .cons t (snocL ts s)

mutual
/-- Append a fresh leaf `n` as the last child of `p` inside a tree. -/
def addT {α : Type} [DecidableEq α] (p n : α) : AT α → AT α
  | .node a ts =>
    if a = p then .node a (snocL ts (.node n .nil))
    else .node a (addL p n ts)
/-- Append a fresh leaf `n` as the last child of `p` inside a forest. -/
def addL {α : Type} [DecidableEq α] (p n : α) : AL α → AL α
  | .nil => .nil
  | .cons t ts => .cons (addT p n t) (addL p n ts)
end

/-- Abstract `add`: a new leaf under `p`, or a new last root when `p` is
`none`. -/
def addA {α : Type} [DecidableEq α] : Option α → α → AL α → AL α
  | none, n, F => snocL F (.node n .nil)
  | some p, n, F => addL p n F

mutual
/-- Delete the subtree rooted at `x` inside a tree's children. -/
def delT {α : Type} [DecidableEq α] (x : α) : AT α → AT α
  | .node a ts => .node a (delL x ts)
/-- Delete the subtree rooted at `x` from a forest. -/
def delL {α : Type} [DecidableEq α] (x : α) : AL α → AL α
  | .nil => .nil
  | .cons t ts => if rootVal t = x then ts else .cons (delT x t) (delL x ts)
end

mutual
/-- Depth of a tree. -/
def depthT {α : Type} : AT α → Nat
  | .node _ ts => depthL ts + 1
/-- Depth of a forest. -/
def depthL {α : Type} : AL α → Nat
  | .nil => 0
  | .cons t ts => max (depthT t) (depthL ts)
end

/-! ### Representation relation and well-formedness -/

/-- What one `_children` dict entry must hold, relative to the abstract
forest: the `none` key carries the roots, the key `some x` carries `x`'s
abstract child list. -/
def bucketSpec {α : Type} [DecidableEq α] (F : AL α) :
    Option α × List α → Prop
  | (none, v) => v = rootsOf F
  | (some x, v) => childF F x = some v

/-- The `Tree` state is the faithful dictionary/list encoding of the
abstract forest `F`: `_nodes` is its pre-order flattening without
duplicates, `_children` has exactly the root bucket plus one bucket per
node each holding the abstract child list, and `_parents` realizes the
abstract parent function. -/
def Represents {α : Type} [DecidableEq α] (F : AL α) (t : Tree α) : Prop :=
  t.nodes = flatL F ∧
  (flatL F).Nodup ∧
  (t.children.map Prod.fst).Perm (none :: (flatL F).map some) ∧
  (∀ pr ∈ t.children, bucketSpec F pr) ∧
  (t.parents.map Prod.fst).Nodup ∧
  (∀ pr ∈ t.parents, pr.1 ∈ flatL F) ∧
  (∀ x ∈ flatL F, getParent t x = parL F x)

instance {α : Type} [DecidableEq α] (F : AL α) (pr : Option α × List α) :
    Decidable (bucketSpec F pr) := by
  rcases pr with ⟨k, v⟩
  cases k
  · exact decidable_of_iff (v = rootsOf F) Iff.rfl
  · exact decidable_of_iff (childF F _ = some v) Iff.rfl

instance {α : Type} [DecidableEq α] (F : AL α) (t : Tree α) :
    Decidable (Represents F t) := by
  unfold Represents
  infer_instance

/-- A state is well-formed when it encodes some abstract forest; this is
the class of states satisfying the spec's data-model invariants. -/
def WF {α : Type} [DecidableEq α] (t : Tree α) : Prop :=
  ∃ F : AL α, Represents F t

/-- Two states agree on the abstract data the spec's round-trip can
restore: which nodes are present, and every node's parent. -/
def AbsEq {α : Type} [DecidableEq α] (t1 t2 : Tree α) : Prop :=
  (∀ x, x ∈ t1.nodes ↔ x ∈ t2.nodes) ∧ ∀ x, getParent t1 x = getParent t2 x

/-! ### Operation log

Modelled from the spec: the `state` module (operation log) imported by
`tree.py` is not among the sources; per the spec it records, while at
least one subscriber is active, one invertible event per mutating call —
the inverse of `add(node, parent)` is `remove(node)`, and the inverse of
each removal is `add(node, parent)` with the parent captured by
`get_parent(node)` before the removal takes effect, children events being
recorded before their parent's since children are removed first. Replay
applies the recorded inverse calls newest-first.
-/

/-- Modelled from the spec: a recorded inverse event — the call replay
will perform. -/
inductive Event (α : Type) where
  | addEv : α → Option α → Event α
  | removeEv : α → Event α
deriving DecidableEq, Repr

mutual
/-- Modelled from the spec: the inverse events recorded while removing a
subtree whose root's captured parent is `pa` (children first, depth
first). -/
def remEvT {α : Type} : Option α → AT α → List (Event α)
  | pa, .node a ts => remEvL (some a) ts ++ [Event.addEv a pa]
/-- Modelled from the spec: the inverse events for removing each tree of a
forest, left to right, each root's captured parent being `pa`. -/
def remEvL {α : Type} : Option α → AL α → List (Event α)
  | _, .nil => []
  | pa, .cons t ts => remEvT pa t ++ remEvL pa ts
end

/-- A top-level mutating call of the reversible pair. -/
inductive Call (α : Type) where
  | add : α → Option α → Call α
  | remove : α → Call α
deriving DecidableEq, Repr

/-- Modelled from the spec: execute a sequence of calls on the abstract
forest while recording inverse events in chronological order, `none` when
some call violates its precondition (duplicate added node, absent parent
or absent removed node). -/
def runA {α : Type} [DecidableEq α] : AL α → List (Call α) →
    Option (AL α × List (Event α))
  | F, [] => some (F, [])
  | F, .add n p :: rest =>
    if n ∈ flatL F then none
    else
      match p with
      | none =>
        (runA (addA none n F) rest).map fun r =>
          (r.1, Event.removeEv n :: r.2)
      | some q =>
        if q ∈ flatL F then
          (runA (addA (some q) n F) rest).map fun r =>
            (r.1, Event.removeEv n :: r.2)
        else none
  | F, .remove n :: rest =>
    match subF F n with
    | none => none
    | some s =>
      (runA (delL n F) rest).map fun r =>
        (r.1, remEvT (parL F n) s ++ r.2)

/-- Execute a sequence of calls against the concrete `Tree` code. -/
def runCode {α : Type} [DecidableEq α] [Truthy α] : Tree α → List (Call α) →
    Except Err (Tree α)
  | t, [] => .ok t
  | t, .add n p :: rest =>
    match Tree.add t n p with
    | .error e => .error e
    | .ok t2 => runCode t2 rest
  | t, .remove n :: rest =>
    match Tree.remove t n with
    | .error e => .error e
    | .ok t2 => runCode t2 rest

/-- Replay one recorded event through the concrete code (`saveapply`
invokes the stored inverse call). -/
def applyEvent {α : Type} [DecidableEq α] [Truthy α] (t : Tree α) :
    Event α → Except Err (Tree α)
  | .addEv n p => Tree.add t n p
  | .removeEv n => Tree.remove t n

/-- Modelled from the spec: the play-back loop — reverse the recorded
list and apply each event through the code. -/
def undoAll {α : Type} [DecidableEq α] [Truthy α] (t : Tree α)
    (evs : List (Event α)) : Except Err (Tree α) :=
  evs.reverse.foldlM applyEvent t

/-! ### Concrete states used in counterexamples and witnesses -/

/-- State after `add(0)` on an empty tree of Python-int nodes. -/
def cT1 : Tree Nat := ⟨[0], [(none, [0]), (some 0, [])], []⟩

/-- State after `add(0); add(1, parent=0)`: node `1` sits in `0`'s bucket
but, `0` being falsy, no parent entry was stored and `1` was appended at
the end of the order instead of inside `0`'s block. -/
def cT2 : Tree Nat := ⟨[0, 1], [(none, [0]), (some 0, [1]), (some 1, [])], []⟩

/-- State after `add(3)` on an empty tree. -/
def cU1 : Tree Nat := ⟨[3], [(none, [3]), (some 3, [])], []⟩

/-- State after `add(3); add(1, parent=3)`: with a truthy parent the
parent entry is stored. -/
def cU2 : Tree Nat := ⟨[3, 1], [(none, [3]), (some 3, [1]), (some 1, [])],
  [(1, some 3)]⟩

/-- State after `add(0); add(5)`. -/
def cV2 : Tree Nat := ⟨[0, 5], [(none, [0, 5]), (some 0, []), (some 5, [])], []⟩

/-- State after `add(0); add(5); add(7, parent=0)`: `7` was appended at
the end of the order, not immediately before `5`. -/
def cV3 : Tree Nat :=
  ⟨[0, 5, 7], [(none, [0, 5]), (some 0, [7]), (some 5, []), (some 7, [])], []⟩

/-- State after `add(1)` on an empty tree. -/
def cW1 : Tree Nat := ⟨[1], [(none, [1]), (some 1, [])], []⟩

/-- Corrupt state produced by `add(1); add(1)`: the duplicate add is not
rejected because the present leaf's bucket is the falsy `[]`. -/
def cW2 : Tree Nat := ⟨[1, 1], [(none, [1, 1]), (some 1, [])], []⟩

/-- State with two root leaves `1`, `2` (in that order). -/
def cR0 : Tree Nat :=
  ⟨[1, 2], [(none, [1, 2]), (some 1, []), (some 2, [])], []⟩

/-- Abstract forest of the two root leaves `1`, `2`. -/
def cRF : AL Nat := .cons (.node 1 .nil) (.cons (.node 2 .nil) .nil)

/-- State after removing `1` from `cR0`. -/
def cR1 : Tree Nat := ⟨[2], [(none, [2]), (some 2, [])], []⟩

/-- State after replaying the recorded inverse `add(1, parent=None)` on
`cR1`: node `1` is back but at the end of the order. -/
def cR2 : Tree Nat :=
  ⟨[2, 1], [(none, [2, 1]), (some 2, []), (some 1, [])], []⟩

/-- State after `add(1); reparent(1, None)`: the parent dict holds an
explicit `None`-valued entry for the root-level node `1`. -/
def cP2 : Tree Nat := ⟨[1], [(none, [1]), (some 1, [])], [(1, none)]⟩

/-! ## Theorems -/

/-! ### List and dictionary helper lemmas -/

theorem getq_append {α : Type} (xs l : List α) (k : Nat) :
    (xs ++ l).get? (xs.length + k) = l.get? k := by
  induction xs with
  | nil => simp
  | cons x xs ih =>
    have : x :: xs ++ l = x :: (xs ++ l) := rfl
    rw [this]
    have harith : xs.length + 1 + k = (xs.length + k) + 1 := by omega
    simp only [List.length_cons, harith, List.get?]
    exact ih

theorem pyIndex_append_cons {α : Type} [DecidableEq α] {xs : List α} {n : α}
    (ys : List α) (hnx : n ∉ xs) :
    pyIndex (xs ++ n :: ys) n = .ok xs.length := by
  induction xs with
  | nil => simp [pyIndex]
  | cons x xs ih =>
    have hxn : x ≠ n := fun h => hnx (h ▸ List.mem_cons_self x xs)
    have hnx2 : n ∉ xs := fun h => hnx (List.mem_cons_of_mem x h)
    have : x :: xs ++ n :: ys = x :: (xs ++ n :: ys) := rfl
    rw [this]
    simp [pyIndex, hxn, ih hnx2, Except.map]

theorem pyIndex_ok_mem {α : Type} [DecidableEq α] {l : List α} {a : α} {i : Nat}
    (h : pyIndex l a = .ok i) : a ∈ l := by
  induction l generalizing i with
  | nil => simp [pyIndex] at h
  | cons x xs ih =>
    by_cases hxa : x = a
    · exact hxa ▸ List.mem_cons_self x xs
    · simp [pyIndex, hxa] at h
      rcases hp : pyIndex xs a with e | j
      · rw [hp] at h; simp [Except.map] at h
      · exact List.mem_cons_of_mem x (ih hp)

theorem pyIndex_not_mem {α : Type} [DecidableEq α] {l : List α} {a : α}
    (h : a ∉ l) : pyIndex l a = .error .valueError := by
  induction l with
  | nil => rfl
  | cons x xs ih =>
    have hxa : x ≠ a := fun hh => h (hh ▸ List.mem_cons_self x xs)
    have : a ∉ xs := fun hh => h (List.mem_cons_of_mem x hh)
    simp [pyIndex, hxa, ih this, Except.map]

theorem pyRemove_eq_erase {α : Type} [DecidableEq α] {l : List α} {a : α}
    (h : a ∈ l) : pyRemove l a = .ok (l.erase a) := by
  induction l with
  | nil => cases h
  | cons x xs ih =>
    by_cases hxa : x = a
    · subst hxa; simp [pyRemove, List.erase_cons_head]
    · have : a ∈ xs := by
        rcases List.mem_cons.mp h with h1 | h1
        · exact absurd h1.symm hxa
        · exact h1
      simp [pyRemove, hxa, ih this, Except.map, List.erase_cons_tail,
        (by simpa using hxa : ¬ (x == a) = true)]

theorem pyRemove_not_mem {α : Type} [DecidableEq α] {l : List α} {a : α}
    (h : a ∉ l) : pyRemove l a = .error .valueError := by
  induction l with
  | nil => rfl
  | cons x xs ih =>
    have hxa : x ≠ a := fun hh => h (hh ▸ List.mem_cons_self x xs)
    have : a ∉ xs := fun hh => h (List.mem_cons_of_mem x hh)
    simp [pyRemove, hxa, ih this, Except.map]

theorem pyInsert_eq {α : Type} {l : List α} {k : Nat} (a : α)
    (h : k ≤ l.length) : pyInsert l k a = l.take k ++ a :: l.drop k := by
  induction l generalizing k with
  | nil =>
    have : k = 0 := by simpa using h
    subst this
    rfl
  | cons x xs ih =>
    cases k with
    | zero => rfl
    | succ k =>
      have : k ≤ xs.length := by simpa using h
      simp [pyInsert, ih this]

theorem alookup_eq_none_iff {κ ν : Type} [DecidableEq κ] {l : List (κ × ν)}
    {k : κ} : alookup l k = none ↔ k ∉ l.map Prod.fst := by
  induction l with
  | nil => simp [alookup]
  | cons pr rest ih =>
    rcases pr with ⟨k1, v1⟩
    by_cases hk : k1 = k
    · subst hk; simp [alookup]
    · simp [alookup, hk, ih, Ne.symm hk]

theorem alookup_some_mem {κ ν : Type} [DecidableEq κ] {l : List (κ × ν)}
    {k : κ} {v : ν} (h : alookup l k = some v) : (k, v) ∈ l := by
  induction l with
  | nil => simp [alookup] at h
  | cons pr rest ih =>
    rcases pr with ⟨k1, v1⟩
    by_cases hk : k1 = k
    · subst hk
      simp [alookup] at h
      simp [h]
    · simp [alookup, hk] at h
      exact List.mem_cons_of_mem _ (ih h)

theorem mem_alookup {κ ν : Type} [DecidableEq κ] {l : List (κ × ν)}
    {k : κ} {v : ν} (hnd : (l.map Prod.fst).Nodup) (h : (k, v) ∈ l) :
    alookup l k = some v := by
  induction l with
  | nil => cases h
  | cons pr rest ih =>
    rcases pr with ⟨k1, v1⟩
    rcases List.mem_cons.mp h with h1 | h1
    · cases h1; simp [alookup]
    · have hk : k1 ≠ k := by
        intro he
        subst he
        exact (List.nodup_cons.mp hnd).1 (List.mem_map.mpr ⟨(k1, v), h1, rfl⟩)
      simp [alookup, hk]
      exact ih (List.nodup_cons.mp hnd).2 h1

theorem alookup_isSome_of_mem_keys {κ ν : Type} [DecidableEq κ]
    {l : List (κ × ν)} {k : κ} (h : k ∈ l.map Prod.fst) :
    ∃ v, alookup l k = some v := by
  rcases ho : alookup l k with _ | v
  · exact absurd (alookup_eq_none_iff.mp ho) (by simp [h])
  · exact ⟨v, rfl⟩

theorem alookup_aset_self {κ ν : Type} [DecidableEq κ] (l : List (κ × ν))
    (k : κ) (v : ν) : alookup (aset l k v) k = some v := by
  induction l with
  | nil => simp [aset, alookup]
  | cons pr rest ih =>
    rcases pr with ⟨k1, v1⟩
    by_cases hk : k1 = k
    · subst hk; simp [aset, alookup]
    · simp [aset, alookup, hk, ih]

theorem alookup_aset_ne {κ ν : Type} [DecidableEq κ] (l : List (κ × ν))
    {k k2 : κ} (v : ν) (h : k2 ≠ k) :
    alookup (aset l k v) k2 = alookup l k2 := by
  induction l with
  | nil => simp [aset, alookup, Ne.symm h]
  | cons pr rest ih =>
    rcases pr with ⟨k1, v1⟩
    by_cases hk : k1 = k
    · subst hk; simp [aset, alookup, Ne.symm h]
    · by_cases hk2 : k1 = k2
      · subst hk2; simp [aset, alookup, hk]
      · simp [aset, alookup, hk, hk2, ih]

theorem alookup_adel_self {κ ν : Type} [DecidableEq κ] {l : List (κ × ν)}
    (k : κ) (hnd : (l.map Prod.fst).Nodup) : alookup (adel l k) k = none := by
  induction l with
  | nil => rfl
  | cons pr rest ih =>
    rcases pr with ⟨k1, v1⟩
    by_cases hk : k1 = k
    · subst hk
      simp [adel]
      exact alookup_eq_none_iff.mpr (List.nodup_cons.mp hnd).1
    · simp [adel, hk, alookup, ih (List.nodup_cons.mp hnd).2]

theorem alookup_adel_ne {κ ν : Type} [DecidableEq κ] (l : List (κ × ν))
    {k k2 : κ} (h : k2 ≠ k) : alookup (adel l k) k2 = alookup l k2 := by
  induction l with
  | nil => rfl
  | cons pr rest ih =>
    rcases pr with ⟨k1, v1⟩
    by_cases hk : k1 = k
    · subst hk; simp [adel, alookup, Ne.symm h]
    · by_cases hk2 : k1 = k2
      · subst hk2; simp [adel, alookup, hk]
      · simp [adel, alookup, hk, hk2, ih]

theorem aset_keys_mem {κ ν : Type} [DecidableEq κ] {l : List (κ × ν)} {k : κ}
    (v : ν) (h : k ∈ l.map Prod.fst) :
    (aset l k v).map Prod.fst = l.map Prod.fst := by
  induction l with
  | nil => simp at h
  | cons pr rest ih =>
    rcases pr with ⟨k1, v1⟩
    by_cases hk : k1 = k
    · subst hk; simp [aset]
    · have : k ∈ rest.map Prod.fst := by
        rcases List.mem_map.mp h with ⟨⟨ka, va⟩, hmem, he⟩
        rcases List.mem_cons.mp hmem with h1 | h1
        · cases h1; simp at he; exact absurd he hk
        · exact List.mem_map.mpr ⟨_, h1, he⟩
      simp [aset, hk, ih this]

theorem aset_keys_new {κ ν : Type} [DecidableEq κ] {l : List (κ × ν)} {k : κ}
    (v : ν) (h : k ∉ l.map Prod.fst) :
    (aset l k v).map Prod.fst = l.map Prod.fst ++ [k] := by
  induction l with
  | nil => simp [aset]
  | cons pr rest ih =>
    rcases pr with ⟨k1, v1⟩
    have hk : k1 ≠ k := by
      intro he; exact h (by simp [he])
    have : k ∉ rest.map Prod.fst := fun hh => h (by simp [hh])
    simp [aset, hk, ih this]

theorem adel_keys {κ ν : Type} [DecidableEq κ] (l : List (κ × ν)) (k : κ) :
    (adel l k).map Prod.fst = (l.map Prod.fst).erase k := by
  induction l with
  | nil => rfl
  | cons pr rest ih =>
    rcases pr with ⟨k1, v1⟩
    by_cases hk : k1 = k
    · subst hk; simp [adel, List.erase_cons_head]
    · simp [adel, hk, ih, List.erase_cons_tail,
        (by simpa using hk : ¬ (k1 == k) = true)]

theorem mem_aset_elim {κ ν : Type} [DecidableEq κ] {l : List (κ × ν)}
    {k : κ} {v : ν} {pr : κ × ν} (h : pr ∈ aset l k v) :
    pr = (k, v) ∨ pr ∈ l := by
  induction l with
  | nil => simpa [aset] using h
  | cons pr1 rest ih =>
    rcases pr1 with ⟨k1, v1⟩
    by_cases hk : k1 = k
    · subst hk
      simp [aset] at h
      rcases h with h | h
      · exact Or.inl (by simp [h])
      · exact Or.inr (List.mem_cons_of_mem _ h)
    · simp [aset, hk] at h
      rcases h with h | h
      · exact Or.inr (by simp [h])
      · rcases ih h with h2 | h2
        · exact Or.inl h2
        · exact Or.inr (List.mem_cons_of_mem _ h2)

theorem mem_adel_elim {κ ν : Type} [DecidableEq κ] {l : List (κ × ν)}
    {k : κ} {pr : κ × ν} (h : pr ∈ adel l k) : pr ∈ l := by
  induction l with
  | nil => simpa [adel] using h
  | cons pr1 rest ih =>
    rcases pr1 with ⟨k1, v1⟩
    by_cases hk : k1 = k
    · subst hk
      simp [adel] at h
      exact List.mem_cons_of_mem _ h
    · simp [adel, hk] at h
      rcases h with h | h
      · simp [h]
      · exact List.mem_cons_of_mem _ (ih h)

/-! ### C7: sibling queries -/

/-- C7, confirmed on spec-conformant states: for a present node whose
sibling list (the children bucket of its parent, containing the node once)
is `xs ++ n :: ys`, `get_next_sibling` fails with the error the spec names
`NoSiblingError` exactly when `ys` is empty and otherwise returns the head
of `ys` (the sibling immediately after `n`); `get_previous_sibling` fails
exactly when `xs` is empty and otherwise returns the last element of `xs`
(the sibling immediately before `n`). -/
theorem C7_sibling_queries {α : Type} [DecidableEq α] (t : Tree α) (n : α)
    (xs ys : List α) (hs : get_siblings t n = .ok (xs ++ n :: ys))
    (hnx : n ∉ xs) :
    (ys = [] → get_next_sibling t n = .error .indexError) ∧
    (∀ q ys2, ys = q :: ys2 → get_next_sibling t n = .ok q) ∧
    (xs = [] → get_previous_sibling t n = .error .indexError) ∧
    (∀ xs2 q, xs = xs2 ++ [q] → get_previous_sibling t n = .ok q) := by
  have hidx : pyIndex (xs ++ n :: ys) n = .ok xs.length :=
    pyIndex_append_cons ys hnx
  have hnext : ∀ r, (xs ++ n :: ys).get? (xs.length + 1) = r →
      (get_next_sibling t n =
        match r with
        | some x => .ok x
        | none => .error .indexError) := by
    intro r hr
    have hr2 : (xs ++ n :: ys)[xs.length + 1]? = r := by
      simpa [← List.get?_eq_getElem?] using hr
    simp [get_next_sibling, hs, hidx, bind, Except.bind, hr2]
  have hgetnext : (xs ++ n :: ys).get? (xs.length + 1) = ys.get? 0 := by
    simpa using getq_append xs (n :: ys) 1
  refine ⟨?_, ?_, ?_, ?_⟩
  · intro hys
    subst hys
    exact hnext none (by simpa using hgetnext)
  · intro q ys2 hys
    subst hys
    exact hnext (some q) (by simpa using hgetnext)
  · intro hxs
    subst hxs
    simp at hs hidx
    simp [get_previous_sibling, hs, hidx, bind, Except.bind]
  · intro xs2 q hxs
    subst hxs
    have hidx2 : pyIndex (xs2 ++ q :: n :: ys) n = .ok (xs2.length + 1) := by
      simpa [List.append_assoc] using hidx
    have hs2 : get_siblings t n = .ok (xs2 ++ q :: n :: ys) := by
      simpa [List.append_assoc] using hs
    have hget : (xs2 ++ q :: n :: ys)[xs2.length]? = some q := by
      rw [← List.get?_eq_getElem?]
      simpa using getq_append xs2 (q :: n :: ys) 0
    simp [get_previous_sibling, hs2, hidx2, bind, Except.bind, hget]

/-- Witness for C7 at the two-root state `[1, 2]`: both success branches
and both failure branches are exercised. -/
theorem C7_sibling_queries_witness :
    get_siblings cR0 1 = .ok ([] ++ 1 :: [2]) ∧
    get_next_sibling cR0 1 = .ok 2 ∧
    get_previous_sibling cR0 1 = .error .indexError ∧
    get_siblings cR0 2 = .ok ([1] ++ 2 :: []) ∧
    get_next_sibling cR0 2 = .error .indexError ∧
    get_previous_sibling cR0 2 = .ok 1 := by
  refine ⟨by decide, ?_, ?_, by decide, ?_, ?_⟩
  · exact (C7_sibling_queries cR0 1 [] [2] (by decide) (by decide)).2.1 2 [] rfl
  · exact (C7_sibling_queries cR0 1 [] [2] (by decide) (by decide)).2.2.1 rfl
  · exact (C7_sibling_queries cR0 2 [1] [] (by decide) (by decide)).1 rfl
  · exact (C7_sibling_queries cR0 2 [1] [] (by decide) (by decide)).2.2.2 [] 1 rfl

/-! ### C9: the sorter -/

theorem lastIdx_get {α : Type} [DecidableEq α] {l : List α} {a : α} {i : Nat}
    (h : lastIdx l a = some i) : l.get? i = some a := by
  induction l generalizing i with
  | nil => simp [lastIdx] at h
  | cons x xs ih =>
    simp only [lastIdx] at h
    rcases hxs : lastIdx xs a with _ | j <;> rw [hxs] at h
    · by_cases hxa : x = a
      · simp [hxa] at h
        simp [← h, List.get?, hxa]
      · simp [hxa] at h
    · simp at h
      rw [← h]
      simpa [List.get?] using ih hxs

theorem lastIdx_inj {α : Type} [DecidableEq α] {l : List α} {a b : α}
    (ha : (lastIdx l a).isSome) (h : lastIdx l a = lastIdx l b) : a = b := by
  rcases hh : lastIdx l a with _ | i
  · rw [hh] at ha; simp at ha
  · have hb : lastIdx l b = some i := by rw [← h, hh]
    have h1 := lastIdx_get hh
    have h2 := lastIdx_get hb
    rw [h1] at h2
    exact Option.some.inj h2

theorem pairwise_subset_sublist {α : Type} {r : α → α → Prop}
    (hasym : ∀ a b, r a b → r b a → False) :
    ∀ (l2 l1 : List α), l1.Pairwise r → l2.Pairwise r →
      (∀ x ∈ l1, x ∈ l2) → l1.Sublist l2 := by
  intro l2
  induction l2 with
  | nil =>
    intro l1 _ _ hsub
    cases l1 with
    | nil => exact List.Sublist.refl _
    | cons a l1 =>
      exact absurd (hsub a (List.mem_cons_self a l1)) (List.not_mem_nil a)
  | cons b l2 ih =>
    intro l1 h1 h2 hsub
    cases l1 with
    | nil => exact List.nil_sublist _
    | cons a l1 =>
      by_cases hab : a = b
      · subst hab
        refine List.Sublist.cons₂ a (ih l1 h1.of_cons h2.of_cons ?_)
        intro x hx
        rcases List.mem_cons.mp (hsub x (List.mem_cons_of_mem a hx)) with he | hm
        · subst he
          exact absurd (List.rel_of_pairwise_cons h1 hx)
            (fun hr => hasym x x hr hr)
        · exact hm
      · have hal2 : a ∈ l2 := by
          rcases List.mem_cons.mp (hsub a (List.mem_cons_self a l1)) with he | hm
          · exact absurd he hab
          · exact hm
        refine List.Sublist.cons b (ih (a :: l1) h1 h2.of_cons ?_)
        intro x hx
        rcases List.mem_cons.mp (hsub x hx) with he | hm
        · subst he
          rcases List.mem_cons.mp hx with he2 | hm2
          · exact absurd he2.symm hab
          · have hrab : r a x := List.rel_of_pairwise_cons h1 hm2
            have hrba : r x a := List.rel_of_pairwise_cons h2 hal2
            exact absurd hrab (fun hr => hasym _ _ hr hrba)
        · exact hm

theorem sort_ok_shape {α : Type} (key : α → Option Nat) (items out : List α)
    (rev : Bool) (h : TreeSorter.sort key items rev = .ok out) :
    items.all (fun a => (key a).isSome) = true ∧
    out = items.mergeSort (fun a b =>
      if rev then (key b).getD 0 ≤ (key a).getD 0
      else (key a).getD 0 ≤ (key b).getD 0) := by
  by_cases hall : items.all (fun a => (key a).isSome)
  · refine ⟨hall, ?_⟩
    rw [TreeSorter.sort, if_pos hall] at h
    exact (Except.ok.inj h).symm
  · rw [TreeSorter.sort, if_neg hall] at h
    cases h

/-- C9: on a fixed `reindex` snapshot, sorting is idempotent, sorting a
subset of an indexed collection yields a subsequence of sorting the
collection, and the result of `sort` is the input permuted into ascending
(for `reverse=False`) or descending (for `reverse=True`) snapshot-key
order. -/
theorem C9_sorter_properties {α : Type} [DecidableEq α] (t : Tree α) :
    (∀ items out,
      TreeSorter.sort (TreeSorter.reindex t) items false = .ok out →
      TreeSorter.sort (TreeSorter.reindex t) out false = .ok out) ∧
    (∀ S T sS sT, S.Nodup → T.Nodup → (∀ x ∈ S, x ∈ T) →
      TreeSorter.sort (TreeSorter.reindex t) S false = .ok sS →
      TreeSorter.sort (TreeSorter.reindex t) T false = .ok sT →
      sS.Sublist sT) ∧
    (∀ items out,
      TreeSorter.sort (TreeSorter.reindex t) items false = .ok out →
      out.Perm items ∧ out.Pairwise (fun a b =>
        (TreeSorter.reindex t a).getD 0 ≤ (TreeSorter.reindex t b).getD 0)) ∧
    (∀ items out,
      TreeSorter.sort (TreeSorter.reindex t) items true = .ok out →
      out.Perm items ∧ out.Pairwise (fun a b =>
        (TreeSorter.reindex t b).getD 0 ≤ (TreeSorter.reindex t a).getD 0)) := by
  set key : α → Option Nat := TreeSorter.reindex t with hkey
  have hcA : ∀ l : List α, l.mergeSort (fun a b =>
      if false then (key b).getD 0 ≤ (key a).getD 0
      else (key a).getD 0 ≤ (key b).getD 0) =
      l.mergeSort (fun a b => (key a).getD 0 ≤ (key b).getD 0) := by
    intro l; simp
  have htransA : ∀ a b c : α,
      (decide ((key a).getD 0 ≤ (key b).getD 0)) = true →
      (decide ((key b).getD 0 ≤ (key c).getD 0)) = true →
      (decide ((key a).getD 0 ≤ (key c).getD 0)) = true := by
    intro a b c h1 h2
    simp only [decide_eq_true_eq] at h1 h2 ⊢
    omega
  have htotA : ∀ a b : α,
      ((decide ((key a).getD 0 ≤ (key b).getD 0)) ||
       (decide ((key b).getD 0 ≤ (key a).getD 0))) = true := by
    intro a b
    simp only [Bool.or_eq_true, decide_eq_true_eq]
    omega
  have hsortedA : ∀ l : List α,
      (l.mergeSort (fun a b => (key a).getD 0 ≤ (key b).getD 0)).Pairwise
        (fun a b => (key a).getD 0 ≤ (key b).getD 0) := by
    intro l
    have := List.sorted_mergeSort htransA htotA l
    exact this.imp (by simp)
  have hpermA : ∀ l : List α,
      (l.mergeSort (fun a b => (key a).getD 0 ≤ (key b).getD 0)).Perm l := by
    intro l; exact List.mergeSort_perm l _
  have hstrict : ∀ (S sS : List α), S.Nodup →
      S.all (fun a => (key a).isSome) = true →
      sS = S.mergeSort (fun a b => (key a).getD 0 ≤ (key b).getD 0) →
      sS.Pairwise (fun a b => (key a).getD 0 < (key b).getD 0) := by
    intro S sS hnd hall hsS
    have hnd2 : sS.Nodup := by
      rw [hsS]
      exact ((hpermA S).nodup_iff).mpr hnd
    have hle : sS.Pairwise (fun a b => (key a).getD 0 ≤ (key b).getD 0) :=
      hsS ▸ hsortedA S
    have hand := hle.and hnd2
    refine hand.imp_of_mem ?_
    intro a b hma hmb hab
    rcases hab with ⟨hle2, hne⟩
    have hmaS : a ∈ S := ((hpermA S).mem_iff).mp (hsS ▸ hma)
    have hmbS : b ∈ S := ((hpermA S).mem_iff).mp (hsS ▸ hmb)
    have hsa : (key a).isSome := by
      have := List.all_eq_true.mp hall a hmaS; simpa using this
    have hsb : (key b).isSome := by
      have := List.all_eq_true.mp hall b hmbS; simpa using this
    rcases Nat.lt_or_ge ((key a).getD 0) ((key b).getD 0) with hlt | hge
    · exact hlt
    · exfalso
      have heq : (key a).getD 0 = (key b).getD 0 := by omega
      rcases Option.isSome_iff_exists.mp hsa with ⟨i, hi⟩
      rcases Option.isSome_iff_exists.mp hsb with ⟨j, hj⟩
      have hkab : key a = key b := by
        rw [hi, hj] at heq ⊢
        simpa using heq
      have hi2 : lastIdx t.nodes a = some i := by
        simpa [hkey, TreeSorter.reindex] using hi
      have hsa2 : (lastIdx t.nodes a).isSome := by simp [hi2]
      have hkab2 : lastIdx t.nodes a = lastIdx t.nodes b := by
        simpa [hkey, TreeSorter.reindex] using hkab
      exact hne (lastIdx_inj hsa2 hkab2)
  refine ⟨?_, ?_, ?_, ?_⟩
  · intro items out h
    rcases sort_ok_shape key items out false h with ⟨hall, hout⟩
    rw [hcA] at hout
    have hallout : out.all (fun a => (key a).isSome) = true := by
      refine List.all_eq_true.mpr ?_
      intro a ha
      exact List.all_eq_true.mp hall a (((hpermA items).mem_iff).mp (hout ▸ ha))
    have hsorted : out.Pairwise (fun a b : α =>
        (decide ((key a).getD 0 ≤ (key b).getD 0)) = true) := by
      refine (hout ▸ hsortedA items).imp ?_
      simp
    rw [TreeSorter.sort, if_pos hallout]
    have : out.mergeSort (fun a b =>
        if false then (key b).getD 0 ≤ (key a).getD 0
        else (key a).getD 0 ≤ (key b).getD 0) = out := by
      rw [hcA]
      exact List.mergeSort_of_sorted hsorted
    rw [this]
  · intro S T sS sT hndS hndT hsub hS hT
    rcases sort_ok_shape key S sS false hS with ⟨hallS, houtS⟩
    rcases sort_ok_shape key T sT false hT with ⟨hallT, houtT⟩
    rw [hcA] at houtS houtT
    have hstrS := hstrict S sS hndS hallS houtS
    have hstrT := hstrict T sT hndT hallT houtT
    refine pairwise_subset_sublist (fun a b h1 h2 => ?_) sT sS hstrS hstrT ?_
    · omega
    · intro x hx
      have hxS : x ∈ S := by
        rw [houtS] at hx
        exact ((hpermA S).mem_iff).mp hx
      rw [houtT]
      exact ((hpermA T).mem_iff).mpr (hsub x hxS)
  · intro items out h
    rcases sort_ok_shape key items out false h with ⟨hall, hout⟩
    rw [hcA] at hout
    exact ⟨hout ▸ hpermA items, hout ▸ hsortedA items⟩
  · intro items out h
    rcases sort_ok_shape key items out true h with ⟨hall, hout⟩
    have htransD : ∀ a b c : α,
        (decide ((key b).getD 0 ≤ (key a).getD 0)) = true →
        (decide ((key c).getD 0 ≤ (key b).getD 0)) = true →
        (decide ((key c).getD 0 ≤ (key a).getD 0)) = true := by
      intro a b c h1 h2
      simp only [decide_eq_true_eq] at h1 h2 ⊢
      omega
    have htotD : ∀ a b : α,
        ((decide ((key b).getD 0 ≤ (key a).getD 0)) ||
         (decide ((key a).getD 0 ≤ (key b).getD 0))) = true := by
      intro a b
      simp only [Bool.or_eq_true, decide_eq_true_eq]
      omega
    have hD : out = items.mergeSort
        (fun a b => (key b).getD 0 ≤ (key a).getD 0) := by
      rw [hout]; simp
    constructor
    · exact hD ▸ List.mergeSort_perm items _
    · have := List.sorted_mergeSort htransD htotD items
      exact hD ▸ this.imp (by simp)

/-- Witness for C9 at the two-root state: sorting `[2, 1]` by the snapshot
of `cR0` gives `[1, 2]`, which is a permutation of the input in ascending
key order; sorting it again returns it unchanged. -/
theorem C9_sorter_properties_witness :
    TreeSorter.sort (TreeSorter.reindex cR0) [2, 1] false = .ok [1, 2] ∧
    TreeSorter.sort (TreeSorter.reindex cR0) [1, 2] false = .ok [1, 2] ∧
    ([1, 2] : List Nat).Perm [2, 1] ∧
    List.Pairwise (fun a b => (TreeSorter.reindex cR0 a).getD 0 ≤
      (TreeSorter.reindex cR0 b).getD 0) [1, 2] := by
  have hs : TreeSorter.sort (TreeSorter.reindex cR0) [2, 1] false =
      .ok [1, 2] := by
    simp [TreeSorter.sort, TreeSorter.reindex, lastIdx, cR0, List.mergeSort]
  refine ⟨hs, (C9_sorter_properties cR0).1 [2, 1] [1, 2] hs,
    ((C9_sorter_properties cR0).2.2.1 [2, 1] [1, 2] hs).1,
    ((C9_sorter_properties cR0).2.2.1 [2, 1] [1, 2] hs).2⟩

/-! ### C8: parent entries of root-level nodes -/

theorem add_parents_shape {α : Type} [DecidableEq α] [Truthy α] {t : Tree α}
    {n : α} {p : Option α} {t2 : Tree α} (h : Tree.add t n p = .ok t2) :
    t2.parents = if truO p then aset t.parents n p else t.parents := by
  rw [Tree.add] at h
  rcases h1 : alookup t.children (some n) with _ | l
  · rw [h1] at h
    rcases h2 : alookup t.children p with _ | sibs <;> rw [h2] at h
    · cases h
    · rcases h3 : addToNodes t n (stdFuel t) p with e | nn <;> rw [h3] at h
      · cases h
      · cases h
        rfl
  · cases l with
    | nil =>
      rw [h1] at h
      rcases h2 : alookup t.children p with _ | sibs <;> rw [h2] at h
      · cases h
      · rcases h3 : addToNodes t n (stdFuel t) p with e | nn <;> rw [h3] at h
        · cases h
        · cases h
          rfl
    | cons x xs =>
      rw [h1] at h
      cases h

theorem removeFuel_parents_vals {α : Type} [DecidableEq α] : ∀ fuel : Nat,
    (∀ (t : Tree α) (node : α) (t2 : Tree α),
      (∀ pr ∈ t.parents, pr.2 ≠ none) → removeFuel fuel t node = .ok t2 →
      ∀ pr ∈ t2.parents, pr.2 ≠ none) ∧
    (∀ (t : Tree α) (cs : List α) (t2 : Tree α),
      (∀ pr ∈ t.parents, pr.2 ≠ none) → removeChildren fuel t cs = .ok t2 →
      ∀ pr ∈ t2.parents, pr.2 ≠ none) := by
  intro fuel
  induction fuel with
  | zero =>
    constructor
    · intro t node t2 hv h
      rw [removeFuel] at h
      cases h
    · intro t cs t2 hv h
      cases cs with
      | nil =>
        rw [removeChildren] at h
        cases h
        exact hv
      | cons c rest =>
        rw [removeChildren, removeFuel] at h
        cases h
  | succ fuel ih =>
    have hP : ∀ (t : Tree α) (node : α) (t2 : Tree α),
        (∀ pr ∈ t.parents, pr.2 ≠ none) →
        removeFuel (fuel + 1) t node = .ok t2 →
        ∀ pr ∈ t2.parents, pr.2 ≠ none := by
      intro t node t2 hv h
      rw [removeFuel] at h
      rcases h1 : alookup t.children (some node) with _ | cs <;>
        simp only [h1] at h
      · cases h
      · rcases h2 : removeChildren fuel t cs with e | t1 <;>
          simp only [h2] at h
        · cases h
        · have hv1 := ih.2 t cs t1 hv h2
          rcases h3 : alookup t1.children (getParent t1 node) with _ | sibs <;>
            simp only [h3] at h
          · cases h
          · rcases h4 : pyRemove sibs node with e | sibs2 <;>
              simp only [h4] at h
            · cases h
            · rcases h5 : pyRemove t1.nodes node with e | nn <;>
                simp only [h5] at h
              · cases h
              · cases h
                intro pr hpr
                exact hv1 pr (mem_adel_elim hpr)
    refine ⟨hP, ?_⟩
    intro t cs
    induction cs generalizing t with
    | nil =>
      intro t2 hv h
      rw [removeChildren] at h
      cases h
      exact hv
    | cons c rest ihc =>
      intro t2 hv h
      rw [removeChildren] at h
      rcases h1 : removeFuel (fuel + 1) t c with e | t1 <;> rw [h1] at h
      · cases h
      · exact ihc t1 t2 (hP t c t1 hv h1) h

theorem runCode_parents_vals {α : Type} [DecidableEq α] [Truthy α] :
    ∀ (ops : List (Call α)) (t0 t : Tree α),
      (∀ pr ∈ t0.parents, pr.2 ≠ none) →
      runCode t0 ops = .ok t → ∀ pr ∈ t.parents, pr.2 ≠ none := by
  intro ops
  induction ops with
  | nil =>
    intro t0 t hv h
    rw [runCode] at h
    cases h
    exact hv
  | cons c rest ih =>
    intro t0 t hv h
    cases c with
    | add n p =>
      rw [runCode] at h
      rcases ha : Tree.add t0 n p with e | t1 <;> rw [ha] at h
      · cases h
      · refine ih t1 t ?_ h
        have hsh := add_parents_shape ha
        intro pr hpr
        rw [hsh] at hpr
        by_cases htp : truO p
        · rw [if_pos htp] at hpr
          rcases mem_aset_elim hpr with he | hm
          · subst he
            cases p with
            | none => simp [truO] at htp
            | some q => simp
          · exact hv pr hm
        · rw [if_neg htp] at hpr
          exact hv pr hpr
    | remove n =>
      rw [runCode] at h
      rcases hr : Tree.remove t0 n with e | t1 <;> rw [hr] at h
      · cases h
      · exact ih t1 t ((removeFuel_parents_vals (stdFuel t0)).1 t0 n t1 hv hr) h

/-- C8 (amended): for sequences of `add` and `remove` calls the parent
dict never maps any node to `None` — in particular it has no entry for
any root-level node; `reparent(node, None)` however stores an explicit
`None`-valued entry (see the counterexample). -/
theorem C8_no_none_parent_entries {α : Type} [DecidableEq α] [Truthy α]
    (ops : List (Call α)) (t : Tree α) (h : runCode Tree.init ops = .ok t) :
    (∀ pr ∈ t.parents, pr.2 ≠ none) ∧
    (∀ n, getParent t n = none → alookup t.parents n = none) := by
  have hvals := runCode_parents_vals ops Tree.init t (by simp [Tree.init]) h
  refine ⟨hvals, ?_⟩
  intro n hgp
  rcases hl : alookup t.parents n with _ | v
  · rfl
  · exfalso
    have hmem := alookup_some_mem hl
    have hne := hvals _ hmem
    rw [getParent, hl] at hgp
    cases v with
    | none => exact hne rfl
    | some q => simp [Option.join] at hgp

/-- Witness for C8 (amended) on the sequence `add(1); add(2, parent=1);
remove(2)`. -/
theorem C8_no_none_parent_entries_witness :
    runCode (Tree.init : Tree Nat)
      [Call.add 1 none, Call.add 2 (some 1), Call.remove 2] = .ok cW1 ∧
    (∀ pr ∈ cW1.parents, pr.2 ≠ none) ∧
    (∀ n, getParent cW1 n = none → alookup cW1.parents n = none) := by
  have hrun : runCode (Tree.init : Tree Nat)
      [Call.add 1 none, Call.add 2 (some 1), Call.remove 2] = .ok cW1 := by
    simp [runCode, Tree.add, Tree.init, Tree.remove, stdFuel, removeFuel,
      removeChildren, alookup, aset, adel, addToNodes, getParent, pyRemove,
      truO, Truthy.tru, get_next_sibling, get_siblings, get_children, pyIndex,
      bind, Except.bind, Except.map, cW1]
  exact ⟨hrun, (C8_no_none_parent_entries _ _ hrun).1,
    (C8_no_none_parent_entries _ _ hrun).2⟩

/-! ### Basic consequences of `Represents` -/

theorem rep_nodes {α : Type} [DecidableEq α] {F : AL α} {t : Tree α}
    (h : Represents F t) : t.nodes = flatL F := h.1

theorem rep_nodup {α : Type} [DecidableEq α] {F : AL α} {t : Tree α}
    (h : Represents F t) : (flatL F).Nodup := h.2.1

theorem rep_keysPerm {α : Type} [DecidableEq α] {F : AL α} {t : Tree α}
    (h : Represents F t) :
    (t.children.map Prod.fst).Perm (none :: (flatL F).map some) := h.2.2.1

theorem rep_buckets {α : Type} [DecidableEq α] {F : AL α} {t : Tree α}
    (h : Represents F t) : ∀ pr ∈ t.children, bucketSpec F pr := h.2.2.2.1

theorem rep_pkeysNodup {α : Type} [DecidableEq α] {F : AL α} {t : Tree α}
    (h : Represents F t) : (t.parents.map Prod.fst).Nodup := h.2.2.2.2.1

theorem rep_pdom {α : Type} [DecidableEq α] {F : AL α} {t : Tree α}
    (h : Represents F t) : ∀ pr ∈ t.parents, pr.1 ∈ flatL F := h.2.2.2.2.2.1

theorem rep_getParent {α : Type} [DecidableEq α] {F : AL α} {t : Tree α}
    (h : Represents F t) : ∀ x ∈ flatL F, getParent t x = parL F x :=
  h.2.2.2.2.2.2

theorem rep_ckeys_nodup {α : Type} [DecidableEq α] {F : AL α} {t : Tree α}
    (h : Represents F t) : (t.children.map Prod.fst).Nodup := by
  refine ((rep_keysPerm h).nodup_iff).mpr ?_
  refine List.nodup_cons.mpr ⟨by simp, ?_⟩
  exact (rep_nodup h).map (fun a b hab => Option.some.inj hab)

theorem rep_children_count {α : Type} [DecidableEq α] {F : AL α} {t : Tree α}
    (h : Represents F t) : t.children.length = t.nodes.length + 1 := by
  have h1 : (t.children.map Prod.fst).length =
      (none :: (flatL F).map some).length := (rep_keysPerm h).length_eq
  simp at h1
  rw [rep_nodes h]
  omega

theorem rep_lookup_root {α : Type} [DecidableEq α] {F : AL α} {t : Tree α}
    (h : Represents F t) : alookup t.children none = some (rootsOf F) := by
  have hmem : (none : Option α) ∈ t.children.map Prod.fst :=
    ((rep_keysPerm h).mem_iff).mpr (List.mem_cons_self _ _)
  rcases alookup_isSome_of_mem_keys hmem with ⟨v, hv⟩
  have hb := rep_buckets h _ (alookup_some_mem hv)
  rw [hv]
  exact congrArg some hb

theorem rep_lookup_present {α : Type} [DecidableEq α] {F : AL α} {t : Tree α}
    (h : Represents F t) {x : α} (hx : x ∈ flatL F) :
    alookup t.children (some x) = childF F x := by
  have hmem : (some x) ∈ t.children.map Prod.fst := by
    refine ((rep_keysPerm h).mem_iff).mpr ?_
    exact List.mem_cons_of_mem _ (List.mem_map.mpr ⟨x, hx, rfl⟩)
  rcases alookup_isSome_of_mem_keys hmem with ⟨v, hv⟩
  have hb := rep_buckets h _ (alookup_some_mem hv)
  rw [hv]
  exact hb.symm

theorem rep_lookup_absent {α : Type} [DecidableEq α] {F : AL α} {t : Tree α}
    (h : Represents F t) {x : α} (hx : x ∉ flatL F) :
    alookup t.children (some x) = none := by
  refine alookup_eq_none_iff.mpr ?_
  intro hmem
  have := ((rep_keysPerm h).mem_iff).mp hmem
  rcases List.mem_cons.mp this with he | hm
  · cases he
  · rcases List.mem_map.mp hm with ⟨y, hy, he⟩
    cases Option.some.inj he
    exact hx hy

theorem rep_getParent_absent {α : Type} [DecidableEq α] {F : AL α} {t : Tree α}
    (h : Represents F t) {x : α} (hx : x ∉ flatL F) : getParent t x = none := by
  rw [getParent]
  rcases hl : alookup t.parents x with _ | v
  · rfl
  · exact absurd (rep_pdom h _ (alookup_some_mem hl)) hx

/-! ### Mutual induction over abstract forests -/

theorem alPair_ind {α : Type} (motiveT : AT α → Prop) (motiveL : AL α → Prop)
    (hnode : ∀ (a : α) (ts : AL α), motiveL ts → motiveT (AT.node a ts))
    (hnil : motiveL AL.nil)
    (hcons : ∀ (t : AT α) (ts : AL α), motiveT t → motiveL ts →
      motiveL (AL.cons t ts)) :
    (∀ t : AT α, motiveT t) ∧ (∀ ts : AL α, motiveL ts) :=
  ⟨fun t => @AT.rec α motiveT motiveL hnode hnil hcons t,
   fun ts => @AL.rec α motiveT motiveL hnode hnil hcons ts⟩

theorem flatT_eq {α : Type} (s : AT α) :
    flatT s = rootVal s :: flatL (kids s) := by
  cases s
  rfl

theorem roots_sublist_flat {α : Type} : ∀ F : AL α,
    (rootsOf F).Sublist (flatL F) := by
  refine (alPair_ind (fun _ => True)
    (fun F => (rootsOf F).Sublist (flatL F)) (fun _ _ _ => trivial) ?_ ?_).2
  · simp [rootsOf, flatL]
  · intro t ts _ ih
    show (rootsOf (AL.cons t ts)).Sublist (flatL (AL.cons t ts))
    rw [rootsOf, flatL, flatT_eq, List.cons_append]
    exact (ih.trans (List.sublist_append_right _ _)).cons₂ _

theorem split_sound {α : Type} [DecidableEq α] (x : α) :
    (∀ s0 : AT α, ∀ pre s post, splitT s0 x = some (pre, s, post) →
      flatT s0 = pre ++ flatT s ++ post ∧ rootVal s = x) ∧
    (∀ F : AL α, ∀ pre s post, splitL F x = some (pre, s, post) →
      flatL F = pre ++ flatT s ++ post ∧ rootVal s = x) := by
  refine alPair_ind _ _ ?_ ?_ ?_
  · intro a ts ih pre s post hsp
    simp only [splitT] at hsp
    by_cases hax : a = x
    · rw [if_pos hax] at hsp
      cases hsp
      exact ⟨by simp, hax⟩
    · rw [if_neg hax] at hsp
      rcases hs2 : splitL ts x with _ | r <;> rw [hs2] at hsp
      · cases hsp
      · rcases r with ⟨pre2, s2, post2⟩
        simp only [Option.map] at hsp
        cases hsp
        obtain ⟨hf, hr⟩ := ih _ _ _ hs2
        constructor
        · have hthis : flatT (AT.node a ts) = a :: flatL ts := rfl
          rw [hthis, hf]
          simp
        · exact hr
  · intro pre s post hsp
    simp only [splitL] at hsp
    cases hsp
  · intro t ts iht ihl pre s post hsp
    simp only [splitL] at hsp
    rcases h1 : splitT t x with _ | r <;> rw [h1] at hsp
    · rcases h2 : splitL ts x with _ | r2 <;> rw [h2] at hsp
      · cases hsp
      · rcases r2 with ⟨pre2, s2, post2⟩
        simp only [Option.map] at hsp
        cases hsp
        obtain ⟨hf, hr⟩ := ihl _ _ _ h2
        constructor
        · have hthis : flatL (AL.cons t ts) = flatT t ++ flatL ts := rfl
          rw [hthis, hf]
          simp
        · exact hr
    · rcases r with ⟨pre2, s2, post2⟩
      simp only at hsp
      cases hsp
      obtain ⟨hf, hr⟩ := iht _ _ _ h1
      constructor
      · have hthis : flatL (AL.cons t ts) = flatT t ++ flatL ts := rfl
        rw [hthis, hf]
        simp
      · exact hr

theorem split_isSome {α : Type} [DecidableEq α] (x : α) :
    (∀ s0 : AT α, x ∈ flatT s0 ↔ (splitT s0 x).isSome) ∧
    (∀ F : AL α, x ∈ flatL F ↔ (splitL F x).isSome) := by
  refine alPair_ind _ _ ?_ ?_ ?_
  · intro a ts ih
    have hft : flatT (AT.node a ts) = a :: flatL ts := rfl
    rw [hft]
    simp only [splitT]
    by_cases hax : a = x
    · subst hax
      simp
    · rw [if_neg hax]
      simp only [List.mem_cons]
      constructor
      · intro h
        rcases h with he | hm
        · exact absurd he.symm hax
        · rcases Option.isSome_iff_exists.mp (ih.mp hm) with ⟨r, hr⟩
          simp [hr]
      · intro h
        rcases hs : splitL ts x with _ | r <;> rw [hs] at h
        · simp at h
        · exact Or.inr (ih.mpr (by simp [hs]))
  · simp [flatL, splitL]
  · intro t ts iht ihl
    have hfl : flatL (AL.cons t ts) = flatT t ++ flatL ts := rfl
    rw [hfl]
    simp only [splitL, List.mem_append]
    constructor
    · intro h
      rcases h with hm | hm
      · rcases Option.isSome_iff_exists.mp (iht.mp hm) with ⟨r, hr⟩
        simp [hr]
      · rcases h1 : splitT t x with _ | r
        · rcases Option.isSome_iff_exists.mp (ihl.mp hm) with ⟨r2, hr2⟩
          simp [h1, hr2]
        · simp [h1]
    · intro h
      rcases h1 : splitT t x with _ | r <;> rw [h1] at h
      · rcases h2 : splitL ts x with _ | r2 <;> rw [h2] at h
        · simp at h
        · exact Or.inr (ihl.mpr (by simp [h2]))
      · exact Or.inl (iht.mpr (by simp [h1]))

theorem subF_some_of_mem {α : Type} [DecidableEq α] {F : AL α} {x : α}
    (h : x ∈ flatL F) : ∃ s, subF F x = some s := by
  rcases Option.isSome_iff_exists.mp (((split_isSome x).2 F).mp h) with ⟨r, hr⟩
  exact ⟨r.2.1, by simp [subF, hr]⟩

theorem subF_none_of_not_mem {α : Type} [DecidableEq α] {F : AL α} {x : α}
    (h : x ∉ flatL F) : subF F x = none := by
  rcases hs : splitL F x with _ | r
  · simp [subF, hs]
  · exact absurd (((split_isSome x).2 F).mpr (by simp [hs])) h

theorem subF_decomp {α : Type} [DecidableEq α] {F : AL α} {x : α} {s : AT α}
    (h : subF F x = some s) :
    ∃ pre post, splitL F x = some (pre, s, post) ∧
      flatL F = pre ++ flatT s ++ post ∧ rootVal s = x := by
  rcases hs : splitL F x with _ | r
  · simp [subF, hs] at h
  · rcases r with ⟨pre, s2, post⟩
    have hs2 : s2 = s := by simpa [subF, hs] using h
    obtain ⟨hf, hr⟩ := (split_sound x).2 F _ _ _ hs
    rw [hs2] at hf hr
    exact ⟨pre, post, by rw [hs2], hf, hr⟩

theorem subF_rootVal {α : Type} [DecidableEq α] {F : AL α} {x : α} {s : AT α}
    (h : subF F x = some s) : rootVal s = x := by
  rcases subF_decomp h with ⟨pre, post, _, _, hr⟩
  exact hr

theorem subF_mem {α : Type} [DecidableEq α] {F : AL α} {x : α} {s : AT α}
    (h : subF F x = some s) : x ∈ flatL F := by
  refine ((split_isSome x).2 F).mpr ?_
  rcases hs : splitL F x with _ | r
  · simp [subF, hs] at h
  · simp

theorem subF_flat_sublist {α : Type} [DecidableEq α] {F : AL α} {x : α}
    {s : AT α} (h : subF F x = some s) : (flatT s).Sublist (flatL F) := by
  rcases subF_decomp h with ⟨pre, post, _, hf, _⟩
  rw [hf, List.append_assoc]
  exact (List.sublist_append_left _ _).trans (List.sublist_append_right _ _)

theorem subF_flat_nodup {α : Type} [DecidableEq α] {F : AL α} {x : α}
    {s : AT α} (hnd : (flatL F).Nodup) (h : subF F x = some s) :
    (flatT s).Nodup :=
  (subF_flat_sublist h).nodup hnd

theorem mem_flatT_of_sub {α : Type} [DecidableEq α] {F : AL α} {x : α}
    {s : AT α} (h : subF F x = some s) {c : α} (hc : c ∈ flatT s) :
    c ∈ flatL F :=
  (subF_flat_sublist h).subset hc

theorem childF_eq {α : Type} [DecidableEq α] {F : AL α} {x : α} {s : AT α}
    (h : subF F x = some s) : childF F x = some (rootsOf (kids s)) := by
  simp [childF, h]

theorem childF_none {α : Type} [DecidableEq α] {F : AL α} {x : α}
    (h : x ∉ flatL F) : childF F x = none := by
  simp [childF, subF_none_of_not_mem h]

theorem bucket_nodup_root {α : Type} [DecidableEq α] {F : AL α}
    (hnd : (flatL F).Nodup) : (rootsOf F).Nodup :=
  (roots_sublist_flat F).nodup hnd

theorem bucket_nodup_child {α : Type} [DecidableEq α] {F : AL α} {x : α}
    {l : List α} (hnd : (flatL F).Nodup) (h : childF F x = some l) :
    l.Nodup := by
  rcases hs : subF F x with _ | s
  · simp [childF, hs] at h
  · have hl : l = rootsOf (kids s) := by simpa [childF, hs] using h.symm
    subst hl
    have h1 : (rootsOf (kids s)).Sublist (flatL (kids s)) := roots_sublist_flat _
    have h2 : (flatL (kids s)).Sublist (flatT s) := by
      rw [flatT_eq s]
      exact List.sublist_cons_self _ _
    exact (h1.trans (h2.trans (subF_flat_sublist hs))).nodup hnd

/-! ### Abstract parent-function lemmas -/

theorem parL_absent {α : Type} [DecidableEq α] (x : α) :
    (∀ s0 : AT α, x ∉ flatT s0 → parT s0 x = none) ∧
    (∀ F : AL α, x ∉ flatL F → parL F x = none) := by
  refine alPair_ind _ _ ?_ ?_ ?_
  · intro a ts ih hx
    have hfl : flatT (AT.node a ts) = a :: flatL ts := rfl
    rw [hfl] at hx
    have hxts : x ∉ flatL ts := fun h => hx (List.mem_cons_of_mem _ h)
    have hxroots : x ∉ rootsOf ts :=
      fun h => hxts ((roots_sublist_flat ts).subset h)
    simp only [parT, if_neg hxroots]
    exact ih hxts
  · intro _
    rfl
  · intro t ts iht ihl hx
    have hfl : flatL (AL.cons t ts) = flatT t ++ flatL ts := rfl
    rw [hfl, List.mem_append] at hx
    push_neg at hx
    simp only [parL, iht hx.1, ihl hx.2]

theorem parT_root_none {α : Type} [DecidableEq α] {s : AT α}
    (hnd : (flatT s).Nodup) : parT s (rootVal s) = none := by
  cases s with
  | node a ts =>
    have hfl : flatT (AT.node a ts) = a :: flatL ts := rfl
    rw [hfl] at hnd
    have ha : a ∉ flatL ts := (List.nodup_cons.mp hnd).1
    have haroots : a ∉ rootsOf ts :=
      fun h => ha ((roots_sublist_flat ts).subset h)
    show parT (AT.node a ts) a = none
    simp only [parT, if_neg haroots]
    exact (parL_absent a).2 ts ha

theorem parL_root_none {α : Type} [DecidableEq α] {c : α} : ∀ F : AL α,
    (flatL F).Nodup → c ∈ rootsOf F → parL F c = none := by
  refine (alPair_ind (fun _ => True)
    (fun F => (flatL F).Nodup → c ∈ rootsOf F → parL F c = none)
    (fun _ _ _ => trivial) ?_ ?_).2
  · intro _ h
    cases h
  · intro t ts _ ih hnd hc
    have hfl : flatL (AL.cons t ts) = flatT t ++ flatL ts := rfl
    rw [hfl, List.nodup_append] at hnd
    obtain ⟨hnt, hnts, hdisj⟩ := hnd
    rcases List.mem_cons.mp (show c ∈ rootVal t :: rootsOf ts from hc)
      with he | hm
    · subst he
      have h1 : parT t (rootVal t) = none := parT_root_none hnt
      have h2 : rootVal t ∉ flatL ts := by
        refine hdisj ?_
        rw [flatT_eq t]
        exact List.mem_cons_self _ _
      simp only [parL, h1, (parL_absent _).2 ts h2]
    · have hcts : c ∈ flatL ts := (roots_sublist_flat ts).subset hm
      have h1 : parT t c = none := (parL_absent c).1 t (fun hh => hdisj hh hcts)
      simp only [parL, h1]
      exact ih hnts hm

theorem parL_child {α : Type} [DecidableEq α] {c r : α} :
    (∀ s0 : AT α, (flatT s0).Nodup → ∀ pre s post,
      splitT s0 r = some (pre, s, post) → c ∈ rootsOf (kids s) →
      parT s0 c = some r) ∧
    (∀ F : AL α, (flatL F).Nodup → ∀ pre s post,
      splitL F r = some (pre, s, post) → c ∈ rootsOf (kids s) →
      parL F c = some r) := by
  refine alPair_ind _ _ ?_ ?_ ?_
  · intro a ks ih hnd pre s post hsp hc
    have hfl : flatT (AT.node a ks) = a :: flatL ks := rfl
    rw [hfl, List.nodup_cons] at hnd
    simp only [splitT] at hsp
    by_cases har : a = r
    · rw [if_pos har] at hsp
      cases hsp
      show parT (AT.node a ks) c = some r
      have hck : c ∈ rootsOf ks := by simpa [kids] using hc
      simp only [parT, if_pos hck]
      exact congrArg some har
    · rw [if_neg har] at hsp
      rcases hs2 : splitL ks r with _ | r2 <;> rw [hs2] at hsp
      · cases hsp
      · rcases r2 with ⟨pre2, s2, post2⟩
        simp only [Option.map] at hsp
        cases hsp
        have hrec := ih hnd.2 _ _ _ hs2 hc
        have hcnr : c ∉ rootsOf ks := by
          intro hcr
          rw [parL_root_none ks hnd.2 hcr] at hrec
          cases hrec
        show parT (AT.node a ks) c = some r
        simp only [parT, if_neg hcnr]
        exact hrec
  · intro _ pre s post hsp
    simp only [splitL] at hsp
    cases hsp
  · intro t ts iht ihl hnd pre s post hsp hc
    have hfl : flatL (AL.cons t ts) = flatT t ++ flatL ts := rfl
    rw [hfl, List.nodup_append] at hnd
    obtain ⟨hnt, hnts, hdisj⟩ := hnd
    simp only [splitL] at hsp
    rcases h1 : splitT t r with _ | r1 <;> rw [h1] at hsp
    · rcases h2 : splitL ts r with _ | r2 <;> rw [h2] at hsp
      · cases hsp
      · rcases r2 with ⟨pre2, s2, post2⟩
        simp only [Option.map] at hsp
        cases hsp
        have hrec := ihl hnts _ _ _ h2 hc
        have hcs : c ∈ flatL ts := by
          obtain ⟨hf2, _⟩ := (split_sound r).2 ts _ _ _ h2
          rw [hf2]
          have h3 : c ∈ flatT s := by
            rw [flatT_eq s]
            refine List.mem_cons_of_mem _ ?_
            exact (roots_sublist_flat (kids s)).subset hc
          simp [h3]
        have hct : parT t c = none :=
          (parL_absent c).1 t (fun hh => hdisj hh hcs)
        simp only [parL, hct]
        exact hrec
    · rcases r1 with ⟨pre2, s2, post2⟩
      simp only at hsp
      cases hsp
      have hrec := iht hnt _ _ _ h1 hc
      simp only [parL, hrec]

theorem parL_some_bucket {α : Type} [DecidableEq α] {c r : α} :
    (∀ s0 : AT α, (flatT s0).Nodup → parT s0 c = some r →
      ∃ pre ts2 post, splitT s0 r = some (pre, AT.node r ts2, post) ∧
        c ∈ rootsOf ts2) ∧
    (∀ F : AL α, (flatL F).Nodup → parL F c = some r →
      ∃ pre ts2 post, splitL F r = some (pre, AT.node r ts2, post) ∧
        c ∈ rootsOf ts2) := by
  refine alPair_ind _ _ ?_ ?_ ?_
  · intro a ks ih hnd hp
    have hfl : flatT (AT.node a ks) = a :: flatL ks := rfl
    rw [hfl, List.nodup_cons] at hnd
    by_cases hck : c ∈ rootsOf ks
    · have har : a = r := by
        have : parT (AT.node a ks) c = some a := by
          simp only [parT, if_pos hck]
        rw [this] at hp
        exact Option.some.inj hp
      subst har
      refine ⟨[], ks, [], ?_, hck⟩
      simp [splitT]
    · have hp2 : parL ks c = some r := by
        have : parT (AT.node a ks) c = parL ks c := by
          simp only [parT, if_neg hck]
        rw [← this]
        exact hp
      obtain ⟨pre, ts2, post, hsp, hcr⟩ := ih hnd.2 hp2
      have har : a ≠ r := by
        intro he
        subst he
        exact hnd.1 (((split_isSome a).2 ks).mpr (by simp [hsp]))
      refine ⟨a :: pre, ts2, post, ?_, hcr⟩
      simp only [splitT, if_neg har, hsp, Option.map]
  · intro _ hp
    cases hp
  · intro t ts iht ihl hnd hp
    have hfl : flatL (AL.cons t ts) = flatT t ++ flatL ts := rfl
    rw [hfl, List.nodup_append] at hnd
    obtain ⟨hnt, hnts, hdisj⟩ := hnd
    rcases h1 : parT t c with _ | r1
    · have hp2 : parL ts c = some r := by
        have : parL (AL.cons t ts) c = parL ts c := by
          simp only [parL, h1]
        rw [← this]
        exact hp
      obtain ⟨pre, ts2, post, hsp, hcr⟩ := ihl hnts hp2
      have hrt : splitT t r = none := by
        rcases hst : splitT t r with _ | r2
        · rfl
        · exfalso
          have hrflt : r ∈ flatT t := ((split_isSome r).1 t).mpr (by simp [hst])
          have hrfts : r ∈ flatL ts := ((split_isSome r).2 ts).mpr (by simp [hsp])
          exact hdisj hrflt hrfts
      refine ⟨flatT t ++ pre, ts2, post, ?_, hcr⟩
      simp only [splitL, hrt, hsp, Option.map]
    · have hr1 : r1 = r := by
        have h2 : parL (AL.cons t ts) c = some r1 := by
          simp only [parL, h1]
        rw [h2] at hp
        exact Option.some.inj hp
      subst hr1
      obtain ⟨pre, ts2, post, hsp, hcr⟩ := iht hnt h1
      refine ⟨pre, ts2, post ++ flatL ts, ?_, hcr⟩
      simp only [splitL, hsp]

theorem parL_none_root {α : Type} [DecidableEq α] {c : α} : ∀ F : AL α,
    (flatL F).Nodup → c ∈ flatL F → parL F c = none → c ∈ rootsOf F := by
  refine (alPair_ind
    (fun t => (flatT t).Nodup → c ∈ flatT t → parT t c = none → c = rootVal t)
    (fun F => (flatL F).Nodup → c ∈ flatL F → parL F c = none →
      c ∈ rootsOf F) ?_ ?_ ?_).2
  · intro a ks ih hnd hc hp
    have hfl : flatT (AT.node a ks) = a :: flatL ks := rfl
    rw [hfl, List.nodup_cons] at hnd
    rw [hfl] at hc
    rcases List.mem_cons.mp hc with he | hm
    · exact he
    · exfalso
      have hck : c ∉ rootsOf ks := by
        intro hcr
        have : parT (AT.node a ks) c = some a := by
          simp only [parT, if_pos hcr]
        rw [this] at hp
        cases hp
      have hp2 : parL ks c = none := by
        have : parT (AT.node a ks) c = parL ks c := by
          simp only [parT, if_neg hck]
        rw [← this]
        exact hp
      exact hck (ih hnd.2 hm hp2)
  · intro _ hc
    cases hc
  · intro t ts iht ihl hnd hc hp
    have hfl : flatL (AL.cons t ts) = flatT t ++ flatL ts := rfl
    rw [hfl, List.nodup_append] at hnd
    obtain ⟨hnt, hnts, hdisj⟩ := hnd
    rw [hfl, List.mem_append] at hc
    rcases h1 : parT t c with _ | r1
    · have hp2 : parL ts c = none := by
        have : parL (AL.cons t ts) c = parL ts c := by
          simp only [parL, h1]
        rw [← this]
        exact hp
      rcases hc with hm | hm
      · have := iht hnt hm h1
        subst this
        exact List.mem_cons_self _ _
      · exact List.mem_cons_of_mem _ (ihl hnts hm hp2)
    · exfalso
      have : parL (AL.cons t ts) c = some r1 := by
        simp only [parL, h1]
      rw [this] at hp
      cases hp

/-! ### Abstract delete lemmas -/

theorem rootVal_delT {α : Type} [DecidableEq α] (n : α) (s : AT α) :
    rootVal (delT n s) = rootVal s := by
  cases s
  rfl

theorem del_noop {α : Type} [DecidableEq α] (x : α) :
    (∀ s : AT α, x ∉ flatT s → delT x s = s) ∧
    (∀ F : AL α, x ∉ flatL F → delL x F = F) := by
  refine alPair_ind _ _ ?_ ?_ ?_
  · intro a ts ih hx
    have hfl : flatT (AT.node a ts) = a :: flatL ts := rfl
    rw [hfl] at hx
    have : x ∉ flatL ts := fun h => hx (List.mem_cons_of_mem _ h)
    show delT x (AT.node a ts) = AT.node a ts
    simp only [delT, ih this]
  · intro _
    rfl
  · intro t ts iht ihl hx
    have hfl : flatL (AL.cons t ts) = flatT t ++ flatL ts := rfl
    rw [hfl, List.mem_append] at hx
    push_neg at hx
    have hroot : rootVal t ≠ x := by
      intro he
      refine hx.1 ?_
      rw [flatT_eq t, he]
      exact List.mem_cons_self _ _
    show delL x (AL.cons t ts) = AL.cons t ts
    simp only [delL, if_neg hroot, iht hx.1, ihl hx.2]

theorem del_flat_subset {α : Type} [DecidableEq α] (n : α) :
    (∀ s : AT α, ∀ y ∈ flatT (delT n s), y ∈ flatT s) ∧
    (∀ F : AL α, ∀ y ∈ flatL (delL n F), y ∈ flatL F) := by
  refine alPair_ind _ _ ?_ ?_ ?_
  · intro a ts ih y hy
    have h1 : flatT (delT n (AT.node a ts)) = a :: flatL (delL n ts) := rfl
    have h2 : flatT (AT.node a ts) = a :: flatL ts := rfl
    rw [h1] at hy
    rw [h2]
    rcases List.mem_cons.mp hy with he | hm
    · simp [he]
    · exact List.mem_cons_of_mem _ (ih y hm)
  · intro y hy
    exact hy
  · intro t ts iht ihl y hy
    have h2 : flatL (AL.cons t ts) = flatT t ++ flatL ts := rfl
    rw [h2, List.mem_append]
    by_cases hroot : rootVal t = n
    · have h1 : delL n (AL.cons t ts) = ts := by
        simp only [delL, if_pos hroot]
      rw [h1] at hy
      exact Or.inr hy
    · have h1 : delL n (AL.cons t ts) =
          AL.cons (delT n t) (delL n ts) := by
        simp only [delL, if_neg hroot]
      rw [h1] at hy
      have h3 : flatL (AL.cons (delT n t) (delL n ts)) =
          flatT (delT n t) ++ flatL (delL n ts) := rfl
      rw [h3, List.mem_append] at hy
      rcases hy with hm | hm
      · exact Or.inl (iht y hm)
      · exact Or.inr (ihl y hm)

theorem delL_roots {α : Type} [DecidableEq α] (n : α) : ∀ F : AL α,
    rootsOf (delL n F) = (rootsOf F).erase n := by
  refine (alPair_ind (fun _ => True)
    (fun F => rootsOf (delL n F) = (rootsOf F).erase n)
    (fun _ _ _ => trivial) ?_ ?_).2
  · rfl
  · intro t ts _ ih
    by_cases hroot : rootVal t = n
    · have h1 : delL n (AL.cons t ts) = ts := by
        simp only [delL, if_pos hroot]
      rw [h1]
      have h2 : rootsOf (AL.cons t ts) = rootVal t :: rootsOf ts := rfl
      rw [h2, hroot, List.erase_cons_head]
    · have h1 : delL n (AL.cons t ts) = AL.cons (delT n t) (delL n ts) := by
        simp only [delL, if_neg hroot]
      rw [h1]
      have h2 : rootsOf (AL.cons (delT n t) (delL n ts)) =
          rootVal (delT n t) :: rootsOf (delL n ts) := rfl
      have h3 : rootsOf (AL.cons t ts) = rootVal t :: rootsOf ts := rfl
      rw [h2, h3, rootVal_delT, ih, List.erase_cons_tail]
      simpa using hroot

theorem delL_flat {α : Type} [DecidableEq α] {n : α} :
    (∀ s0 : AT α, (flatT s0).Nodup → ∀ pre s post,
      splitT s0 n = some (pre, s, post) → rootVal s0 ≠ n →
      flatT (delT n s0) = pre ++ post) ∧
    (∀ F : AL α, (flatL F).Nodup → ∀ pre s post,
      splitL F n = some (pre, s, post) →
      flatL (delL n F) = pre ++ post) := by
  refine alPair_ind _ _ ?_ ?_ ?_
  · intro a ts ih hnd pre s post hsp hroot
    have hfl : flatT (AT.node a ts) = a :: flatL ts := rfl
    rw [hfl, List.nodup_cons] at hnd
    have han : a ≠ n := by simpa [rootVal] using hroot
    simp only [splitT, if_neg han] at hsp
    rcases hs2 : splitL ts n with _ | r <;> rw [hs2] at hsp
    · cases hsp
    · rcases r with ⟨pre2, s2, post2⟩
      simp only [Option.map] at hsp
      cases hsp
      have h1 : flatT (delT n (AT.node a ts)) = a :: flatL (delL n ts) := rfl
      rw [h1, ih hnd.2 _ _ _ hs2]
      rfl
  · intro _ pre s post hsp
    simp only [splitL] at hsp
    cases hsp
  · intro t ts iht ihl hnd pre s post hsp
    have hfl : flatL (AL.cons t ts) = flatT t ++ flatL ts := rfl
    rw [hfl, List.nodup_append] at hnd
    obtain ⟨hnt, hnts, hdisj⟩ := hnd
    simp only [splitL] at hsp
    rcases h1 : splitT t n with _ | r1 <;> rw [h1] at hsp
    · rcases h2 : splitL ts n with _ | r2 <;> rw [h2] at hsp
      · cases hsp
      · rcases r2 with ⟨pre2, s2, post2⟩
        simp only [Option.map] at hsp
        cases hsp
        have hnt2 : n ∉ flatT t := by
          intro hmem
          exact hdisj hmem (((split_isSome n).2 ts).mpr (by simp [h2]))
        have hroot : rootVal t ≠ n := by
          intro he
          refine hnt2 ?_
          rw [flatT_eq t, he]
          exact List.mem_cons_self _ _
        have hd1 : delL n (AL.cons t ts) =
            AL.cons (delT n t) (delL n ts) := by
          simp only [delL, if_neg hroot]
        rw [hd1]
        have hd2 : flatL (AL.cons (delT n t) (delL n ts)) =
            flatT (delT n t) ++ flatL (delL n ts) := rfl
        rw [hd2, (del_noop n).1 t hnt2, ihl hnts _ _ _ h2,
          List.append_assoc]
    · rcases r1 with ⟨pre2, s2, post2⟩
      simp only at hsp
      cases hsp
      have hn_t : n ∈ flatT t := ((split_isSome n).1 t).mpr (by simp [h1])
      have hnts2 : n ∉ flatL ts := fun hh => hdisj hn_t hh
      by_cases hroot : rootVal t = n
      · have hd1 : delL n (AL.cons t ts) = ts := by
          simp only [delL, if_pos hroot]
        rw [hd1]
        cases t with
        | node a ks =>
          have han : a = n := by simpa [rootVal] using hroot
          subst han
          simp only [splitT, if_pos rfl] at h1
          cases h1
          rfl
      · have hd1 : delL n (AL.cons t ts) =
            AL.cons (delT n t) (delL n ts) := by
          simp only [delL, if_neg hroot]
        rw [hd1]
        have hd2 : flatL (AL.cons (delT n t) (delL n ts)) =
            flatT (delT n t) ++ flatL (delL n ts) := rfl
        rw [hd2, iht hnt _ _ _ h1 hroot, (del_noop n).2 ts hnts2,
          List.append_assoc]

theorem splitT_eq_none {α : Type} [DecidableEq α] {u : AT α} {x : α}
    (h : x ∉ flatT u) : splitT u x = none := by
  rcases hs : splitT u x with _ | r
  · rfl
  · exact absurd (((split_isSome x).1 u).mpr (by simp [hs])) h

theorem splitL_eq_none {α : Type} [DecidableEq α] {F : AL α} {x : α}
    (h : x ∉ flatL F) : splitL F x = none := by
  rcases hs : splitL F x with _ | r
  · rfl
  · exact absurd (((split_isSome x).2 F).mpr (by simp [hs])) h

theorem splitT_sub_subset {α : Type} [DecidableEq α] {u : AT α} {x : α}
    {pre post : List α} {sx : AT α} (h : splitT u x = some (pre, sx, post)) :
    ∀ y ∈ flatT sx, y ∈ flatT u := by
  intro y hy
  obtain ⟨hf, _⟩ := (split_sound x).1 u _ _ _ h
  rw [hf]
  simp [hy]

theorem splitL_sub_subset {α : Type} [DecidableEq α] {F : AL α} {x : α}
    {pre post : List α} {sx : AT α} (h : splitL F x = some (pre, sx, post)) :
    ∀ y ∈ flatT sx, y ∈ flatL F := by
  intro y hy
  obtain ⟨hf, _⟩ := (split_sound x).2 F _ _ _ h
  rw [hf]
  simp [hy]

theorem kids_delT {α : Type} [DecidableEq α] (n : α) (s : AT α) :
    kids (delT n s) = delL n (kids s) := by
  cases s
  rfl

theorem split_delete {α : Type} [DecidableEq α] {n x : α} :
    (∀ s0 : AT α, (flatT s0).Nodup →
      ∀ pren s posn, splitT s0 n = some (pren, s, posn) → rootVal s0 ≠ n →
      ∀ prex sx posx, splitT s0 x = some (prex, sx, posx) → x ∉ flatT s →
      ∃ p2 q2, splitT (delT n s0) x = some (p2, delT n sx, q2)) ∧
    (∀ F : AL α, (flatL F).Nodup →
      ∀ pren s posn, splitL F n = some (pren, s, posn) →
      ∀ prex sx posx, splitL F x = some (prex, sx, posx) → x ∉ flatT s →
      ∃ p2 q2, splitL (delL n F) x = some (p2, delT n sx, q2)) := by
  refine alPair_ind _ _ ?_ ?_ ?_
  · intro a ks ih hnd pren s posn hspn hroot prex sx posx hspx hxs
    have hfl : flatT (AT.node a ks) = a :: flatL ks := rfl
    rw [hfl, List.nodup_cons] at hnd
    have han : a ≠ n := by simpa [rootVal] using hroot
    simp only [splitT, if_neg han] at hspn
    rcases hn2 : splitL ks n with _ | rn <;> rw [hn2] at hspn
    · cases hspn
    · rcases rn with ⟨pren2, s2, posn2⟩
      simp only [Option.map] at hspn
      cases hspn
      have hdel : delT n (AT.node a ks) = AT.node a (delL n ks) := rfl
      simp only [splitT] at hspx
      by_cases hax : a = x
      · rw [if_pos hax] at hspx
        cases hspx
        refine ⟨[], [], ?_⟩
        rw [hdel]
        simp only [splitT, if_pos hax]
      · rw [if_neg hax] at hspx
        rcases hx2 : splitL ks x with _ | rx <;> rw [hx2] at hspx
        · cases hspx
        · rcases rx with ⟨prex2, sx2, posx2⟩
          simp only [Option.map] at hspx
          cases hspx
          obtain ⟨p2, q2, hres⟩ := ih hnd.2 _ _ _ hn2 _ _ _ hx2 hxs
          refine ⟨a :: p2, q2, ?_⟩
          rw [hdel]
          simp only [splitT, if_neg hax, hres, Option.map]
  · intro _ pren s posn hspn
    simp only [splitL] at hspn
    cases hspn
  · intro t ts iht ihl hnd pren s posn hspn prex sx posx hspx hxs
    have hfl : flatL (AL.cons t ts) = flatT t ++ flatL ts := rfl
    rw [hfl, List.nodup_append] at hnd
    obtain ⟨hnt, hnts, hdisj⟩ := hnd
    simp only [splitL] at hspn hspx
    rcases hn1 : splitT t n with _ | rn1 <;> rw [hn1] at hspn
    · -- n is in ts
      rcases hn2 : splitL ts n with _ | rn2 <;> rw [hn2] at hspn
      · cases hspn
      · rcases rn2 with ⟨pren2, s2, posn2⟩
        simp only [Option.map] at hspn
        cases hspn
        have hnflt : n ∉ flatT t :=
          fun hh => hdisj hh (((split_isSome n).2 ts).mpr (by simp [hn2]))
        have hroot : rootVal t ≠ n := by
          intro he
          refine hnflt ?_
          rw [flatT_eq t, he]
          exact List.mem_cons_self _ _
        have hdel : delL n (AL.cons t ts) =
            AL.cons (delT n t) (delL n ts) := by
          simp only [delL, if_neg hroot]
        have hdelt : delT n t = t := (del_noop n).1 t hnflt
        rcases hx1 : splitT t x with _ | rx1 <;> rw [hx1] at hspx
        · -- x is in ts as well
          rcases hx2 : splitL ts x with _ | rx2 <;> rw [hx2] at hspx
          · cases hspx
          · rcases rx2 with ⟨prex2, sx2, posx2⟩
            simp only [Option.map] at hspx
            cases hspx
            obtain ⟨p2, q2, hres⟩ := ihl hnts _ _ _ hn2 _ _ _ hx2 hxs
            refine ⟨flatT t ++ p2, q2, ?_⟩
            rw [hdel]
            simp only [splitL, hdelt, hx1, hres, Option.map]
        · -- x is in t, n in ts: x's subtree is untouched
          rcases rx1 with ⟨prex2, sx2, posx2⟩
          simp only at hspx
          cases hspx
          have hsub : delT n sx = sx := by
            refine (del_noop n).1 sx ?_
            intro hmem
            exact hnflt (splitT_sub_subset hx1 n hmem)
          refine ⟨prex, posx2 ++ flatL (delL n ts), ?_⟩
          rw [hdel]
          simp only [splitL, hdelt, hx1, hsub]
    · -- n is in t
      rcases rn1 with ⟨pren2, s2, posn2⟩
      simp only at hspn
      cases hspn
      have hn_t : n ∈ flatT t := ((split_isSome n).1 t).mpr (by simp [hn1])
      have hnts2 : n ∉ flatL ts := fun hh => hdisj hn_t hh
      have hdelts : delL n ts = ts := (del_noop n).2 ts hnts2
      by_cases hroot : rootVal t = n
      · -- the whole tree t is the deleted subtree
        have hst : s = t := by
          cases t with
          | node b ks =>
            have hbn : b = n := by simpa [rootVal] using hroot
            subst hbn
            simp only [splitT, if_pos rfl] at hn1
            cases hn1
            rfl
        subst hst
        have hdel : delL n (AL.cons s ts) = ts := by
          simp only [delL, if_pos hroot]
        rcases hx1 : splitT s x with _ | rx1 <;> rw [hx1] at hspx
        · rcases hx2 : splitL ts x with _ | rx2 <;> rw [hx2] at hspx
          · cases hspx
          · rcases rx2 with ⟨prex2, sx2, posx2⟩
            simp only [Option.map] at hspx
            cases hspx
            have hsub : delT n sx = sx := by
              refine (del_noop n).1 sx ?_
              intro hmem
              exact hnts2 (splitL_sub_subset hx2 n hmem)
            refine ⟨prex2, posx, ?_⟩
            rw [hdel, hx2, hsub]
        · exfalso
          rcases rx1 with ⟨prex2, sx2, posx2⟩
          simp only at hspx
          cases hspx
          exact hxs (((split_isSome x).1 s).mpr (by simp [hx1]))
      · -- n strictly inside t
        have hdel : delL n (AL.cons t ts) =
            AL.cons (delT n t) (delL n ts) := by
          simp only [delL, if_neg hroot]
        rcases hx1 : splitT t x with _ | rx1 <;> rw [hx1] at hspx
        · -- x in ts, untouched
          rcases hx2 : splitL ts x with _ | rx2 <;> rw [hx2] at hspx
          · cases hspx
          · rcases rx2 with ⟨prex2, sx2, posx2⟩
            simp only [Option.map] at hspx
            cases hspx
            have hsub : delT n sx = sx := by
              refine (del_noop n).1 sx ?_
              intro hmem
              exact hnts2 (splitL_sub_subset hx2 n hmem)
            have hxdt : splitT (delT n t) x = none := by
              refine splitT_eq_none ?_
              intro hmem
              have hxt : x ∈ flatT t := (del_flat_subset n).1 t x hmem
              have hiss := ((split_isSome x).1 t).mp hxt
              rw [hx1] at hiss
              simp at hiss
            refine ⟨flatT (delT n t) ++ prex2, posx, ?_⟩
            rw [hdel]
            simp only [splitL, hxdt, hdelts, hx2, Option.map, hsub]
        · -- x in t
          rcases rx1 with ⟨prex2, sx2, posx2⟩
          simp only at hspx
          cases hspx
          obtain ⟨p2, q2, hres⟩ := iht hnt _ _ _ hn1 hroot _ _ _ hx1 hxs
          refine ⟨p2, q2 ++ flatL (delL n ts), ?_⟩
          rw [hdel]
          simp only [splitL, hres]

theorem split_nested {α : Type} [DecidableEq α] {n r : α} :
    (∀ s0 : AT α, (flatT s0).Nodup →
      ∀ pre s post, splitT s0 n = some (pre, s, post) → r ∈ flatT s →
      ∀ prer sr postr, splitT s0 r = some (prer, sr, postr) →
      ∀ y ∈ flatT sr, y ∈ flatT s) ∧
    (∀ F : AL α, (flatL F).Nodup →
      ∀ pre s post, splitL F n = some (pre, s, post) → r ∈ flatT s →
      ∀ prer sr postr, splitL F r = some (prer, sr, postr) →
      ∀ y ∈ flatT sr, y ∈ flatT s) := by
  refine alPair_ind _ _ ?_ ?_ ?_
  · intro a ks ih hnd pre s post hspn hr prer sr postr hspr y hy
    have hfl : flatT (AT.node a ks) = a :: flatL ks := rfl
    rw [hfl, List.nodup_cons] at hnd
    simp only [splitT] at hspn hspr
    by_cases han : a = n
    · rw [if_pos han] at hspn
      cases hspn
      exact splitT_sub_subset (show splitT (AT.node a ks) r =
        some (prer, sr, postr) by
          simp only [splitT]
          by_cases har : a = r
          · rw [if_pos har]
            rw [if_pos har] at hspr
            exact hspr
          · rw [if_neg har]
            rw [if_neg har] at hspr
            exact hspr) y hy
    · rw [if_neg han] at hspn
      rcases hn2 : splitL ks n with _ | rn <;> rw [hn2] at hspn
      · cases hspn
      · rcases rn with ⟨pren2, s2, posn2⟩
        simp only [Option.map] at hspn
        cases hspn
        have hrks : r ∈ flatL ks := by
          obtain ⟨hf, _⟩ := (split_sound n).2 ks _ _ _ hn2
          rw [hf]
          simp [hr]
        have har : a ≠ r := by
          intro he
          exact hnd.1 (he ▸ hrks)
        rw [if_neg har] at hspr
        rcases hr2 : splitL ks r with _ | rr <;> rw [hr2] at hspr
        · cases hspr
        · rcases rr with ⟨prer2, sr2, posr2⟩
          simp only [Option.map] at hspr
          cases hspr
          exact ih hnd.2 _ _ _ hn2 hr _ _ _ hr2 y hy
  · intro _ pre s post hspn
    simp only [splitL] at hspn
    cases hspn
  · intro t ts iht ihl hnd pre s post hspn hr prer sr postr hspr y hy
    have hfl : flatL (AL.cons t ts) = flatT t ++ flatL ts := rfl
    rw [hfl, List.nodup_append] at hnd
    obtain ⟨hnt, hnts, hdisj⟩ := hnd
    simp only [splitL] at hspn hspr
    rcases hn1 : splitT t n with _ | rn1 <;> rw [hn1] at hspn
    · rcases hn2 : splitL ts n with _ | rn2 <;> rw [hn2] at hspn
      · cases hspn
      · rcases rn2 with ⟨pren2, s2, posn2⟩
        simp only [Option.map] at hspn
        cases hspn
        have hrts : r ∈ flatL ts := by
          obtain ⟨hf, _⟩ := (split_sound n).2 ts _ _ _ hn2
          rw [hf]
          simp [hr]
        have hrt : splitT t r = none :=
          splitT_eq_none (fun hh => hdisj hh hrts)
        rw [hrt] at hspr
        rcases hr2 : splitL ts r with _ | rr <;> rw [hr2] at hspr
        · cases hspr
        · rcases rr with ⟨prer2, sr2, posr2⟩
          simp only [Option.map] at hspr
          cases hspr
          exact ihl hnts _ _ _ hn2 hr _ _ _ hr2 y hy
    · rcases rn1 with ⟨pren2, s2, posn2⟩
      simp only at hspn
      cases hspn
      have hrt : r ∈ flatT t := splitT_sub_subset hn1 r hr
      rcases hr1 : splitT t r with _ | rr1 <;> rw [hr1] at hspr
      · exact absurd (((split_isSome r).1 t).mp hrt) (by simp [hr1])
      · rcases rr1 with ⟨prer2, sr2, posr2⟩
        simp only at hspr
        cases hspr
        exact iht hnt _ _ _ hn1 hr _ _ _ hr1 y hy

theorem delL_subF {α : Type} [DecidableEq α] {F : AL α} {n x : α} {s sx : AT α}
    (hnd : (flatL F).Nodup) (hn : subF F n = some s) (hx : subF F x = some sx)
    (hxs : x ∉ flatT s) : subF (delL n F) x = some (delT n sx) := by
  rcases subF_decomp hn with ⟨pren, posn, hspn, _, _⟩
  rcases subF_decomp hx with ⟨prex, posx, hspx, _, _⟩
  obtain ⟨p2, q2, hres⟩ := split_delete.2 F hnd _ _ _ hspn _ _ _ hspx hxs
  simp [subF, hres]

theorem delL_flat_eq {α : Type} [DecidableEq α] {F : AL α} {n : α} {s : AT α}
    {pre post : List α} (hnd : (flatL F).Nodup)
    (hsp : splitL F n = some (pre, s, post)) :
    flatL (delL n F) = pre ++ post :=
  delL_flat.2 F hnd _ _ _ hsp

theorem delL_mem {α : Type} [DecidableEq α] {F : AL α} {n : α} {s : AT α}
    (hnd : (flatL F).Nodup) (hn : subF F n = some s) (y : α) :
    y ∈ flatL (delL n F) ↔ y ∈ flatL F ∧ y ∉ flatT s := by
  rcases subF_decomp hn with ⟨pre, post, hsp, hf, _⟩
  rw [delL_flat_eq hnd hsp, hf]
  rw [hf] at hnd
  rw [List.append_assoc, List.nodup_append] at hnd
  obtain ⟨hnd1, hnd2, hdisj1⟩ := hnd
  rw [List.nodup_append] at hnd2
  obtain ⟨hnds, hndp, hdisj2⟩ := hnd2
  constructor
  · intro hy
    rcases List.mem_append.mp hy with hm | hm
    · exact ⟨by simp [hm], fun hmem => hdisj1 hm (by simp [hmem])⟩
    · exact ⟨by simp [hm], fun hmem => hdisj2 hmem hm⟩
  · intro ⟨hy, hys⟩
    rw [List.append_assoc, List.mem_append] at hy
    rcases hy with hm | hm
    · exact List.mem_append.mpr (Or.inl hm)
    · rcases List.mem_append.mp hm with hm2 | hm2
      · exact absurd hm2 hys
      · exact List.mem_append.mpr (Or.inr hm2)

theorem delL_nodup {α : Type} [DecidableEq α] {F : AL α} {n : α} {s : AT α}
    (hnd : (flatL F).Nodup) (hn : subF F n = some s) :
    (flatL (delL n F)).Nodup := by
  rcases subF_decomp hn with ⟨pre, post, hsp, hf, _⟩
  rw [delL_flat_eq hnd hsp]
  rw [hf, List.append_assoc] at hnd
  exact ((List.sublist_append_right _ _).append_left pre).nodup hnd

theorem delL_childF {α : Type} [DecidableEq α] {F : AL α} {n x : α}
    {s sx : AT α} (hnd : (flatL F).Nodup) (hn : subF F n = some s)
    (hx : subF F x = some sx) (hxs : x ∉ flatT s) :
    childF (delL n F) x = some ((rootsOf (kids sx)).erase n) := by
  rw [childF, delL_subF hnd hn hx hxs]
  simp [kids_delT, delL_roots]

theorem delL_parL {α : Type} [DecidableEq α] {F : AL α} {n x : α} {s : AT α}
    (hnd : (flatL F).Nodup) (hn : subF F n = some s) (hx : x ∈ flatL F)
    (hxs : x ∉ flatT s) : parL (delL n F) x = parL F x := by
  have hxn : x ≠ n := by
    intro he
    subst he
    exact hxs (by rw [flatT_eq s, subF_rootVal hn]; exact List.mem_cons_self _ _)
  have hnd2 : (flatL (delL n F)).Nodup := delL_nodup hnd hn
  rcases hp : parL F x with _ | r
  · have hroot : x ∈ rootsOf F := parL_none_root F hnd hx hp
    have hroot2 : x ∈ rootsOf (delL n F) := by
      rw [delL_roots]
      exact (List.mem_erase_of_ne hxn).mpr hroot
    exact parL_root_none (delL n F) hnd2 hroot2
  · obtain ⟨prer, ts2, postr, hspr, hxr⟩ := (parL_some_bucket).2 F hnd hp
    rcases subF_decomp hn with ⟨pren, posn, hspn, _, _⟩
    have hrs : r ∉ flatT s := by
      intro hrmem
      refine hxs ?_
      refine split_nested.2 F hnd _ _ _ hspn hrmem _ _ _ hspr x ?_
      rw [flatT_eq (AT.node r ts2)]
      refine List.mem_cons_of_mem _ ?_
      exact (roots_sublist_flat _).subset (by simpa [kids] using hxr)
    have hsubr : subF F r = some (AT.node r ts2) := by simp [subF, hspr]
    have hdel := delL_subF hnd hn hsubr hrs
    have hdelt : delT n (AT.node r ts2) = AT.node r (delL n ts2) := rfl
    rw [hdelt] at hdel
    rcases hsp2 : splitL (delL n F) r with _ | r2
    · rw [subF, hsp2] at hdel
      cases hdel
    · have hr2 : r2.2.1 = AT.node r (delL n ts2) := by
        rw [subF, hsp2] at hdel
        simpa using hdel
      rcases r2 with ⟨pre2, sr2, post2⟩
      simp at hr2
      subst hr2
      refine (parL_child).2 (delL n F) hnd2 _ _ _ hsp2 ?_
      show x ∈ rootsOf (kids (AT.node r (delL n ts2)))
      have : kids (AT.node r (delL n ts2)) = delL n ts2 := rfl
      rw [this, delL_roots]
      exact (List.mem_erase_of_ne hxn).mpr (by simpa [kids] using hxr)

theorem erase_middle {α : Type} [DecidableEq α] {l pre post : List α} {n : α}
    (hnd : l.Nodup) (hl : l = pre ++ n :: post) : l.erase n = pre ++ post := by
  subst hl
  have hn : n ∉ pre := by
    rw [List.nodup_append] at hnd
    intro hmem
    exact hnd.2.2 hmem (List.mem_cons_self _ _)
  rw [List.erase_append_right _ hn, List.erase_cons_head]

theorem splitT_self {α : Type} [DecidableEq α] (s : AT α) :
    splitT s (rootVal s) = some ([], s, []) := by
  cases s with
  | node a ts => simp [splitT, rootVal]

theorem treesOf_cons {α : Type} (t : AT α) (ts : AL α) :
    treesOf (AL.cons t ts) = t :: treesOf ts := rfl

theorem trees_flat_subset {α : Type} : ∀ ks : AL α, ∀ u ∈ treesOf ks,
    ∀ y ∈ flatT u, y ∈ flatL ks := by
  refine (alPair_ind (fun _ => True)
    (fun ks => ∀ u ∈ treesOf ks, ∀ y ∈ flatT u, y ∈ flatL ks)
    (fun _ _ _ => trivial) ?_ ?_).2
  · intro u hu
    cases hu
  · intro v ks _ ih u hu y hy
    have hfl : flatL (AL.cons v ks) = flatT v ++ flatL ks := rfl
    rw [hfl, List.mem_append]
    rcases List.mem_cons.mp (by rwa [treesOf_cons] at hu) with he | hm
    · subst he
      exact Or.inl hy
    · exact Or.inr (ih u hm y hy)

theorem rootfind {α : Type} [DecidableEq α] : ∀ ks : AL α, (flatL ks).Nodup →
    ∀ u ∈ treesOf ks, ∃ pre post,
      splitL ks (rootVal u) = some (pre, u, post) := by
  refine (alPair_ind (fun _ => True) _ (fun _ _ _ => trivial) ?_ ?_).2
  · intro _ u hu
    cases hu
  · intro v ks _ ih hnd u hu
    have hfl : flatL (AL.cons v ks) = flatT v ++ flatL ks := rfl
    rw [hfl, List.nodup_append] at hnd
    obtain ⟨hnt, hnks, hdisj⟩ := hnd
    rcases List.mem_cons.mp (by rwa [treesOf_cons] at hu) with he | hm
    · subst he
      refine ⟨[], flatL ks, ?_⟩
      simp [splitL, splitT_self u]
    · obtain ⟨pre, post, hsp⟩ := ih hnks u hm
      have hru : rootVal u ∈ flatL ks := by
        refine trees_flat_subset ks u hm _ ?_
        rw [flatT_eq u]
        exact List.mem_cons_self _ _
      have hvq : splitT v (rootVal u) = none :=
        splitT_eq_none (fun hh => hdisj hh hru)
      refine ⟨flatT v ++ pre, post, ?_⟩
      simp only [splitL, hvq, hsp, Option.map]

theorem split_trans {α : Type} [DecidableEq α] {r x : α} :
    (∀ s0 : AT α, (flatT s0).Nodup → ∀ pre sr post,
      splitT s0 r = some (pre, sr, post) →
      ∀ px sx qx, splitT sr x = some (px, sx, qx) →
      ∃ p q, splitT s0 x = some (p, sx, q)) ∧
    (∀ F : AL α, (flatL F).Nodup → ∀ pre sr post,
      splitL F r = some (pre, sr, post) →
      ∀ px sx qx, splitT sr x = some (px, sx, qx) →
      ∃ p q, splitL F x = some (p, sx, q)) := by
  refine alPair_ind _ _ ?_ ?_ ?_
  · intro a ks ih hnd pre sr post hspr px sx qx hsx
    have hfl : flatT (AT.node a ks) = a :: flatL ks := rfl
    rw [hfl, List.nodup_cons] at hnd
    simp only [splitT] at hspr
    by_cases har : a = r
    · rw [if_pos har] at hspr
      cases hspr
      exact ⟨px, qx, hsx⟩
    · rw [if_neg har] at hspr
      rcases h2 : splitL ks r with _ | rr <;> rw [h2] at hspr
      · cases hspr
      · rcases rr with ⟨pre2, sr2, post2⟩
        simp only [Option.map] at hspr
        cases hspr
        have hxsr : x ∈ flatT sr := ((split_isSome x).1 sr).mpr (by simp [hsx])
        have hxks : x ∈ flatL ks := splitL_sub_subset h2 x hxsr
        have hax : a ≠ x := fun he => hnd.1 (he ▸ hxks)
        obtain ⟨p, q, hres⟩ := ih hnd.2 _ _ _ h2 _ _ _ hsx
        refine ⟨a :: p, q, ?_⟩
        simp only [splitT, if_neg hax, hres, Option.map]
  · intro _ pre sr post hspr
    simp only [splitL] at hspr
    cases hspr
  · intro t ts iht ihl hnd pre sr post hspr px sx qx hsx
    have hfl : flatL (AL.cons t ts) = flatT t ++ flatL ts := rfl
    rw [hfl, List.nodup_append] at hnd
    obtain ⟨hnt, hnts, hdisj⟩ := hnd
    simp only [splitL] at hspr
    rcases h1 : splitT t r with _ | rr1 <;> rw [h1] at hspr
    · rcases h2 : splitL ts r with _ | rr2 <;> rw [h2] at hspr
      · cases hspr
      · rcases rr2 with ⟨pre2, sr2, post2⟩
        simp only [Option.map] at hspr
        cases hspr
        have hxsr : x ∈ flatT sr := ((split_isSome x).1 sr).mpr (by simp [hsx])
        have hxts : x ∈ flatL ts := splitL_sub_subset h2 x hxsr
        have hxt : splitT t x = splitT t x := rfl
        have hxnone : splitT t x = none :=
          splitT_eq_none (fun hh => hdisj hh hxts)
        obtain ⟨p, q, hres⟩ := ihl hnts _ _ _ h2 _ _ _ hsx
        refine ⟨flatT t ++ p, q, ?_⟩
        simp only [splitL, hxnone, hres, Option.map]
    · rcases rr1 with ⟨pre2, sr2, post2⟩
      simp only at hspr
      cases hspr
      obtain ⟨p, q, hres⟩ := iht hnt _ _ _ h1 _ _ _ hsx
      refine ⟨p, q ++ flatL ts, ?_⟩
      simp only [splitL, hres]

theorem kid_subF {α : Type} [DecidableEq α] {F : AL α} {n : α} {ks : AL α}
    (hnd : (flatL F).Nodup) (hn : subF F n = some (AT.node n ks))
    {u : AT α} (hu : u ∈ treesOf ks) : subF F (rootVal u) = some u := by
  rcases subF_decomp hn with ⟨pren, posn, hspn, _, _⟩
  have hnds : (flatT (AT.node n ks)).Nodup := subF_flat_nodup hnd hn
  have hfl : flatT (AT.node n ks) = n :: flatL ks := rfl
  rw [hfl, List.nodup_cons] at hnds
  have hru : rootVal u ∈ flatL ks := by
    refine trees_flat_subset ks u hu _ ?_
    rw [flatT_eq u]
    exact List.mem_cons_self _ _
  have hnu : n ≠ rootVal u := fun he => hnds.1 (he ▸ hru)
  obtain ⟨pre, post, hspu⟩ := rootfind ks hnds.2 u hu
  have hsp2 : splitT (AT.node n ks) (rootVal u) =
      some (n :: pre, u, post) := by
    simp only [splitT, if_neg hnu, hspu, Option.map]
  obtain ⟨p, q, hres⟩ := split_trans.2 F hnd _ _ _ hspn _ _ _ hsp2
  simp [subF, hres]

theorem delL_delL {α : Type} [DecidableEq α] {n c : α} :
    (∀ s0 : AT α, (flatT s0).Nodup → ∀ pre s post,
      splitT s0 n = some (pre, s, post) → rootVal s0 ≠ n →
      c ∈ flatT s → c ≠ n → delT n (delT c s0) = delT n s0) ∧
    (∀ F : AL α, (flatL F).Nodup → ∀ pre s post,
      splitL F n = some (pre, s, post) →
      c ∈ flatT s → c ≠ n → delL n (delL c F) = delL n F) := by
  refine alPair_ind _ _ ?_ ?_ ?_
  · intro a ks ih hnd pre s post hspn hroot hc hcn
    have hfl : flatT (AT.node a ks) = a :: flatL ks := rfl
    rw [hfl, List.nodup_cons] at hnd
    have han : a ≠ n := by simpa [rootVal] using hroot
    simp only [splitT, if_neg han] at hspn
    rcases h2 : splitL ks n with _ | rn <;> rw [h2] at hspn
    · cases hspn
    · rcases rn with ⟨pre2, s2, post2⟩
      simp only [Option.map] at hspn
      cases hspn
      have hcks : c ∈ flatL ks := by
        obtain ⟨hf, _⟩ := (split_sound n).2 ks _ _ _ h2
        rw [hf]
        simp [hc]
      have hac : a ≠ c := fun he => hnd.1 (he ▸ hcks)
      have hd1 : delT c (AT.node a ks) = AT.node a (delL c ks) := rfl
      have hd2 : ∀ G, delT n (AT.node a G) = AT.node a (delL n G) :=
        fun _ => rfl
      rw [hd1, hd2, hd2, ih hnd.2 _ _ _ h2 hc hcn]
  · intro _ pre s post hspn
    simp only [splitL] at hspn
    cases hspn
  · intro t ts iht ihl hnd pre s post hspn hc hcn
    have hfl : flatL (AL.cons t ts) = flatT t ++ flatL ts := rfl
    rw [hfl, List.nodup_append] at hnd
    obtain ⟨hnt, hnts, hdisj⟩ := hnd
    simp only [splitL] at hspn
    rcases h1 : splitT t n with _ | rn1 <;> rw [h1] at hspn
    · -- n in ts
      rcases h2 : splitL ts n with _ | rn2 <;> rw [h2] at hspn
      · cases hspn
      · rcases rn2 with ⟨pre2, s2, post2⟩
        simp only [Option.map] at hspn
        cases hspn
        have hcts : c ∈ flatL ts := by
          obtain ⟨hf, _⟩ := (split_sound n).2 ts _ _ _ h2
          rw [hf]
          simp [hc]
        have hct : c ∉ flatT t := fun hh => hdisj hh hcts
        have hrt : rootVal t ≠ c := by
          intro he
          refine hct ?_
          rw [flatT_eq t, he]
          exact List.mem_cons_self _ _
        have hnt2 : n ∉ flatT t := by
          intro hh
          exact hdisj hh (((split_isSome n).2 ts).mpr (by simp [h2]))
        have hrtn : rootVal t ≠ n := by
          intro he
          refine hnt2 ?_
          rw [flatT_eq t, he]
          exact List.mem_cons_self _ _
        have hd1 : delL c (AL.cons t ts) =
            AL.cons (delT c t) (delL c ts) := by
          simp only [delL, if_neg hrt]
        rw [hd1, (del_noop c).1 t hct]
        have hd2 : delL n (AL.cons t (delL c ts)) =
            AL.cons (delT n t) (delL n (delL c ts)) := by
          simp only [delL, if_neg hrtn]
        have hd3 : delL n (AL.cons t ts) =
            AL.cons (delT n t) (delL n ts) := by
          simp only [delL, if_neg hrtn]
        rw [hd2, hd3, ihl hnts _ _ _ h2 hc hcn]
    · -- n in t
      rcases rn1 with ⟨pre2, s2, post2⟩
      simp only at hspn
      cases hspn
      have hcT : c ∈ flatT t := splitT_sub_subset h1 c hc
      have hcts : c ∉ flatL ts := fun hh => hdisj hcT hh
      have hrt : rootVal t ≠ c ∨ rootVal t = c := by tauto
      by_cases hrootn : rootVal t = n
      · -- t itself is the deleted subtree
        have hst : s = t := by
          cases t with
          | node b ks =>
            have hbn : b = n := by simpa [rootVal] using hrootn
            subst hbn
            simp only [splitT, if_pos rfl] at h1
            cases h1
            rfl
        subst hst
        have hrc : rootVal s ≠ c := by
          intro he
          exact hcn (he.symm.trans hrootn)
        have hd1 : delL c (AL.cons s ts) =
            AL.cons (delT c s) (delL c ts) := by
          simp only [delL, if_neg hrc]
        rw [hd1, (del_noop c).2 ts hcts]
        have hroot2 : rootVal (delT c s) = n := by
          rw [rootVal_delT]
          exact hrootn
        have hd2 : delL n (AL.cons (delT c s) ts) = ts := by
          simp only [delL, if_pos hroot2]
        have hd3 : delL n (AL.cons s ts) = ts := by
          simp only [delL, if_pos hrootn]
        rw [hd2, hd3]
      · have hrc : rootVal t ≠ c := by
          intro he
          refine hrootn ?_
          exfalso
          -- c is strictly inside s which is inside t, and c = rootVal t
          -- would put rootVal t inside its own kids, contradicting nodup
          have hcs : c ∈ flatT s := hc
          have hrs : rootVal t ≠ n := hrootn
          cases t with
          | node b ks =>
            have hbc : b = c := by simpa [rootVal] using he
            subst hbc
            have hbn : (b = n) = False := by
              simp [show b ≠ n from fun hh => hrootn (by simpa [rootVal])]
            simp only [splitT] at h1
            rw [if_neg (show ¬ b = n from
              fun hh => hrootn (by simpa [rootVal] using hh))] at h1
            rcases h3 : splitL ks n with _ | rk <;> rw [h3] at h1
            · cases h1
            · rcases rk with ⟨pre3, s3, post3⟩
              simp only [Option.map] at h1
              cases h1
              have hfk : flatT (AT.node b ks) = b :: flatL ks := rfl
              rw [hfk, List.nodup_cons] at hnt
              refine hnt.1 ?_
              exact splitL_sub_subset h3 b hc
        have hd1 : delL c (AL.cons t ts) =
            AL.cons (delT c t) (delL c ts) := by
          simp only [delL, if_neg hrc]
        rw [hd1, (del_noop c).2 ts hcts]
        have hrn2 : rootVal (delT c t) ≠ n := by
          rw [rootVal_delT]
          exact hrootn
        have hd2 : delL n (AL.cons (delT c t) ts) =
            AL.cons (delT n (delT c t)) (delL n ts) := by
          simp only [delL, if_neg hrn2]
        have hd3 : delL n (AL.cons t ts) =
            AL.cons (delT n t) (delL n ts) := by
          simp only [delL, if_neg hrootn]
        rw [hd2, hd3, iht hnt _ _ _ h1 hrootn hc hcn]

theorem depth_le_flat {α : Type} :
    (∀ s : AT α, depthT s ≤ (flatT s).length) ∧
    (∀ F : AL α, depthL F ≤ (flatL F).length) := by
  refine alPair_ind _ _ ?_ ?_ ?_
  · intro a ts ih
    have h1 : depthT (AT.node a ts) = depthL ts + 1 := rfl
    have h2 : flatT (AT.node a ts) = a :: flatL ts := rfl
    rw [h1, h2]
    simp
    omega
  · simp [depthL, flatL]
  · intro t ts iht ihl
    have h1 : depthL (AL.cons t ts) = max (depthT t) (depthL ts) := rfl
    have h2 : flatL (AL.cons t ts) = flatT t ++ flatL ts := rfl
    rw [h1, h2]
    simp
    omega

theorem erase_cons_ne {β : Type} [DecidableEq β] {b a : β} (hne : b ≠ a)
    (l : List β) : (b :: l).erase a = b :: l.erase a := by
  rw [List.erase_cons_tail]
  simpa using hne

theorem nodup_not_mem_erase {β : Type} [DecidableEq β] {l : List β} {a : β}
    (h : l.Nodup) : a ∉ l.erase a := h.not_mem_erase

theorem nodup_erase {β : Type} [DecidableEq β] {l : List β} (a : β)
    (h : l.Nodup) : (l.erase a).Nodup := h.erase a

theorem remove_finish {α : Type} [DecidableEq α] {G : AL α} {t2 : Tree α}
    {n : α} (hrep : Represents G t2)
    (hleaf : subF G n = some (AT.node n AL.nil)) :
    ∃ sibs,
      alookup t2.children (getParent t2 n) = some sibs ∧
      pyRemove sibs n = .ok (sibs.erase n) ∧
      pyRemove t2.nodes n = .ok ((flatL G).erase n) ∧
      Represents (delL n G)
        ⟨(flatL G).erase n,
         adel (aset t2.children (getParent t2 n) (sibs.erase n)) (some n),
         adel t2.parents n⟩ := by
  have hnd := rep_nodup hrep
  have hnmem : n ∈ flatL G := subF_mem hleaf
  have hgp : getParent t2 n = parL G n := rep_getParent hrep n hnmem
  rcases subF_decomp hleaf with ⟨pre, post, hsp, hflat, _⟩
  have hflat2 : flatL G = pre ++ n :: post := by
    simpa [flatT, flatL] using hflat
  have herase : (flatL G).erase n = pre ++ post := erase_middle hnd hflat2
  have hflatdel : flatL (delL n G) = pre ++ post := delL_flat_eq hnd hsp
  have hnodes : pyRemove t2.nodes n = .ok ((flatL G).erase n) := by
    rw [rep_nodes hrep]
    exact pyRemove_eq_erase hnmem
  obtain ⟨sibs, hlook, hnsibs, hPbucket⟩ :
      ∃ sibs, alookup t2.children (getParent t2 n) = some sibs ∧ n ∈ sibs ∧
        bucketSpec (delL n G) (getParent t2 n, sibs.erase n) := by
    rcases hp : parL G n with _ | r
    · refine ⟨rootsOf G, ?_, ?_, ?_⟩
      · rw [hgp, hp]
        exact rep_lookup_root hrep
      · exact parL_none_root G hnd hnmem hp
      · rw [hgp, hp]
        show (rootsOf G).erase n = rootsOf (delL n G)
        rw [delL_roots]
    · obtain ⟨prer, ts2, postr, hspr, hnr⟩ := (parL_some_bucket).2 G hnd hp
      have hsubr : subF G r = some (AT.node r ts2) := by simp [subF, hspr]
      have hrn : r ≠ n := by
        intro he
        subst he
        rw [hleaf] at hsubr
        have h2 := Option.some.inj hsubr
        cases h2
        simp [rootsOf] at hnr
      have hrflat : r ∈ flatL G := subF_mem hsubr
      refine ⟨rootsOf ts2, ?_, hnr, ?_⟩
      · rw [hgp, hp, rep_lookup_present hrep hrflat, childF_eq hsubr]
        rfl
      · rw [hgp, hp]
        show childF (delL n G) r = some ((rootsOf ts2).erase n)
        have hrnot : r ∉ flatT (AT.node n AL.nil) := by
          simp [flatT, flatL]
          exact hrn
        rw [delL_childF hnd hleaf hsubr hrnot]
        rfl
  have hPkeys : getParent t2 n ∈ t2.children.map Prod.fst := by
    by_contra hh
    rw [alookup_eq_none_iff.mpr hh] at hlook
    cases hlook
  have hck1 : (aset t2.children (getParent t2 n) (sibs.erase n)).map Prod.fst
      = t2.children.map Prod.fst := aset_keys_mem _ hPkeys
  have hck2 := adel_keys
    (aset t2.children (getParent t2 n) (sibs.erase n)) (some n)
  rw [hck1] at hck2
  have hsomeinj : Function.Injective (some : α → Option α) :=
    fun a b hab => Option.some.inj hab
  have hkeysPerm2 : (((adel (aset t2.children (getParent t2 n) (sibs.erase n))
      (some n)).map Prod.fst)).Perm (none :: (flatL (delL n G)).map some) := by
    rw [hck2]
    have h1 := (rep_keysPerm hrep).erase (some n)
    have hne : (none : Option α) ≠ some n := fun h => Option.noConfusion h
    rw [erase_cons_ne hne, ← List.map_erase hsomeinj, herase,
      ← hflatdel] at h1
    exact h1
  have hbuckets : ∀ pr ∈ adel (aset t2.children (getParent t2 n)
      (sibs.erase n)) (some n), bucketSpec (delL n G) pr := by
    intro pr hpr
    rcases pr with ⟨k, v⟩
    have hprkey : k ∈ (adel (aset t2.children (getParent t2 n)
        (sibs.erase n)) (some n)).map Prod.fst :=
      List.mem_map.mpr ⟨(k, v), hpr, rfl⟩
    rw [hck2] at hprkey
    have hprne : k ≠ some n := by
      intro he
      rw [he] at hprkey
      exact nodup_not_mem_erase (rep_ckeys_nodup hrep) hprkey
    have hlookpr : alookup (adel (aset t2.children (getParent t2 n)
        (sibs.erase n)) (some n)) k = some v := by
      refine mem_alookup ?_ hpr
      rw [hck2]
      exact nodup_erase _ (rep_ckeys_nodup hrep)
    rw [alookup_adel_ne _ hprne] at hlookpr
    by_cases hprP : k = getParent t2 n
    · subst hprP
      rw [alookup_aset_self] at hlookpr
      have hv : v = sibs.erase n := (Option.some.inj hlookpr).symm
      subst hv
      exact hPbucket
    · rw [alookup_aset_ne _ _ hprP] at hlookpr
      have hbG : bucketSpec G (k, v) :=
        rep_buckets hrep _ (alookup_some_mem hlookpr)
      rcases k with _ | x
      · show v = rootsOf (delL n G)
        have hvG : v = rootsOf G := hbG
        have hnroot : n ∉ rootsOf G := by
          intro hh
          exact hprP (by rw [hgp, parL_root_none G hnd hh])
        rw [hvG, delL_roots, List.erase_of_not_mem hnroot]
      · show childF (delL n G) x = some v
        have hbG2 : childF G x = some v := hbG
        rcases hsx : subF G x with _ | sx
        · rw [childF, hsx] at hbG2
          cases hbG2
        · have hv : v = rootsOf (kids sx) := by
            rw [childF_eq hsx] at hbG2
            exact (Option.some.inj hbG2).symm
          have hxn : x ≠ n := fun he => hprne (by rw [he])
          have hxnot : x ∉ flatT (AT.node n AL.nil) := by
            simp [flatT, flatL]
            exact hxn
          rw [delL_childF hnd hleaf hsx hxnot, hv]
          have hnk : n ∉ rootsOf (kids sx) := by
            intro hh
            rcases subF_decomp hsx with ⟨prex, postx, hspx, _, _⟩
            have := (parL_child).2 G hnd _ _ _ hspx hh
            exact hprP (by rw [hgp, this])
          rw [List.erase_of_not_mem hnk]
  refine ⟨sibs, hlook, pyRemove_eq_erase hnsibs, hnodes, ?_⟩
  unfold Represents
  refine ⟨?_, delL_nodup hnd hleaf, hkeysPerm2, hbuckets, ?_, ?_, ?_⟩
  · show (flatL G).erase n = flatL (delL n G)
    rw [herase, hflatdel]
  · show ((adel t2.parents n).map Prod.fst).Nodup
    rw [adel_keys]
    exact nodup_erase _ (rep_pkeysNodup hrep)
  · intro pr hpr
    have hmem : pr.1 ∈ (t2.parents.map Prod.fst).erase n := by
      rw [← adel_keys]
      exact List.mem_map.mpr ⟨pr, hpr, rfl⟩
    have hne : pr.1 ≠ n := by
      intro he
      rw [he] at hmem
      exact nodup_not_mem_erase (rep_pkeysNodup hrep) hmem
    have hin : pr.1 ∈ flatL G := rep_pdom hrep _ (mem_adel_elim hpr)
    refine (delL_mem hnd hleaf pr.1).mpr ⟨hin, ?_⟩
    simp [flatT, flatL]
    exact hne
  · intro x hx
    obtain ⟨hxG, hxs⟩ := (delL_mem hnd hleaf x).mp hx
    have hxn : x ≠ n := by
      intro he
      exact hxs (by simp [he, flatT, flatL])
    show (alookup (adel t2.parents n) x).join = parL (delL n G) x
    rw [alookup_adel_ne _ hxn]
    have h1 : getParent t2 x = parL G x := rep_getParent hrep x hxG
    rw [getParent] at h1
    rw [h1, delL_parL hnd hleaf hxG hxs]

theorem removeChildren_correct {α : Type} [DecidableEq α] (k : Nat)
    (IH : ∀ m, m < k → ∀ (F : AL α) (t : Tree α) (c : α) (sc : AT α)
      (fuel : Nat), (flatT sc).length ≤ m → Represents F t →
      subF F c = some sc → depthT sc ≤ fuel →
      ∃ t2, removeFuel fuel t c = .ok t2 ∧ Represents (delL c F) t2) :
    ∀ ts : AL α, ∀ (F : AL α) (t : Tree α) (n : α) (fuel : Nat),
      Represents F t → subF F n = some (AT.node n ts) →
      (flatT (AT.node n ts)).length ≤ k → depthL ts ≤ fuel →
      ∃ G t2, removeChildren fuel t (rootsOf ts) = .ok t2 ∧
        Represents G t2 ∧ subF G n = some (AT.node n AL.nil) ∧
        delL n G = delL n F := by
  refine (alPair_ind (fun _ => True) _ (fun _ _ _ => trivial) ?_ ?_).2
  · intro F t n fuel hrep hsub _ _
    refine ⟨F, t, ?_, hrep, hsub, rfl⟩
    simp only [rootsOf, removeChildren]
  · intro u ts2 _ ih F t n fuel hrep hsub hk hdepth
    have hnd := rep_nodup hrep
    have hndS : (flatT (AT.node n (AL.cons u ts2))).Nodup :=
      subF_flat_nodup hnd hsub
    have hflS : flatT (AT.node n (AL.cons u ts2)) =
        n :: (flatT u ++ flatL ts2) := rfl
    rw [hflS, List.nodup_cons] at hndS
    have hnu : n ∉ flatT u := fun hh => hndS.1 (List.mem_append.mpr (Or.inl hh))
    have hcu : subF F (rootVal u) = some u :=
      kid_subF hnd hsub (by rw [treesOf_cons]; exact List.mem_cons_self _ _)
    have hlen : (flatT (AT.node n (AL.cons u ts2))).length =
        (flatT u).length + (flatL ts2).length + 1 := by
      rw [hflS]
      simp
    have hltu : (flatT u).length < k := by omega
    have hdu : depthT u ≤ fuel := by
      refine le_trans ?_ hdepth
      have h1 : depthL (AL.cons u ts2) = max (depthT u) (depthL ts2) := rfl
      rw [h1]
      exact le_max_left _ _
    obtain ⟨t2, hrun1, hrep2⟩ :=
      IH (flatT u).length hltu F t (rootVal u) u fuel (le_refl _) hrep hcu hdu
    have hdelcons : delL (rootVal u) (AL.cons u ts2) = ts2 := by
      simp [delL]
    have hsub2 : subF (delL (rootVal u) F) n = some (AT.node n ts2) := by
      have h1 := delL_subF hnd hcu hsub hnu
      have h2 : delT (rootVal u) (AT.node n (AL.cons u ts2)) =
          AT.node n ts2 := by
        simp only [delT, hdelcons]
      rw [h2] at h1
      exact h1
    have hk2 : (flatT (AT.node n ts2)).length ≤ k := by
      have h1 : (flatT (AT.node n ts2)).length = (flatL ts2).length + 1 := by
        simp [flatT]
      omega
    have hd2 : depthL ts2 ≤ fuel := by
      refine le_trans ?_ hdepth
      have h1 : depthL (AL.cons u ts2) = max (depthT u) (depthL ts2) := rfl
      rw [h1]
      exact le_max_right _ _
    obtain ⟨G, t3, hrun2, hGrep, hGsub, hGdel⟩ :=
      ih (delL (rootVal u) F) t2 n fuel hrep2 hsub2 hk2 hd2
    rcases subF_decomp hsub with ⟨pren, posn, hspn, _, _⟩
    have hcin : rootVal u ∈ flatT (AT.node n (AL.cons u ts2)) := by
      rw [hflS]
      refine List.mem_cons_of_mem _ (List.mem_append.mpr (Or.inl ?_))
      rw [flatT_eq u]
      exact List.mem_cons_self _ _
    have hcn : rootVal u ≠ n := by
      intro he
      refine hndS.1 ?_
      rw [← he]
      refine List.mem_append.mpr (Or.inl ?_)
      rw [flatT_eq u]
      exact List.mem_cons_self _ _
    have hcomp : delL n (delL (rootVal u) F) = delL n F :=
      delL_delL.2 F hnd _ _ _ hspn hcin hcn
    refine ⟨G, t3, ?_, hGrep, hGsub, by rw [hGdel, hcomp]⟩
    have hroots : rootsOf (AL.cons u ts2) = rootVal u :: rootsOf ts2 := rfl
    rw [hroots]
    have hstep : removeChildren fuel t (rootVal u :: rootsOf ts2) =
        removeChildren fuel t2 (rootsOf ts2) := by
      simp only [removeChildren, hrun1]
    rw [hstep, hrun2]

theorem removeFuel_correct {α : Type} [DecidableEq α] : ∀ k : Nat,
    ∀ (F : AL α) (t : Tree α) (n : α) (s : AT α) (fuel : Nat),
    (flatT s).length ≤ k → Represents F t → subF F n = some s →
    depthT s ≤ fuel →
    ∃ t2, removeFuel fuel t n = .ok t2 ∧ Represents (delL n F) t2 := by
  intro k
  induction k using Nat.strong_induction_on with
  | _ k IH =>
    intro F t n s fuel hk hrep hsub hfuel
    cases s with
    | node m ts =>
      have hmn : m = n := subF_rootVal hsub
      subst hmn
      have hd : depthT (AT.node m ts) = depthL ts + 1 := rfl
      cases fuel with
      | zero =>
        rw [hd] at hfuel
        omega
      | succ fuel2 =>
        have hdts : depthL ts ≤ fuel2 := by
          rw [hd] at hfuel
          omega
        have hlook : alookup t.children (some m) = some (rootsOf ts) := by
          rw [rep_lookup_present hrep (subF_mem hsub), childF_eq hsub]
          rfl
        obtain ⟨G, t2, hloop, hGrep, hGsub, hGdel⟩ :=
          removeChildren_correct k IH ts F t m fuel2 hrep hsub hk hdts
        obtain ⟨sibs, hlook2, hrem1, hrem2, hrep3⟩ :=
          remove_finish hGrep hGsub
        rw [hGdel] at hrep3
        refine ⟨⟨(flatL G).erase m,
          adel (aset t2.children (getParent t2 m) (sibs.erase m)) (some m),
          adel t2.parents m⟩, ?_, hrep3⟩
        simp only [removeFuel, hlook, hloop, hlook2, hrem1, hrem2]

theorem bucketSpec_subset {α : Type} [DecidableEq α] {F : AL α}
    {pr : Option α × List α} (hb : bucketSpec F pr) :
    ∀ y ∈ pr.2, y ∈ flatL F := by
  rcases pr with ⟨k, v⟩
  rcases k with _ | x
  · intro y hy
    have hv : v = rootsOf F := hb
    subst hv
    exact (roots_sublist_flat F).subset hy
  · intro y hy
    have hc : childF F x = some v := hb
    rcases hsx : subF F x with _ | sx
    · rw [childF, hsx] at hc
      cases hc
    · have hv : v = rootsOf (kids sx) := by
        rw [childF_eq hsx] at hc
        exact (Option.some.inj hc).symm
      subst hv
      have h1 : y ∈ flatL (kids sx) := (roots_sublist_flat _).subset hy
      have h2 : y ∈ flatT sx := by
        rw [flatT_eq sx]
        exact List.mem_cons_of_mem _ h1
      exact (subF_flat_sublist hsx).subset h2

theorem rep_empty {α : Type} [DecidableEq α] {G : AL α} {t : Tree α}
    (hrep : Represents G t) (hflat : flatL G = []) : t = Tree.init := by
  cases G with
  | cons u ts =>
    exfalso
    have h1 : flatL (AL.cons u ts) = flatT u ++ flatL ts := rfl
    rw [h1, flatT_eq u] at hflat
    simp at hflat
  | nil =>
    have hn : t.nodes = [] := by
      rw [rep_nodes hrep]
      rfl
    have hperm := rep_keysPerm hrep
    have hkeys : t.children.map Prod.fst = [none] :=
      List.perm_singleton.mp (by simpa [flatL] using hperm)
    obtain ⟨v, hch⟩ : ∃ v, t.children = [(none, v)] := by
      cases hc : t.children with
      | nil =>
        rw [hc] at hkeys
        cases hkeys
      | cons pr rest =>
        rw [hc] at hkeys
        rcases pr with ⟨k, v⟩
        simp at hkeys
        obtain ⟨hk, hrest⟩ := hkeys
        refine ⟨v, ?_⟩
        rw [hrest, hk]
    have hb := rep_buckets hrep (none, v)
      (by rw [hch]; exact List.mem_cons_self _ _)
    have hv : v = [] := hb
    subst hv
    have hp : t.parents = [] := by
      cases hp2 : t.parents with
      | nil => rfl
      | cons pr rest =>
        exfalso
        have := rep_pdom hrep pr (by rw [hp2]; exact List.mem_cons_self _ _)
        simpa [flatL] using this
    cases t with
    | mk ns cs ps =>
      simp only at hn hch hp
      rw [hn, hch, hp]
      rfl

/-- C4, confirmed on spec-conformant states (states that represent an
abstract forest, which is exactly the spec's data model): for a present
node `n` with abstract subtree `s`, `remove(n)` succeeds and the result
represents the forest with `n`'s subtree deleted — every node of the
subtree is gone from `order` (`_nodes`), has no `_children` bucket, no
`_parents` entry, and occurs in no remaining bucket (root bucket
included), while exactly the nodes outside the subtree survive; removing
the only node returns the state to `Tree.__init__`; and `remove` on an
absent node fails with the `KeyError` the spec names `UnknownNodeError`. -/
theorem C4_remove_correct {α : Type} [DecidableEq α] (t : Tree α) (F : AL α)
    (n : α) (hrep : Represents F t) :
    (∀ s, subF F n = some s →
      ∃ t2, Tree.remove t n = .ok t2 ∧
        Represents (delL n F) t2 ∧
        (∀ y ∈ flatT s, y ∉ t2.nodes) ∧
        (∀ y ∈ flatT s, alookup t2.children (some y) = none) ∧
        (∀ y ∈ flatT s, alookup t2.parents y = none) ∧
        (∀ pr ∈ t2.children, ∀ y ∈ flatT s, y ∉ pr.2) ∧
        (∀ y, y ∈ t2.nodes ↔ y ∈ t.nodes ∧ y ∉ flatT s) ∧
        (t.nodes = [n] → t2 = Tree.init)) ∧
    (n ∉ t.nodes → Tree.remove t n = .error .keyError) := by
  have hnd := rep_nodup hrep
  constructor
  · intro s hsub
    have hdepth : depthT s ≤ stdFuel t := by
      have h1 : depthT s ≤ (flatT s).length := depth_le_flat.1 s
      have h2 : (flatT s).length ≤ (flatL F).length :=
        (subF_flat_sublist hsub).length_le
      have h3 : stdFuel t = (flatL F).length + 1 := by
        rw [stdFuel, rep_nodes hrep]
      omega
    obtain ⟨t2, hrun, hrep2⟩ := removeFuel_correct (flatT s).length F t n s
      (stdFuel t) (le_refl _) hrep hsub hdepth
    have hmem := delL_mem hnd hsub
    refine ⟨t2, hrun, hrep2, ?_, ?_, ?_, ?_, ?_, ?_⟩
    · intro y hy hmem2
      rw [rep_nodes hrep2] at hmem2
      exact ((hmem y).mp hmem2).2 hy
    · intro y hy
      refine rep_lookup_absent hrep2 ?_
      intro hmem2
      exact ((hmem y).mp hmem2).2 hy
    · intro y hy
      rcases hl : alookup t2.parents y with _ | v
      · rfl
      · exfalso
        have := rep_pdom hrep2 _ (alookup_some_mem hl)
        exact ((hmem y).mp this).2 hy
    · intro pr hpr y hy hybad
      have h1 := bucketSpec_subset (rep_buckets hrep2 pr hpr) y hybad
      exact ((hmem y).mp h1).2 hy
    · intro y
      rw [rep_nodes hrep2, rep_nodes hrep]
      exact hmem y
    · intro hlast
      have hlF : flatL F = [n] := by
        rw [← rep_nodes hrep]
        exact hlast
      have hroot : rootVal s = n := subF_rootVal hsub
      have hfs : flatT s = [n] := by
        have hsl := subF_flat_sublist hsub
        rw [hlF, flatT_eq s, hroot] at hsl
        rw [flatT_eq s, hroot,
          List.sublist_nil.mp (List.cons_sublist_cons.mp hsl)]
      refine rep_empty hrep2 ?_
      refine List.eq_nil_iff_forall_not_mem.mpr ?_
      intro y hy
      obtain ⟨h1, h2⟩ := (hmem y).mp hy
      rw [hlF] at h1
      rw [hfs] at h2
      exact h2 h1
  · intro hn
    rw [rep_nodes hrep] at hn
    simp only [Tree.remove, stdFuel, removeFuel, rep_lookup_absent hrep hn]

theorem C4_remove_correct_witness :
    (∀ s, subF cRF 1 = some s →
      ∃ t2, Tree.remove cR0 1 = .ok t2 ∧
        Represents (delL 1 cRF) t2 ∧
        (∀ y ∈ flatT s, y ∉ t2.nodes) ∧
        (∀ y ∈ flatT s, alookup t2.children (some y) = none) ∧
        (∀ y ∈ flatT s, alookup t2.parents y = none) ∧
        (∀ pr ∈ t2.children, ∀ y ∈ flatT s, y ∉ pr.2) ∧
        (∀ y, y ∈ t2.nodes ↔ y ∈ cR0.nodes ∧ y ∉ flatT s) ∧
        (cR0.nodes = [1] → t2 = Tree.init)) ∧
    ((1 : Nat) ∉ cR0.nodes → Tree.remove cR0 1 = .error .keyError) :=
  C4_remove_correct cR0 cRF 1 (by decide)

/-! ### Abstract add lemmas -/

theorem rootVal_addT {α : Type} [DecidableEq α] (q n : α) (s : AT α) :
    rootVal (addT q n s) = rootVal s := by
  cases s with
  | node a ts =>
    simp only [addT]
    by_cases h : a = q
    · rw [if_pos h]
      rfl
    · rw [if_neg h]
      rfl

theorem flatL_snoc {α : Type} (s : AT α) : ∀ F : AL α,
    flatL (snocL F s) = flatL F ++ flatT s := by
  refine (alPair_ind (fun _ => True)
    (fun F => flatL (snocL F s) = flatL F ++ flatT s)
    (fun _ _ _ => trivial) ?_ ?_).2
  · show flatT s ++ flatL AL.nil = flatL AL.nil ++ flatT s
    show flatT s ++ ([] : List α) = [] ++ flatT s
    simp
  · intro t ts _ ih
    show flatT t ++ flatL (snocL ts s) = (flatT t ++ flatL ts) ++ flatT s
    rw [ih, List.append_assoc]

theorem rootsOf_snoc {α : Type} (s : AT α) : ∀ F : AL α,
    rootsOf (snocL F s) = rootsOf F ++ [rootVal s] := by
  refine (alPair_ind (fun _ => True)
    (fun F => rootsOf (snocL F s) = rootsOf F ++ [rootVal s])
    (fun _ _ _ => trivial) ?_ ?_).2
  · rfl
  · intro t ts _ ih
    show rootVal t :: rootsOf (snocL ts s) =
      (rootVal t :: rootsOf ts) ++ [rootVal s]
    rw [ih]
    rfl

theorem splitL_snoc_old {α : Type} [DecidableEq α] {x : α} {s : AT α} :
    ∀ F : AL α, ∀ P sx Q, splitL F x = some (P, sx, Q) →
      splitL (snocL F s) x = some (P, sx, Q ++ flatT s) := by
  refine (alPair_ind (fun _ => True) _ (fun _ _ _ => trivial) ?_ ?_).2
  · intro P sx Q h
    simp only [splitL] at h
    cases h
  · intro t ts _ ih P sx Q h
    simp only [splitL] at h
    show splitL (AL.cons t (snocL ts s)) x = _
    rcases h1 : splitT t x with _ | r <;> rw [h1] at h
    · rcases h2 : splitL ts x with _ | r2 <;> rw [h2] at h
      · cases h
      · rcases r2 with ⟨P2, sx2, Q2⟩
        simp only [Option.map] at h
        cases h
        simp only [splitL, h1, ih _ _ _ h2, Option.map]
    · rcases r with ⟨P2, sx2, Q2⟩
      simp only at h
      cases h
      simp only [splitL, h1, flatL_snoc, List.append_assoc]

theorem splitL_snoc_fresh {α : Type} [DecidableEq α] {n : α} :
    ∀ F : AL α, n ∉ flatL F →
      splitL (snocL F (AT.node n AL.nil)) n =
        some (flatL F, AT.node n AL.nil, []) := by
  refine (alPair_ind (fun _ => True) _ (fun _ _ _ => trivial) ?_ ?_).2
  · intro _
    show splitL (AL.cons (AT.node n AL.nil) AL.nil) n = _
    simp [splitL, splitT, flatL]
  · intro t ts _ ih hn
    have hfl : flatL (AL.cons t ts) = flatT t ++ flatL ts := rfl
    rw [hfl, List.mem_append] at hn
    push_neg at hn
    have h1 : splitT t n = none := splitT_eq_none hn.1
    show splitL (AL.cons t (snocL ts (AT.node n AL.nil))) n = _
    simp only [splitL, h1, ih hn.2, Option.map, hfl, List.append_assoc]

theorem add_noop {α : Type} [DecidableEq α] (q n : α) :
    (∀ s : AT α, q ∉ flatT s → addT q n s = s) ∧
    (∀ F : AL α, q ∉ flatL F → addL q n F = F) := by
  refine alPair_ind _ _ ?_ ?_ ?_
  · intro a ts ih hq
    have hfl : flatT (AT.node a ts) = a :: flatL ts := rfl
    rw [hfl] at hq
    have haq : a ≠ q := fun he => hq (he ▸ List.mem_cons_self _ _)
    have hq2 : q ∉ flatL ts := fun h => hq (List.mem_cons_of_mem _ h)
    show addT q n (AT.node a ts) = AT.node a ts
    simp only [addT, if_neg haq, ih hq2]
  · intro _
    rfl
  · intro t ts iht ihl hq
    have hfl : flatL (AL.cons t ts) = flatT t ++ flatL ts := rfl
    rw [hfl, List.mem_append] at hq
    push_neg at hq
    show AL.cons (addT q n t) (addL q n ts) = AL.cons t ts
    rw [iht hq.1, ihl hq.2]

theorem roots_addL {α : Type} [DecidableEq α] (q n : α) : ∀ F : AL α,
    rootsOf (addL q n F) = rootsOf F := by
  refine (alPair_ind (fun _ => True)
    (fun F => rootsOf (addL q n F) = rootsOf F)
    (fun _ _ _ => trivial) ?_ ?_).2
  · rfl
  · intro t ts _ ih
    show rootVal (addT q n t) :: rootsOf (addL q n ts) =
      rootVal t :: rootsOf ts
    rw [rootVal_addT, ih]

theorem add_flat_subset {α : Type} [DecidableEq α] (q n : α) :
    (∀ s : AT α, ∀ y ∈ flatT (addT q n s), y ∈ flatT s ∨ y = n) ∧
    (∀ F : AL α, ∀ y ∈ flatL (addL q n F), y ∈ flatL F ∨ y = n) := by
  refine alPair_ind _ _ ?_ ?_ ?_
  · intro a ts ih y hy
    have hfl : flatT (AT.node a ts) = a :: flatL ts := rfl
    rw [hfl]
    by_cases haq : a = q
    · have h1 : addT q n (AT.node a ts) =
          AT.node a (snocL ts (AT.node n AL.nil)) := by
        simp only [addT, if_pos haq]
      rw [h1] at hy
      have h2 : flatT (AT.node a (snocL ts (AT.node n AL.nil))) =
          a :: flatL (snocL ts (AT.node n AL.nil)) := rfl
      rw [h2, flatL_snoc] at hy
      rcases List.mem_cons.mp hy with he | hm
      · exact Or.inl (by simp [he])
      · rcases List.mem_append.mp hm with h3 | h3
        · exact Or.inl (List.mem_cons_of_mem _ h3)
        · have : y = n := by simpa [flatT, flatL] using h3
          exact Or.inr this
    · have h1 : addT q n (AT.node a ts) = AT.node a (addL q n ts) := by
        simp only [addT, if_neg haq]
      rw [h1] at hy
      have h2 : flatT (AT.node a (addL q n ts)) =
          a :: flatL (addL q n ts) := rfl
      rw [h2] at hy
      rcases List.mem_cons.mp hy with he | hm
      · exact Or.inl (by simp [he])
      · rcases ih y hm with h3 | h3
        · exact Or.inl (List.mem_cons_of_mem _ h3)
        · exact Or.inr h3
  · intro y hy
    exact Or.inl hy
  · intro t ts iht ihl y hy
    have h1 : flatL (addL q n (AL.cons t ts)) =
        flatT (addT q n t) ++ flatL (addL q n ts) := rfl
    rw [h1, List.mem_append] at hy
    have hfl : flatL (AL.cons t ts) = flatT t ++ flatL ts := rfl
    rw [hfl, List.mem_append]
    rcases hy with hm | hm
    · rcases iht y hm with h3 | h3
      · exact Or.inl (Or.inl h3)
      · exact Or.inr h3
    · rcases ihl y hm with h3 | h3
      · exact Or.inl (Or.inr h3)
      · exact Or.inr h3

theorem addL_flat {α : Type} [DecidableEq α] {q n : α} :
    (∀ s0 : AT α, (flatT s0).Nodup → ∀ pre sq post,
      splitT s0 q = some (pre, sq, post) →
      flatT (addT q n s0) = pre ++ flatT sq ++ n :: post) ∧
    (∀ F : AL α, (flatL F).Nodup → ∀ pre sq post,
      splitL F q = some (pre, sq, post) →
      flatL (addL q n F) = pre ++ flatT sq ++ n :: post) := by
  refine alPair_ind _ _ ?_ ?_ ?_
  · intro a ks ih hnd pre sq post hsp
    have hfl : flatT (AT.node a ks) = a :: flatL ks := rfl
    rw [hfl, List.nodup_cons] at hnd
    simp only [splitT] at hsp
    by_cases haq : a = q
    · rw [if_pos haq] at hsp
      cases hsp
      have h1 : addT q n (AT.node a ks) =
          AT.node a (snocL ks (AT.node n AL.nil)) := by
        simp only [addT, if_pos haq]
      rw [h1]
      have h2 : flatT (AT.node a (snocL ks (AT.node n AL.nil))) =
          a :: flatL (snocL ks (AT.node n AL.nil)) := rfl
      rw [h2, flatL_snoc]
      simp [flatT, flatL]
    · rw [if_neg haq] at hsp
      rcases h2 : splitL ks q with _ | r <;> rw [h2] at hsp
      · cases hsp
      · rcases r with ⟨pre2, sq2, post2⟩
        simp only [Option.map] at hsp
        cases hsp
        have h1 : addT q n (AT.node a ks) = AT.node a (addL q n ks) := by
          simp only [addT, if_neg haq]
        rw [h1]
        have h3 : flatT (AT.node a (addL q n ks)) =
            a :: flatL (addL q n ks) := rfl
        rw [h3, ih hnd.2 _ _ _ h2]
        rfl
  · intro _ pre sq post hsp
    simp only [splitL] at hsp
    cases hsp
  · intro t ts iht ihl hnd pre sq post hsp
    have hfl : flatL (AL.cons t ts) = flatT t ++ flatL ts := rfl
    rw [hfl, List.nodup_append] at hnd
    obtain ⟨hnt, hnts, hdisj⟩ := hnd
    simp only [splitL] at hsp
    have h0 : flatL (addL q n (AL.cons t ts)) =
        flatT (addT q n t) ++ flatL (addL q n ts) := rfl
    rcases h1 : splitT t q with _ | r1 <;> rw [h1] at hsp
    · rcases h2 : splitL ts q with _ | r2 <;> rw [h2] at hsp
      · cases hsp
      · rcases r2 with ⟨pre2, sq2, post2⟩
        simp only [Option.map] at hsp
        cases hsp
        have hqt : q ∉ flatT t := by
          intro hmem
          exact hdisj hmem (((split_isSome q).2 ts).mpr (by simp [h2]))
        rw [h0, (add_noop q n).1 t hqt, ihl hnts _ _ _ h2]
        simp [List.append_assoc]
    · rcases r1 with ⟨pre2, sq2, post2⟩
      simp only at hsp
      cases hsp
      have hq_t : q ∈ flatT t := ((split_isSome q).1 t).mpr (by simp [h1])
      have hqts : q ∉ flatL ts := fun hh => hdisj hq_t hh
      rw [h0, iht hnt _ _ _ h1, (add_noop q n).2 ts hqts]
      simp [List.append_assoc]

theorem split_add {α : Type} [DecidableEq α] {q n x : α} :
    (∀ s0 : AT α, (flatT s0).Nodup → n ∉ flatT s0 →
      ∀ px sx qx, splitT s0 x = some (px, sx, qx) →
      ∃ p2 q2, splitT (addT q n s0) x = some (p2, addT q n sx, q2)) ∧
    (∀ F : AL α, (flatL F).Nodup → n ∉ flatL F →
      ∀ px sx qx, splitL F x = some (px, sx, qx) →
      ∃ p2 q2, splitL (addL q n F) x = some (p2, addT q n sx, q2)) := by
  refine alPair_ind _ _ ?_ ?_ ?_
  · intro a ks ih hnd hfresh px sx qx hspx
    have hfl : flatT (AT.node a ks) = a :: flatL ks := rfl
    rw [hfl, List.nodup_cons] at hnd
    rw [hfl, List.mem_cons] at hfresh
    push_neg at hfresh
    simp only [splitT] at hspx
    by_cases hax : a = x
    · rw [if_pos hax] at hspx
      cases hspx
      rcases haq : (decide (a = q)) with _ | _
      · have haq2 : ¬ a = q := by simpa using haq
        have h1 : addT q n (AT.node a ks) = AT.node a (addL q n ks) := by
          simp only [addT, if_neg haq2]
        refine ⟨[], [], ?_⟩
        rw [h1, ← h1]
        have h2 : rootVal (addT q n (AT.node a ks)) = a := by
          rw [rootVal_addT]
          rfl
        cases h3 : addT q n (AT.node a ks) with
        | node b ks2 =>
          have hb : b = a := by
            have := h2
            rw [h3] at this
            exact this
          subst hb
          simp only [splitT, if_pos hax]
      · have haq2 : a = q := by simpa using haq
        have h1 : addT q n (AT.node a ks) =
            AT.node a (snocL ks (AT.node n AL.nil)) := by
          simp only [addT, if_pos haq2]
        refine ⟨[], [], ?_⟩
        rw [h1]
        simp only [splitT, if_pos hax]
    · rw [if_neg hax] at hspx
      rcases h2 : splitL ks x with _ | r <;> rw [h2] at hspx
      · cases hspx
      · rcases r with ⟨px2, sx2, qx2⟩
        simp only [Option.map] at hspx
        cases hspx
        by_cases haq : a = q
        · have h1 : addT q n (AT.node a ks) =
              AT.node a (snocL ks (AT.node n AL.nil)) := by
            simp only [addT, if_pos haq]
          have hsnoc := splitL_snoc_old (s := AT.node n AL.nil) ks _ _ _ h2
          have hnoop : addT q n sx = sx := by
            refine (add_noop q n).1 sx ?_
            intro hmem
            have : q ∈ flatL ks :=
              splitL_sub_subset h2 q hmem
            exact hnd.1 (haq ▸ this)
          refine ⟨a :: px2, qx ++ flatT (AT.node n AL.nil), ?_⟩
          rw [h1, hnoop]
          simp only [splitT, if_neg hax, hsnoc, Option.map]
        · have h1 : addT q n (AT.node a ks) = AT.node a (addL q n ks) := by
            simp only [addT, if_neg haq]
          obtain ⟨p2, q2, hres⟩ := ih hnd.2 hfresh.2 _ _ _ h2
          refine ⟨a :: p2, q2, ?_⟩
          rw [h1]
          simp only [splitT, if_neg hax, hres, Option.map]
  · intro _ _ px sx qx hspx
    simp only [splitL] at hspx
    cases hspx
  · intro t ts iht ihl hnd hfresh px sx qx hspx
    have hfl : flatL (AL.cons t ts) = flatT t ++ flatL ts := rfl
    rw [hfl, List.nodup_append] at hnd
    obtain ⟨hnt, hnts, hdisj⟩ := hnd
    rw [hfl, List.mem_append] at hfresh
    push_neg at hfresh
    have h0 : addL q n (AL.cons t ts) =
        AL.cons (addT q n t) (addL q n ts) := rfl
    simp only [splitL] at hspx
    rcases h1 : splitT t x with _ | r1 <;> rw [h1] at hspx
    · rcases h2 : splitL ts x with _ | r2 <;> rw [h2] at hspx
      · cases hspx
      · rcases r2 with ⟨px2, sx2, qx2⟩
        simp only [Option.map] at hspx
        cases hspx
        have hxt : x ∉ flatT t := by
          intro hmem
          have hiss := ((split_isSome x).1 t).mp hmem
          rw [h1] at hiss
          simp at hiss
        have hxadd : splitT (addT q n t) x = none := by
          refine splitT_eq_none ?_
          intro hmem
          rcases (add_flat_subset q n).1 t x hmem with h3 | h3
          · exact hxt h3
          · subst h3
            exact hfresh.2 (splitL_sub_subset h2 x (by
              rw [flatT_eq sx]
              have := (split_sound x).2 ts _ _ _ h2
              rw [this.2]
              exact List.mem_cons_self _ _))
        obtain ⟨p2, q2, hres⟩ := ihl hnts hfresh.2 _ _ _ h2
        refine ⟨flatT (addT q n t) ++ p2, q2, ?_⟩
        rw [h0]
        simp only [splitL, hxadd, hres, Option.map]
    · rcases r1 with ⟨px2, sx2, qx2⟩
      simp only at hspx
      cases hspx
      obtain ⟨p2, q2, hres⟩ := iht hnt hfresh.1 _ _ _ h1
      refine ⟨p2, q2 ++ flatL (addL q n ts), ?_⟩
      rw [h0]
      simp only [splitL, hres]

theorem nodup_split_parts {α : Type} {l xs ys : List α} {a : α}
    (hnd : l.Nodup) (h : l = xs ++ a :: ys) : a ∉ xs ∧ a ∉ ys := by
  subst h
  rw [List.nodup_append] at hnd
  constructor
  · intro hmem
    exact hnd.2.2 hmem (List.mem_cons_self _ _)
  · intro hmem
    exact (List.nodup_cons.mp hnd.2.1).1 hmem

theorem split_comp {α : Type} [DecidableEq α] {r x : α} :
    (∀ s0 : AT α, (flatT s0).Nodup → ∀ pre sr post,
      splitT s0 r = some (pre, sr, post) →
      ∀ px sx qx, splitT sr x = some (px, sx, qx) →
      splitT s0 x = some (pre ++ px, sx, qx ++ post)) ∧
    (∀ F : AL α, (flatL F).Nodup → ∀ pre sr post,
      splitL F r = some (pre, sr, post) →
      ∀ px sx qx, splitT sr x = some (px, sx, qx) →
      splitL F x = some (pre ++ px, sx, qx ++ post)) := by
  refine alPair_ind _ _ ?_ ?_ ?_
  · intro a ks ih hnd pre sr post hspr px sx qx hsx
    have hfl : flatT (AT.node a ks) = a :: flatL ks := rfl
    rw [hfl, List.nodup_cons] at hnd
    simp only [splitT] at hspr
    by_cases har : a = r
    · rw [if_pos har] at hspr
      cases hspr
      simpa using hsx
    · rw [if_neg har] at hspr
      rcases h2 : splitL ks r with _ | rr <;> rw [h2] at hspr
      · cases hspr
      · rcases rr with ⟨pre2, sr2, post2⟩
        simp only [Option.map] at hspr
        cases hspr
        have hxsr : x ∈ flatT sr := by
          rw [(split_sound x).1 sr _ _ _ hsx |>.1]
          rw [flatT_eq sx, ((split_sound x).1 sr _ _ _ hsx).2]
          simp
        have hxks : x ∈ flatL ks := splitL_sub_subset h2 x hxsr
        have hax : a ≠ x := fun he => hnd.1 (he ▸ hxks)
        have hres := ih hnd.2 _ _ _ h2 _ _ _ hsx
        simp only [splitT, if_neg hax, hres, Option.map]
        simp
  · intro _ pre sr post hspr
    simp only [splitL] at hspr
    cases hspr
  · intro t ts iht ihl hnd pre sr post hspr px sx qx hsx
    have hfl : flatL (AL.cons t ts) = flatT t ++ flatL ts := rfl
    rw [hfl, List.nodup_append] at hnd
    obtain ⟨hnt, hnts, hdisj⟩ := hnd
    simp only [splitL] at hspr
    rcases h1 : splitT t r with _ | rr1 <;> rw [h1] at hspr
    · rcases h2 : splitL ts r with _ | rr2 <;> rw [h2] at hspr
      · cases hspr
      · rcases rr2 with ⟨pre2, sr2, post2⟩
        simp only [Option.map] at hspr
        cases hspr
        have hxsr : x ∈ flatT sr := by
          rw [(split_sound x).1 sr _ _ _ hsx |>.1]
          rw [flatT_eq sx, ((split_sound x).1 sr _ _ _ hsx).2]
          simp
        have hxts : x ∈ flatL ts := splitL_sub_subset h2 x hxsr
        have hxnone : splitT t x = none :=
          splitT_eq_none (fun hh => hdisj hh hxts)
        have hres := ihl hnts _ _ _ h2 _ _ _ hsx
        simp only [splitL, hxnone, hres, Option.map]
        simp
    · rcases rr1 with ⟨pre2, sr2, post2⟩
      simp only at hspr
      cases hspr
      have hres := iht hnt _ _ _ h1 _ _ _ hsx
      simp only [splitL, hres]
      simp

theorem rootsOf_nil_iff {α : Type} : ∀ ks : AL α, rootsOf ks = [] → ks = AL.nil
  | AL.nil, _ => rfl
  | AL.cons _ _, h => by cases h

theorem list_adj {α : Type} [DecidableEq α] {u v : α} :
    ∀ ks : AL α, (flatL ks).Nodup → ∀ as bs,
      rootsOf ks = as ++ u :: v :: bs →
      ∃ P su sv Q, splitL ks u = some (P, su, flatT sv ++ Q) ∧
        splitL ks v = some (P ++ flatT su, sv, Q) := by
  refine (alPair_ind (fun _ => True) _ (fun _ _ _ => trivial) ?_ ?_).2
  · intro _ as bs h
    cases as <;> simp [rootsOf] at h
  · intro t ts _ ih hnd as bs h
    have hroots : rootsOf (AL.cons t ts) = rootVal t :: rootsOf ts := rfl
    rw [hroots] at h
    have hfl : flatL (AL.cons t ts) = flatT t ++ flatL ts := rfl
    rw [hfl, List.nodup_append] at hnd
    obtain ⟨hnt, hnts, hdisj⟩ := hnd
    cases as with
    | nil =>
      simp only [List.nil_append] at h
      have hu : rootVal t = u := (List.cons.inj h).1
      have hts : rootsOf ts = v :: bs := (List.cons.inj h).2
      cases ts with
      | nil => cases hts
      | cons t2 ts2 =>
        have hroots2 : rootsOf (AL.cons t2 ts2) =
            rootVal t2 :: rootsOf ts2 := rfl
        rw [hroots2] at hts
        have hv : rootVal t2 = v := (List.cons.inj hts).1
        refine ⟨[], t, t2, flatL ts2, ?_, ?_⟩
        · have h1 : splitT t u = some ([], t, []) := by
            rw [← hu]
            exact splitT_self t
          simp only [splitL, h1]
          rfl
        · have hvt2 : v ∈ flatT t2 := by
            rw [flatT_eq t2, hv]
            exact List.mem_cons_self _ _
          have hvts : v ∈ flatL (AL.cons t2 ts2) := by
            have : flatL (AL.cons t2 ts2) = flatT t2 ++ flatL ts2 := rfl
            rw [this]
            exact List.mem_append.mpr (Or.inl hvt2)
          have h1 : splitT t v = none :=
            splitT_eq_none (fun hh => hdisj hh hvts)
          have h2 : splitT t2 v = some ([], t2, []) := by
            rw [← hv]
            exact splitT_self t2
          simp only [splitL, h1, h2, Option.map]
          simp
    | cons a0 as2 =>
      simp only [List.cons_append] at h
      have hts : rootsOf ts = as2 ++ u :: v :: bs := (List.cons.inj h).2
      have humem : u ∈ flatL ts := by
        refine (roots_sublist_flat ts).subset ?_
        rw [hts]
        simp
      have hvmem : v ∈ flatL ts := by
        refine (roots_sublist_flat ts).subset ?_
        rw [hts]
        simp
      obtain ⟨P, su, sv, Q, hspu, hspv⟩ := ih hnts as2 bs hts
      have h1 : splitT t u = none :=
        splitT_eq_none (fun hh => hdisj hh humem)
      have h2 : splitT t v = none :=
        splitT_eq_none (fun hh => hdisj hh hvmem)
      refine ⟨flatT t ++ P, su, sv, Q, ?_, ?_⟩
      · simp only [splitL, h1, hspu, Option.map]
      · simp only [splitL, h2, hspv, Option.map]
        simp

theorem list_last {α : Type} [DecidableEq α] {u : α} :
    ∀ ks : AL α, (flatL ks).Nodup → ∀ as, rootsOf ks = as ++ [u] →
      ∃ P su, splitL ks u = some (P, su, []) := by
  refine (alPair_ind (fun _ => True) _ (fun _ _ _ => trivial) ?_ ?_).2
  · intro _ as h
    cases as <;> simp [rootsOf] at h
  · intro t ts _ ih hnd as h
    have hroots : rootsOf (AL.cons t ts) = rootVal t :: rootsOf ts := rfl
    rw [hroots] at h
    have hfl : flatL (AL.cons t ts) = flatT t ++ flatL ts := rfl
    rw [hfl, List.nodup_append] at hnd
    obtain ⟨hnt, hnts, hdisj⟩ := hnd
    cases as with
    | nil =>
      simp only [List.nil_append] at h
      have hu : rootVal t = u := (List.cons.inj h).1
      have hts : rootsOf ts = [] := (List.cons.inj h).2
      have htsnil : ts = AL.nil := rootsOf_nil_iff ts hts
      subst htsnil
      refine ⟨[], t, ?_⟩
      have h1 : splitT t u = some ([], t, []) := by
        rw [← hu]
        exact splitT_self t
      simp only [splitL, h1]
      rfl
    | cons a0 as2 =>
      simp only [List.cons_append] at h
      have hts : rootsOf ts = as2 ++ [u] := (List.cons.inj h).2
      have humem : u ∈ flatL ts := by
        refine (roots_sublist_flat ts).subset ?_
        rw [hts]
        simp
      obtain ⟨P, su, hspu⟩ := ih hnts as2 hts
      have h1 : splitT t u = none :=
        splitT_eq_none (fun hh => hdisj hh humem)
      refine ⟨flatT t ++ P, su, ?_⟩
      simp only [splitL, h1, hspu, Option.map]

theorem next_sibling_eval_some {α : Type} [DecidableEq α] {t : Tree α}
    {a u : α} {xs ys : List α}
    (hs : get_siblings t a = .ok (xs ++ a :: ys)) (hax : a ∉ xs)
    (hr : ys.get? 0 = some u) : get_next_sibling t a = .ok u := by
  have hidx : pyIndex (xs ++ a :: ys) a = .ok xs.length :=
    pyIndex_append_cons ys hax
  have hget : (xs ++ a :: ys)[xs.length + 1]? = some u := by
    rw [← List.get?_eq_getElem?, getq_append xs (a :: ys) 1]
    exact hr
  simp [get_next_sibling, hs, hidx, bind, Except.bind, hget]

theorem next_sibling_eval_none {α : Type} [DecidableEq α] {t : Tree α}
    {a : α} {xs ys : List α}
    (hs : get_siblings t a = .ok (xs ++ a :: ys)) (hax : a ∉ xs)
    (hr : ys.get? 0 = none) : get_next_sibling t a = .error .indexError := by
  have hidx : pyIndex (xs ++ a :: ys) a = .ok xs.length :=
    pyIndex_append_cons ys hax
  have hget : (xs ++ a :: ys)[xs.length + 1]? = none := by
    rw [← List.get?_eq_getElem?, getq_append xs (a :: ys) 1]
    exact hr
  simp [get_next_sibling, hs, hidx, bind, Except.bind, hget]

theorem addToNodes_walk {α : Type} [DecidableEq α] [Truthy α]
    (htru : ∀ b : α, Truthy.tru b) {F : AL α} {t : Tree α}
    (hrep : Represents F t) (n : α) :
    ∀ k : Nat, ∀ a sa prea posta, splitL F a = some (prea, sa, posta) →
      prea.length ≤ k → ∀ fuel : Nat, k < fuel →
      addToNodes t n fuel (some a) =
        .ok ((flatL F).take ((flatL F).length - posta.length) ++
          n :: (flatL F).drop ((flatL F).length - posta.length)) := by
  intro k
  induction k using Nat.strong_induction_on with
  | _ k IH =>
    intro a sa prea posta hsp hk fuel hfuel
    cases fuel with
    | zero => omega
    | succ fuel2 =>
      have hnd := rep_nodup hrep
      have hamem : a ∈ flatL F := ((split_isSome a).2 F).mpr (by simp [hsp])
      have hgp : getParent t a = parL F a := rep_getParent hrep a hamem
      rcases hp : parL F a with _ | r
      · -- a is a root-level node
        have haroot : a ∈ rootsOf F := parL_none_root F hnd hamem hp
        obtain ⟨xs, ys, hB⟩ := List.mem_iff_append.mp haroot
        have hBnd : (rootsOf F).Nodup := bucket_nodup_root hnd
        obtain ⟨hax, _⟩ := nodup_split_parts hBnd hB
        have hsibs : get_siblings t a = .ok (xs ++ a :: ys) := by
          rw [← hB]
          simp only [get_siblings, hgp, hp, get_children, rep_lookup_root hrep]
        cases ys with
        | nil =>
          have hnext := next_sibling_eval_none hsibs hax rfl
          obtain ⟨P, su, hsplast⟩ := list_last F hnd xs hB
          have huniq := hsplast
          rw [hsp] at huniq
          simp at huniq
          obtain ⟨hpre, hsa, hposta⟩ := huniq
          have hrun : addToNodes t n (fuel2 + 1) (some a) =
              addToNodes t n fuel2 (getParent t a) := by
            simp [addToNodes, htru a, hnext]
          rw [hrun, hgp, hp]
          have hrun2 : addToNodes t n fuel2 none = .ok (t.nodes ++ [n]) := by
            simp [addToNodes]
          rw [hrun2, hposta, rep_nodes hrep]
          simp [List.take_length, List.drop_length]
        | cons u ys2 =>
          have hnext := next_sibling_eval_some hsibs hax rfl
          obtain ⟨P, su, sv, Q, hspa2, hspu⟩ := list_adj F hnd xs ys2 hB
          have huniq := hspa2
          rw [hsp] at huniq
          simp at huniq
          obtain ⟨hpre, hsa, hposta⟩ := huniq
          have hsound := (split_sound u).2 F _ _ _ hspu
          have hufirst : flatL F = (P ++ flatT su) ++ u ::
              (flatL (kids sv) ++ Q) := by
            rw [hsound.1, flatT_eq sv, hsound.2]
            simp
          have hnotpre : u ∉ P ++ flatT su :=
            (nodup_split_parts hnd hufirst).1
          have hidxu : pyIndex t.nodes u = .ok (P ++ flatT su).length := by
            rw [rep_nodes hrep, hufirst]
            exact pyIndex_append_cons _ hnotpre
          have hlen := congrArg List.length hufirst
          simp at hlen
          have hle : (P ++ flatT su).length ≤ (flatL F).length := by
            simp
            omega
          have hplen := congrArg List.length hposta
          simp at hplen
          have hflv : (flatT sv).length = (flatL (kids sv)).length + 1 := by
            rw [flatT_eq sv]
            simp
          have hm : (flatL F).length - posta.length =
              (P ++ flatT su).length := by
            simp
            omega
          have hrun : addToNodes t n (fuel2 + 1) (some a) =
              .ok (pyInsert t.nodes (P ++ flatT su).length n) := by
            simp [addToNodes, htru a, hnext, hidxu]
          rw [hrun, rep_nodes hrep, pyInsert_eq n hle, hm]
      · -- a has parent r
        obtain ⟨prer, tsr, postr, hspr, hart⟩ :=
          (parL_some_bucket).2 F hnd hp
        have hsubr : subF F r = some (AT.node r tsr) := by simp [subF, hspr]
        have hndr : (flatT (AT.node r tsr)).Nodup := subF_flat_nodup hnd hsubr
        have hflr : flatT (AT.node r tsr) = r :: flatL tsr := rfl
        rw [hflr, List.nodup_cons] at hndr
        have hrmem : r ∈ flatL F := subF_mem hsubr
        have hBnd : (rootsOf tsr).Nodup :=
          (roots_sublist_flat tsr).nodup hndr.2
        obtain ⟨xs, ys, hB⟩ := List.mem_iff_append.mp hart
        obtain ⟨hax, _⟩ := nodup_split_parts hBnd hB
        have hlookr : alookup t.children (some r) = some (rootsOf tsr) := by
          rw [rep_lookup_present hrep hrmem, childF_eq hsubr]
          rfl
        have hsibs : get_siblings t a = .ok (xs ++ a :: ys) := by
          rw [← hB]
          simp only [get_siblings, hgp, hp, get_children, hlookr]
        have hra : ¬ r = a := by
          intro he
          refine hndr.1 ?_
          rw [he]
          exact (roots_sublist_flat tsr).subset hart
        cases ys with
        | nil =>
          have hnext := next_sibling_eval_none hsibs hax rfl
          obtain ⟨P, su, hsplast⟩ := list_last tsr hndr.2 xs hB
          have hliftT : splitT (AT.node r tsr) a = some (r :: P, su, []) := by
            simp only [splitT, if_neg hra, hsplast, Option.map]
          have hcomp := split_comp.2 F hnd _ _ _ hspr _ _ _ hliftT
          rw [hsp] at hcomp
          simp at hcomp
          obtain ⟨hpre, hsa, hposta⟩ := hcomp
          have hlenpre := congrArg List.length hpre
          simp at hlenpre
          have hltk : prer.length < k := by omega
          have hIHres := IH prer.length hltk r (AT.node r tsr) prer postr
            hspr (le_refl _) fuel2 (by omega)
          have hrun : addToNodes t n (fuel2 + 1) (some a) =
              addToNodes t n fuel2 (getParent t a) := by
            simp [addToNodes, htru a, hnext]
          rw [hrun, hgp, hp, hposta]
          exact hIHres
        | cons u ys2 =>
          have hnext := next_sibling_eval_some hsibs hax rfl
          obtain ⟨P, su, sv, Q, hspa2, hspu⟩ :=
            list_adj tsr hndr.2 xs ys2 hB
          have humem : u ∈ flatL tsr := by
            refine (roots_sublist_flat tsr).subset ?_
            rw [hB]
            simp
          have hru : ¬ r = u := by
            intro he
            exact hndr.1 (he ▸ humem)
          have hliftA : splitT (AT.node r tsr) a =
              some (r :: P, su, flatT sv ++ Q) := by
            simp only [splitT, if_neg hra, hspa2, Option.map]
          have hliftU : splitT (AT.node r tsr) u =
              some (r :: (P ++ flatT su), sv, Q) := by
            simp only [splitT, if_neg hru, hspu, Option.map]
          have hcompA := split_comp.2 F hnd _ _ _ hspr _ _ _ hliftA
          have hcompU := split_comp.2 F hnd _ _ _ hspr _ _ _ hliftU
          rw [hsp] at hcompA
          simp at hcompA
          obtain ⟨hpre, hsa, hposta⟩ := hcompA
          have hsound := (split_sound u).2 F _ _ _ hcompU
          have hufirst : flatL F = (prer ++ r :: (P ++ flatT su)) ++ u ::
              (flatL (kids sv) ++ (Q ++ postr)) := by
            rw [hsound.1, flatT_eq sv, hsound.2]
            simp
          have hnotpre : u ∉ prer ++ r :: (P ++ flatT su) :=
            (nodup_split_parts hnd hufirst).1
          have hidxu : pyIndex t.nodes u =
              .ok (prer ++ r :: (P ++ flatT su)).length := by
            rw [rep_nodes hrep, hufirst]
            exact pyIndex_append_cons _ hnotpre
          have hlen := congrArg List.length hufirst
          simp at hlen
          have hle : (prer ++ r :: (P ++ flatT su)).length ≤
              (flatL F).length := by
            simp
            omega
          have hplen := congrArg List.length hposta
          simp at hplen
          have hflv : (flatT sv).length = (flatL (kids sv)).length + 1 := by
            rw [flatT_eq sv]
            simp
          have hm : (flatL F).length - posta.length =
              (prer ++ r :: (P ++ flatT su)).length := by
            simp
            omega
          have hrun : addToNodes t n (fuel2 + 1) (some a) =
              .ok (pyInsert t.nodes (prer ++ r :: (P ++ flatT su)).length n) := by
            simp [addToNodes, htru a, hnext, hidxu]
          rw [hrun, rep_nodes hrep, pyInsert_eq n hle, hm]

theorem parL_mem {α : Type} [DecidableEq α] {F : AL α} {x r : α}
    (hnd : (flatL F).Nodup) (h : parL F x = some r) : r ∈ flatL F := by
  obtain ⟨pre, ts2, post, hsp, _⟩ := (parL_some_bucket).2 F hnd h
  exact ((split_isSome r).2 F).mpr (by simp [hsp])

theorem leaf_of_no_children {α : Type} [DecidableEq α] {F : AL α} {n : α}
    (hnd : (flatL F).Nodup) (hmem : n ∈ flatL F)
    (hnoc : ∀ c, parL F c ≠ some n) :
    subF F n = some (AT.node n AL.nil) := by
  obtain ⟨s, hs⟩ := subF_some_of_mem hmem
  have hroot : rootVal s = n := subF_rootVal hs
  cases s with
  | node m ks =>
    have hm : m = n := hroot
    subst hm
    cases hks : rootsOf ks with
    | nil =>
      have := rootsOf_nil_iff ks hks
      subst this
      exact hs
    | cons c cs =>
      exfalso
      have hcmem : c ∈ rootsOf ks := by
        rw [hks]
        exact List.mem_cons_self _ _
      rcases subF_decomp hs with ⟨pre, post, hsp, _, _⟩
      have := (parL_child).2 F hnd _ _ _ hsp
        (show c ∈ rootsOf (kids (AT.node m ks)) by simpa [kids] using hcmem)
      exact hnoc c this

theorem add_refines {α : Type} [DecidableEq α] [Truthy α]
    (htru : ∀ b : α, Truthy.tru b) {F : AL α} {t : Tree α} {n : α}
    (hrep : Represents F t) (hn : n ∉ flatL F) :
    ∀ p : Option α, (p = none ∨ ∃ q, p = some q ∧ q ∈ flatL F) →
    ∃ t2, Tree.add t n p = .ok t2 ∧ Represents (addA p n F) t2 := by
  have hnd := rep_nodup hrep
  have hlookn : alookup t.children (some n) = none := rep_lookup_absent hrep hn
  intro p hpok
  rcases hpok with hpn | ⟨q, hpq, hqmem⟩
  · -- p = none: the node becomes a new last root
    subst hpn
    have hFdef : addA none n F = snocL F (AT.node n AL.nil) := rfl
    have hflat2 : flatL (addA none n F) = flatL F ++ [n] := by
      rw [hFdef, flatL_snoc]
      rfl
    have hlookroot : alookup t.children none = some (rootsOf F) :=
      rep_lookup_root hrep
    have haddn : addToNodes t n (stdFuel t) none = .ok (t.nodes ++ [n]) := by
      simp [addToNodes]
    have hnd2 : (flatL (addA none n F)).Nodup := by
      rw [hflat2, List.nodup_append]
      refine ⟨hnd, List.nodup_singleton n, ?_⟩
      intro x hx hmem
      simp at hmem
      rw [hmem] at hx
      exact hn hx
    have hsubn : subF (addA none n F) n = some (AT.node n AL.nil) := by
      rw [hFdef]
      simp [subF, splitL_snoc_fresh F hn]
    have hnonekeys : (none : Option α) ∈ t.children.map Prod.fst :=
      ((rep_keysPerm hrep).mem_iff).mpr (List.mem_cons_self _ _)
    have hkeys1 : (aset t.children none (rootsOf F ++ [n])).map Prod.fst
        = t.children.map Prod.fst := aset_keys_mem _ hnonekeys
    have hsn : (some n) ∉
        (aset t.children none (rootsOf F ++ [n])).map Prod.fst := by
      rw [hkeys1]
      intro hmem
      have := ((rep_keysPerm hrep).mem_iff).mp hmem
      rcases List.mem_cons.mp this with he | hm
      · cases he
      · rcases List.mem_map.mp hm with ⟨y, hy, he⟩
        cases Option.some.inj he
        exact hn hy
    have hkeys2 : (aset (aset t.children none (rootsOf F ++ [n]))
        (some n) []).map Prod.fst = t.children.map Prod.fst ++ [some n] := by
      rw [aset_keys_new _ hsn, hkeys1]
    have hkeysPerm2 : ((aset (aset t.children none (rootsOf F ++ [n]))
        (some n) []).map Prod.fst).Perm
        (none :: (flatL (addA none n F)).map some) := by
      rw [hkeys2, hflat2]
      have h1 := (rep_keysPerm hrep).append_right [some n]
      refine h1.trans ?_
      have h2 : (none :: (flatL F).map some) ++ [some n] =
          none :: ((flatL F).map some ++ [some n]) := rfl
      rw [h2]
      have h3 : (flatL F ++ [n]).map some =
          (flatL F).map some ++ [some n] := by simp
      rw [h3]
    have hcknd2 : ((aset (aset t.children none (rootsOf F ++ [n]))
        (some n) []).map Prod.fst).Nodup := by
      rw [hkeys2, List.nodup_append]
      refine ⟨rep_ckeys_nodup hrep, List.nodup_singleton _, ?_⟩
      intro x hx hmem
      simp at hmem
      rw [hmem, ← hkeys1] at hx
      exact hsn hx
    refine ⟨⟨t.nodes ++ [n],
      aset (aset t.children none (rootsOf F ++ [n])) (some n) [],
      t.parents⟩, ?_, ?_⟩
    · simp [Tree.add, hlookn, hlookroot, haddn, truO]
    · unfold Represents
      refine ⟨?_, hnd2, hkeysPerm2, ?_, ?_, ?_, ?_⟩
      · show t.nodes ++ [n] = flatL (addA none n F)
        rw [rep_nodes hrep, hflat2]
      · intro pr hpr
        have hpr2 : pr ∈ aset (aset t.children none (rootsOf F ++ [n]))
            (some n) [] := hpr
        rcases pr with ⟨k, v⟩
        have hlookpr : alookup (aset (aset t.children none
            (rootsOf F ++ [n])) (some n) []) k = some v :=
          mem_alookup hcknd2 hpr2
        by_cases hkn : k = some n
        · subst hkn
          rw [alookup_aset_self] at hlookpr
          have hv : v = [] := (Option.some.inj hlookpr).symm
          subst hv
          show childF (addA none n F) n = some []
          rw [childF_eq hsubn]
          rfl
        · rw [alookup_aset_ne _ _ hkn] at hlookpr
          by_cases hknone : k = none
          · subst hknone
            rw [alookup_aset_self] at hlookpr
            have hv : v = rootsOf F ++ [n] := (Option.some.inj hlookpr).symm
            subst hv
            show rootsOf F ++ [n] = rootsOf (addA none n F)
            rw [hFdef, rootsOf_snoc]
            rfl
          · rw [alookup_aset_ne _ _ hknone] at hlookpr
            have hbG : bucketSpec F (k, v) :=
              rep_buckets hrep _ (alookup_some_mem hlookpr)
            rcases k with _ | x
            · exact absurd rfl hknone
            · show childF (addA none n F) x = some v
              have hbG2 : childF F x = some v := hbG
              rcases hsx : subF F x with _ | sx
              · rw [childF, hsx] at hbG2
                cases hbG2
              · rcases subF_decomp hsx with ⟨px, qx, hspx, _, _⟩
                have hres := splitL_snoc_old (s := AT.node n AL.nil)
                  F _ _ _ hspx
                have hsub2 : subF (addA none n F) x = some sx := by
                  rw [hFdef]
                  simp [subF, hres]
                rw [childF_eq hsub2, ← childF_eq hsx, hbG2]
      · show ((t.parents).map Prod.fst).Nodup
        exact rep_pkeysNodup hrep
      · intro pr hpr
        have hpr2 : pr ∈ t.parents := hpr
        have := rep_pdom hrep pr hpr2
        rw [hflat2]
        exact List.mem_append.mpr (Or.inl this)
      · intro x hx
        rw [hflat2, List.mem_append] at hx
        rcases hx with hxF | hxn
        · have h1 : getParent t x = parL F x := rep_getParent hrep x hxF
          show getParent t x = parL (addA none n F) x
          rw [h1]
          rcases hpx : parL F x with _ | r
          · have hroot := parL_none_root F hnd hxF hpx
            have hroot2 : x ∈ rootsOf (addA none n F) := by
              rw [hFdef, rootsOf_snoc]
              exact List.mem_append.mpr (Or.inl hroot)
            rw [parL_root_none _ hnd2 hroot2]
          · obtain ⟨pre2, ts2, post2, hspr2, hxts⟩ :=
              (parL_some_bucket).2 F hnd hpx
            have hres := splitL_snoc_old (s := AT.node n AL.nil)
              F _ _ _ hspr2
            rw [← hFdef] at hres
            exact ((parL_child).2 (addA none n F) hnd2 _ _ _ hres hxts).symm
        · simp at hxn
          show getParent t x = parL (addA none n F) x
          rw [hxn, rep_getParent_absent hrep hn]
          have hroot2 : n ∈ rootsOf (addA none n F) := by
            rw [hFdef, rootsOf_snoc]
            simp [rootVal]
          rw [parL_root_none _ hnd2 hroot2]
  · -- p = some q with q present: the node becomes q's new last child
    subst hpq
    obtain ⟨sq, hsubq⟩ := subF_some_of_mem hqmem
    have hrootq : rootVal sq = q := subF_rootVal hsubq
    cases sq with
    | node q0 tsq =>
      have hq0 : q = q0 := hrootq.symm
      subst hq0
      rcases subF_decomp hsubq with ⟨preq, postq, hspq, hflatq, _⟩
      have hlookq : alookup t.children (some q) = some (rootsOf tsq) := by
        rw [rep_lookup_present hrep hqmem, childF_eq hsubq]
        rfl
      have hstd : stdFuel t = (flatL F).length + 1 := by
        rw [stdFuel, rep_nodes hrep]
      have hlenF := congrArg List.length hflatq
      simp at hlenF
      have hwalk := addToNodes_walk htru hrep n preq.length q
        (AT.node q tsq) preq postq hspq (le_refl _) (stdFuel t)
        (by rw [hstd]; omega)
      have hFdef : addA (some q) n F = addL q n F := rfl
      have haddflat : flatL (addL q n F) =
          preq ++ flatT (AT.node q tsq) ++ n :: postq :=
        addL_flat.2 F hnd _ _ _ hspq
      have hassoc : flatL F = (preq ++ flatT (AT.node q tsq)) ++ postq := by
        rw [hflatq, List.append_assoc]
      have hmq : (flatL F).length - postq.length =
          (preq ++ flatT (AT.node q tsq)).length := by
        have h2 := congrArg List.length hassoc
        simp at h2 ⊢
        omega
      have htake : (flatL F).take ((preq ++ flatT (AT.node q tsq)).length) =
          preq ++ flatT (AT.node q tsq) := by
        rw [hassoc]
        exact List.take_left _ _
      have hdrop : (flatL F).drop ((preq ++ flatT (AT.node q tsq)).length) =
          postq := by
        rw [hassoc]
        exact List.drop_left _ _
      have hnewnodes : (flatL F).take ((flatL F).length - postq.length) ++
          n :: (flatL F).drop ((flatL F).length - postq.length) =
          flatL (addL q n F) := by
        rw [hmq, htake, hdrop, haddflat, List.append_assoc]
      have hnd2 : (flatL (addL q n F)).Nodup := by
        rw [haddflat, List.nodup_middle]
        refine List.nodup_cons.mpr ⟨?_, ?_⟩
        · rw [← hflatq]
          exact hn
        · rw [← hflatq]
          exact hnd
      have hsubadd : ∀ x sx, subF F x = some sx →
          subF (addL q n F) x = some (addT q n sx) := by
        intro x sx hx
        rcases subF_decomp hx with ⟨px, qx, hspx, _, _⟩
        obtain ⟨p2, q2, hres⟩ := (@split_add α _ q n x).2 F hnd hn _ _ _ hspx
        simp [subF, hres]
      have haddt : addT q n (AT.node q tsq) =
          AT.node q (snocL tsq (AT.node n AL.nil)) := by
        simp [addT]
      have hsubq2 : subF (addL q n F) q =
          some (AT.node q (snocL tsq (AT.node n AL.nil))) := by
        have := hsubadd q _ hsubq
        rwa [haddt] at this
      have hpar_old : ∀ x ∈ flatL F, parL (addL q n F) x = parL F x := by
        intro x hx
        rcases hpx : parL F x with _ | r
        · have hroot := parL_none_root F hnd hx hpx
          have hroot2 : x ∈ rootsOf (addL q n F) := by
            rw [roots_addL]
            exact hroot
          exact parL_root_none _ hnd2 hroot2
        · obtain ⟨pre2, ts2, post2, hspr2, hxts⟩ :=
            (parL_some_bucket).2 F hnd hpx
          have hsub2 : subF F r = some (AT.node r ts2) := by
            simp [subF, hspr2]
          have hsub2' := hsubadd r _ hsub2
          rcases subF_decomp hsub2' with ⟨pre3, post3, hsp3, _, _⟩
          have hxin : x ∈ rootsOf (kids (addT q n (AT.node r ts2))) := by
            by_cases hrq : r = q
            · have h4 : addT q n (AT.node r ts2) =
                  AT.node r (snocL ts2 (AT.node n AL.nil)) := by
                rw [hrq]
                simp [addT]
              rw [h4]
              show x ∈ rootsOf (snocL ts2 (AT.node n AL.nil))
              rw [rootsOf_snoc]
              exact List.mem_append.mpr (Or.inl hxts)
            · have h4 : addT q n (AT.node r ts2) =
                  AT.node r (addL q n ts2) := by
                simp [addT, hrq]
              rw [h4]
              show x ∈ rootsOf (addL q n ts2)
              rw [roots_addL]
              exact hxts
          exact (parL_child).2 (addL q n F) hnd2 _ _ _ hsp3 hxin
      have hpar_n : parL (addL q n F) n = some q := by
        rcases subF_decomp hsubq2 with ⟨pre3, post3, hsp3, _, _⟩
        refine (parL_child).2 (addL q n F) hnd2 _ _ _ hsp3 ?_
        show n ∈ rootsOf (snocL tsq (AT.node n AL.nil))
        rw [rootsOf_snoc]
        simp [rootVal]
      have hnmem2 : n ∈ flatL (addL q n F) := by
        rw [haddflat]
        simp
      have hqn : q ≠ n := fun he => hn (he ▸ hqmem)
      have hsub_n : subF (addL q n F) n = some (AT.node n AL.nil) := by
        refine leaf_of_no_children hnd2 hnmem2 ?_
        intro c hc
        by_cases hcn : c = n
        · subst hcn
          rw [hpar_n] at hc
          exact hqn (Option.some.inj hc)
        · have hcmem : c ∈ flatL (addL q n F) := by
            by_contra hcab
            rw [(parL_absent c).2 _ hcab] at hc
            cases hc
          rcases (add_flat_subset q n).2 F c hcmem with hcF | hcn2
          · rw [hpar_old c hcF] at hc
            exact hn (parL_mem hnd hc)
          · exact hcn hcn2
      have hqkeys : (some q) ∈ t.children.map Prod.fst := by
        refine ((rep_keysPerm hrep).mem_iff).mpr ?_
        exact List.mem_cons_of_mem _ (List.mem_map.mpr ⟨q, hqmem, rfl⟩)
      have hkeys1 : (aset t.children (some q)
          (rootsOf tsq ++ [n])).map Prod.fst = t.children.map Prod.fst :=
        aset_keys_mem _ hqkeys
      have hsn : (some n) ∉ (aset t.children (some q)
          (rootsOf tsq ++ [n])).map Prod.fst := by
        rw [hkeys1]
        intro hmem
        have := ((rep_keysPerm hrep).mem_iff).mp hmem
        rcases List.mem_cons.mp this with he | hm
        · cases he
        · rcases List.mem_map.mp hm with ⟨y, hy, he⟩
          cases Option.some.inj he
          exact hn hy
      have hkeys2 : (aset (aset t.children (some q) (rootsOf tsq ++ [n]))
          (some n) []).map Prod.fst = t.children.map Prod.fst ++ [some n] := by
        rw [aset_keys_new _ hsn, hkeys1]
      have hflatperm : (flatL (addL q n F)).Perm (flatL F ++ [n]) := by
        rw [haddflat]
        refine List.perm_middle.trans ?_
        rw [← hflatq]
        exact (List.perm_append_singleton n (flatL F)).symm
      have hkeysPerm2 : ((aset (aset t.children (some q)
          (rootsOf tsq ++ [n])) (some n) []).map Prod.fst).Perm
          (none :: (flatL (addL q n F)).map some) := by
        rw [hkeys2]
        have h1 := (rep_keysPerm hrep).append_right [some n]
        refine h1.trans ?_
        refine List.Perm.symm ?_
        refine List.Perm.trans (List.Perm.cons none (hflatperm.map some)) ?_
        have h2 : (none :: (flatL F).map some) ++ [some n] =
            none :: ((flatL F).map some ++ [some n]) := rfl
        rw [h2]
        refine List.Perm.cons none ?_
        have h3 : (flatL F ++ [n]).map some =
            (flatL F).map some ++ [some n] := by simp
        rw [h3]
      have hcknd2 : ((aset (aset t.children (some q) (rootsOf tsq ++ [n]))
          (some n) []).map Prod.fst).Nodup := by
        rw [hkeys2, List.nodup_append]
        refine ⟨rep_ckeys_nodup hrep, List.nodup_singleton _, ?_⟩
        intro x hx hmem
        simp at hmem
        rw [hmem, ← hkeys1] at hx
        exact hsn hx
      refine ⟨⟨flatL (addL q n F),
        aset (aset t.children (some q) (rootsOf tsq ++ [n])) (some n) [],
        aset t.parents n (some q)⟩, ?_, ?_⟩
      · simp [Tree.add, hlookn, hlookq, hwalk, hnewnodes, truO, htru q]
      · unfold Represents
        refine ⟨rfl, hnd2, hkeysPerm2, ?_, ?_, ?_, ?_⟩
        · intro pr hpr
          have hpr2 : pr ∈ aset (aset t.children (some q)
              (rootsOf tsq ++ [n])) (some n) [] := hpr
          rcases pr with ⟨k, v⟩
          have hlookpr : alookup (aset (aset t.children (some q)
              (rootsOf tsq ++ [n])) (some n) []) k = some v :=
            mem_alookup hcknd2 hpr2
          by_cases hkn : k = some n
          · subst hkn
            rw [alookup_aset_self] at hlookpr
            have hv : v = [] := (Option.some.inj hlookpr).symm
            subst hv
            show childF (addL q n F) n = some []
            rw [childF_eq hsub_n]
            rfl
          · rw [alookup_aset_ne _ _ hkn] at hlookpr
            by_cases hkq : k = some q
            · subst hkq
              rw [alookup_aset_self] at hlookpr
              have hv : v = rootsOf tsq ++ [n] :=
                (Option.some.inj hlookpr).symm
              subst hv
              show childF (addL q n F) q = some (rootsOf tsq ++ [n])
              rw [childF_eq hsubq2]
              show some (rootsOf (snocL tsq (AT.node n AL.nil))) = _
              rw [rootsOf_snoc]
              rfl
            · rw [alookup_aset_ne _ _ hkq] at hlookpr
              have hbG : bucketSpec F (k, v) :=
                rep_buckets hrep _ (alookup_some_mem hlookpr)
              rcases k with _ | x
              · show v = rootsOf (addL q n F)
                have hvG : v = rootsOf F := hbG
                rw [hvG, roots_addL]
              · show childF (addL q n F) x = some v
                have hbG2 : childF F x = some v := hbG
                rcases hsx : subF F x with _ | sx
                · rw [childF, hsx] at hbG2
                  cases hbG2
                · have hrootx : rootVal sx = x := subF_rootVal hsx
                  cases sx with
                  | node x0 tsx =>
                    have hx0 : x0 = x := hrootx
                    subst hx0
                    have hxq : ¬ x0 = q := by
                      intro he
                      subst he
                      rw [hsubq] at hsx
                      have h5 := Option.some.inj hsx
                      cases h5
                      exact hkq rfl
                    have h4 : addT q n (AT.node x0 tsx) =
                        AT.node x0 (addL q n tsx) := by
                      simp [addT, hxq]
                    have hsub2' := hsubadd x0 _ hsx
                    rw [h4] at hsub2'
                    rw [childF_eq hsub2']
                    show some (rootsOf (addL q n tsx)) = some v
                    rw [roots_addL]
                    rw [childF_eq hsx] at hbG2
                    exact hbG2
        · show ((aset t.parents n (some q)).map Prod.fst).Nodup
          rw [aset_keys_new]
          · rw [List.nodup_append]
            refine ⟨rep_pkeysNodup hrep, List.nodup_singleton _, ?_⟩
            intro x hx hmem
            simp at hmem
            subst hmem
            rcases List.mem_map.mp hx with ⟨pr, hpr, he⟩
            have := rep_pdom hrep pr hpr
            rw [he] at this
            exact hn this
          · intro hmem
            rcases List.mem_map.mp hmem with ⟨pr, hpr, he⟩
            have := rep_pdom hrep pr hpr
            rw [he] at this
            exact hn this
        · intro pr hpr
          have hpr2 : pr ∈ aset t.parents n (some q) := hpr
          rcases mem_aset_elim hpr2 with he | hm
          · rw [he]
            exact hnmem2
          · show pr.1 ∈ flatL (addL q n F)
            have := rep_pdom hrep pr hm
            rw [hflatq] at this
            rw [haddflat]
            rw [flatT_eq (AT.node q tsq)] at this ⊢
            simp only [List.mem_append, List.mem_cons] at this ⊢
            tauto
        · intro x hx
          rcases (add_flat_subset q n).2 F x hx with hxF | hxn
          · have hxnen : x ≠ n := fun he => hn (he ▸ hxF)
            show (alookup (aset t.parents n (some q)) x).join =
              parL (addL q n F) x
            rw [alookup_aset_ne _ _ hxnen]
            have h1 : getParent t x = parL F x := rep_getParent hrep x hxF
            rw [getParent] at h1
            rw [h1, hpar_old x hxF]
          · show (alookup (aset t.parents n (some q)) x).join =
              parL (addL q n F) x
            rw [hxn, alookup_aset_self, hpar_n]
            rfl

theorem parT_cons_skip {α : Type} [DecidableEq α] {a y : α} {u : AT α}
    {ts : AL α} (hy : y ∉ flatT u) :
    parT (AT.node a (AL.cons u ts)) y = parT (AT.node a ts) y := by
  have hroots : rootsOf (AL.cons u ts) = rootVal u :: rootsOf ts := rfl
  have hyu : y ≠ rootVal u := by
    intro he
    refine hy ?_
    rw [flatT_eq u, ← he]
    exact List.mem_cons_self _ _
  by_cases hyk : y ∈ rootsOf ts
  · have h1 : y ∈ rootsOf (AL.cons u ts) := by
      rw [hroots]
      exact List.mem_cons_of_mem _ hyk
    simp only [parT, if_pos h1, if_pos hyk]
  · have h1 : y ∉ rootsOf (AL.cons u ts) := by
      rw [hroots]
      intro hm
      rcases List.mem_cons.mp hm with he | hm2
      · exact hyu he
      · exact hyk hm2
    simp only [parT, if_neg h1, if_neg hyk]
    have h2 : parT u y = none := (parL_absent y).1 u hy
    simp only [parL, h2]

theorem par_inside {α : Type} [DecidableEq α] {y : α} :
    (∀ s : AT α, (flatT s).Nodup → y ∈ flatT s → y ≠ rootVal s →
      ∃ p, parT s y = some p) ∧
    (∀ F : AL α, (flatL F).Nodup → y ∈ flatL F → y ∉ rootsOf F →
      ∃ p, parL F y = some p) := by
  refine alPair_ind _ _ ?_ ?_ ?_
  · intro a ks ih hnd hy hroot
    have hfl : flatT (AT.node a ks) = a :: flatL ks := rfl
    rw [hfl, List.nodup_cons] at hnd
    rw [hfl, List.mem_cons] at hy
    have hya : y ≠ a := by simpa [rootVal] using hroot
    have hyk : y ∈ flatL ks := by
      rcases hy with he | hm
      · exact absurd he hya
      · exact hm
    by_cases hr : y ∈ rootsOf ks
    · refine ⟨a, ?_⟩
      simp only [parT, if_pos hr]
    · obtain ⟨p, hp⟩ := ih hnd.2 hyk hr
      refine ⟨p, ?_⟩
      simp only [parT, if_neg hr]
      exact hp
  · intro _ hy
    cases hy
  · intro t ts iht ihl hnd hy hroot
    have hfl : flatL (AL.cons t ts) = flatT t ++ flatL ts := rfl
    rw [hfl, List.nodup_append] at hnd
    obtain ⟨hnt, hnts, hdisj⟩ := hnd
    have hroots : rootsOf (AL.cons t ts) = rootVal t :: rootsOf ts := rfl
    rw [hroots] at hroot
    have hyrt : y ≠ rootVal t := fun he => hroot (he ▸ List.mem_cons_self _ _)
    have hyts : y ∉ rootsOf ts :=
      fun hm => hroot (List.mem_cons_of_mem _ hm)
    rw [hfl, List.mem_append] at hy
    rcases hy with hm | hm
    · obtain ⟨p, hp⟩ := iht hnt hm hyrt
      refine ⟨p, ?_⟩
      simp only [parL, hp]
    · have hnt2 : y ∉ flatT t := fun hh => hdisj hh hm
      have h2 : parT t y = none := (parL_absent y).1 t hnt2
      obtain ⟨p, hp⟩ := ihl hnts hm hyts
      refine ⟨p, ?_⟩
      simp only [parL, h2]
      exact hp

theorem subtree_par {α : Type} [DecidableEq α] {r : α} :
    (∀ s0 : AT α, (flatT s0).Nodup → ∀ pre s post,
      splitT s0 r = some (pre, s, post) →
      ∀ y ∈ flatT s, y ≠ rootVal s → parT s0 y = parT s y) ∧
    (∀ F : AL α, (flatL F).Nodup → ∀ pre s post,
      splitL F r = some (pre, s, post) →
      ∀ y ∈ flatT s, y ≠ rootVal s → parL F y = parT s y) := by
  refine alPair_ind _ _ ?_ ?_ ?_
  · intro a ks ih hnd pre s post hsp y hy hyroot
    have hfl : flatT (AT.node a ks) = a :: flatL ks := rfl
    simp only [splitT] at hsp
    by_cases har : a = r
    · rw [if_pos har] at hsp
      cases hsp
      rfl
    · rw [if_neg har] at hsp
      rcases h2 : splitL ks r with _ | rr <;> rw [h2] at hsp
      · cases hsp
      · rcases rr with ⟨pre2, s2, post2⟩
        simp only [Option.map] at hsp
        cases hsp
        rw [hfl, List.nodup_cons] at hnd
        have hrec := ih hnd.2 _ _ _ h2 y hy hyroot
        have hsnd := (split_sound r).2 ks _ _ _ h2
        have hsubl : (flatT s).Sublist (flatL ks) := by
          rw [hsnd.1, List.append_assoc]
          exact (List.sublist_append_left _ _).trans
            (List.sublist_append_right _ _)
        have hnds : (flatT s).Nodup := hsubl.nodup hnd.2
        obtain ⟨p, hp⟩ := par_inside.1 s hnds hy hyroot
        have hyk : y ∉ rootsOf ks := by
          intro hr2
          have h3 : parL ks y = none := parL_root_none ks hnd.2 hr2
          rw [h3, hp] at hrec
          cases hrec
        show parT (AT.node a ks) y = parT s y
        simp only [parT, if_neg hyk]
        exact hrec
  · intro _ pre s post hsp
    simp only [splitL] at hsp
    cases hsp
  · intro t ts iht ihl hnd pre s post hsp y hy hyroot
    have hfl : flatL (AL.cons t ts) = flatT t ++ flatL ts := rfl
    rw [hfl, List.nodup_append] at hnd
    obtain ⟨hnt, hnts, hdisj⟩ := hnd
    simp only [splitL] at hsp
    rcases h1 : splitT t r with _ | r1 <;> rw [h1] at hsp
    · rcases h2 : splitL ts r with _ | r2 <;> rw [h2] at hsp
      · cases hsp
      · rcases r2 with ⟨pre2, s2, post2⟩
        simp only [Option.map] at hsp
        cases hsp
        have hyts : y ∈ flatL ts := splitL_sub_subset h2 y hy
        have hynt : y ∉ flatT t := fun hh => hdisj hh hyts
        have h3 : parT t y = none := (parL_absent y).1 t hynt
        show parL (AL.cons t ts) y = parT s y
        simp only [parL, h3]
        exact ihl hnts _ _ _ h2 y hy hyroot
    · rcases r1 with ⟨pre2, s2, post2⟩
      simp only at hsp
      cases hsp
      have hrec := iht hnt _ _ _ h1 y hy hyroot
      have hsubl : (flatT s).Sublist (flatT t) := by
        have hsnd := (split_sound r).1 t _ _ _ h1
        rw [hsnd.1, List.append_assoc]
        exact (List.sublist_append_left _ _).trans
          (List.sublist_append_right _ _)
      have hnds : (flatT s).Nodup := hsubl.nodup hnt
      obtain ⟨p, hp⟩ := par_inside.1 s hnds hy hyroot
      show parL (AL.cons t ts) y = parT s y
      have h4 : parT t y = some p := by
        rw [hrec, hp]
      simp only [parL, h4]
      rw [← hp, ← hrec, h4]

theorem addA_flat_none {α : Type} [DecidableEq α] (n : α) (F : AL α) :
    flatL (addA none n F) = flatL F ++ [n] := by
  show flatL (snocL F (AT.node n AL.nil)) = _
  rw [flatL_snoc]
  rfl

theorem addA_some_flat {α : Type} [DecidableEq α] {q : α} {F : AL α} (n : α)
    (hnd : (flatL F).Nodup) (hq : q ∈ flatL F) :
    ∃ preq sq postq, splitL F q = some (preq, sq, postq) ∧
      flatL F = preq ++ flatT sq ++ postq ∧
      flatL (addL q n F) = preq ++ flatT sq ++ n :: postq := by
  obtain ⟨sq, hsub⟩ := subF_some_of_mem hq
  rcases subF_decomp hsub with ⟨pre, post, hsp, hfl, _⟩
  exact ⟨pre, sq, post, hsp, hfl, addL_flat.2 F hnd _ _ _ hsp⟩

theorem addA_mem_iff {α : Type} [DecidableEq α] {p : Option α} {n : α}
    {F : AL α} (hnd : (flatL F).Nodup)
    (hok : p = none ∨ ∃ q, p = some q ∧ q ∈ flatL F) :
    ∀ y, y ∈ flatL (addA p n F) ↔ y ∈ flatL F ∨ y = n := by
  intro y
  rcases hok with h | ⟨q, hpq, hq⟩
  · subst h
    rw [addA_flat_none]
    simp
  · subst hpq
    obtain ⟨pre, sq, post, hsp, hfl, hfl2⟩ := addA_some_flat n hnd hq
    show y ∈ flatL (addL q n F) ↔ _
    rw [hfl2, hfl]
    simp only [List.mem_append, List.mem_cons]
    tauto

theorem addA_nodup {α : Type} [DecidableEq α] {p : Option α} {n : α}
    {F : AL α} (hnd : (flatL F).Nodup)
    (hok : p = none ∨ ∃ q, p = some q ∧ q ∈ flatL F) (hn : n ∉ flatL F) :
    (flatL (addA p n F)).Nodup := by
  rcases hok with h | ⟨q, hpq, hq⟩
  · subst h
    rw [addA_flat_none, List.nodup_append]
    refine ⟨hnd, List.nodup_singleton n, ?_⟩
    intro x hx hmem
    simp at hmem
    rw [hmem] at hx
    exact hn hx
  · subst hpq
    obtain ⟨pre, sq, post, hsp, hfl, hfl2⟩ := addA_some_flat n hnd hq
    show (flatL (addL q n F)).Nodup
    rw [hfl2, List.nodup_middle]
    refine List.nodup_cons.mpr ⟨?_, ?_⟩
    · rw [← hfl]
      exact hn
    · rw [← hfl]
      exact hnd

theorem addA_parL_old {α : Type} [DecidableEq α] {p : Option α} {n : α}
    {F : AL α} (hnd : (flatL F).Nodup)
    (hok : p = none ∨ ∃ q, p = some q ∧ q ∈ flatL F) (hn : n ∉ flatL F) :
    ∀ x ∈ flatL F, parL (addA p n F) x = parL F x := by
  have hnd2 := addA_nodup hnd hok hn
  intro x hx
  rcases hok with h | ⟨q, hpq, hq⟩
  · subst h
    rcases hpx : parL F x with _ | r
    · have hroot := parL_none_root F hnd hx hpx
      have hroot2 : x ∈ rootsOf (addA none n F) := by
        show x ∈ rootsOf (snocL F (AT.node n AL.nil))
        rw [rootsOf_snoc]
        exact List.mem_append.mpr (Or.inl hroot)
      exact parL_root_none _ hnd2 hroot2
    · obtain ⟨pre2, ts2, post2, hspr2, hxts⟩ :=
        (parL_some_bucket).2 F hnd hpx
      have hres := splitL_snoc_old (s := AT.node n AL.nil) F _ _ _ hspr2
      exact (parL_child).2 (addA none n F) hnd2 _ _ _ hres hxts
  · subst hpq
    have hsubadd : ∀ z sz, subF F z = some sz →
        subF (addL q n F) z = some (addT q n sz) := by
      intro z sz hz
      rcases subF_decomp hz with ⟨pz, qz, hspz, _, _⟩
      obtain ⟨p2, q2, hres⟩ := (@split_add α _ q n z).2 F hnd hn _ _ _ hspz
      simp [subF, hres]
    rcases hpx : parL F x with _ | r
    · have hroot := parL_none_root F hnd hx hpx
      have hroot2 : x ∈ rootsOf (addA (some q) n F) := by
        show x ∈ rootsOf (addL q n F)
        rw [roots_addL]
        exact hroot
      exact parL_root_none _ hnd2 hroot2
    · obtain ⟨pre2, ts2, post2, hspr2, hxts⟩ :=
        (parL_some_bucket).2 F hnd hpx
      have hsub2 : subF F r = some (AT.node r ts2) := by
        simp [subF, hspr2]
      have hsub2' := hsubadd r _ hsub2
      rcases subF_decomp hsub2' with ⟨pre3, post3, hsp3, _, _⟩
      have hxin : x ∈ rootsOf (kids (addT q n (AT.node r ts2))) := by
        by_cases hrq : r = q
        · have h4 : addT q n (AT.node r ts2) =
              AT.node r (snocL ts2 (AT.node n AL.nil)) := by
            rw [hrq]
            simp [addT]
          rw [h4]
          show x ∈ rootsOf (snocL ts2 (AT.node n AL.nil))
          rw [rootsOf_snoc]
          exact List.mem_append.mpr (Or.inl hxts)
        · have h4 : addT q n (AT.node r ts2) =
              AT.node r (addL q n ts2) := by
            simp [addT, hrq]
          rw [h4]
          show x ∈ rootsOf (addL q n ts2)
          rw [roots_addL]
          exact hxts
      exact (parL_child).2 (addL q n F) hnd2 _ _ _ hsp3 hxin

theorem addA_parL_new {α : Type} [DecidableEq α] {p : Option α} {n : α}
    {F : AL α} (hnd : (flatL F).Nodup)
    (hok : p = none ∨ ∃ q, p = some q ∧ q ∈ flatL F) (hn : n ∉ flatL F) :
    parL (addA p n F) n = p := by
  have hnd2 := addA_nodup hnd hok hn
  rcases hok with h | ⟨q, hpq, hq⟩
  · subst h
    have hroot2 : n ∈ rootsOf (addA none n F) := by
      show n ∈ rootsOf (snocL F (AT.node n AL.nil))
      rw [rootsOf_snoc]
      simp [rootVal]
    exact parL_root_none _ hnd2 hroot2
  · subst hpq
    obtain ⟨sq, hsubq⟩ := subF_some_of_mem hq
    have hrootq : rootVal sq = q := subF_rootVal hsubq
    cases sq with
    | node q0 tsq =>
      have hq0 : q = q0 := hrootq.symm
      subst hq0
      have hsubadd : ∀ z sz, subF F z = some sz →
          subF (addL q n F) z = some (addT q n sz) := by
        intro z sz hz
        rcases subF_decomp hz with ⟨pz, qz, hspz, _, _⟩
        obtain ⟨p2, q2, hres⟩ := (@split_add α _ q n z).2 F hnd hn _ _ _ hspz
        simp [subF, hres]
      have haddt : addT q n (AT.node q tsq) =
          AT.node q (snocL tsq (AT.node n AL.nil)) := by
        simp [addT]
      have hsubq2 : subF (addL q n F) q =
          some (AT.node q (snocL tsq (AT.node n AL.nil))) := by
        have := hsubadd q _ hsubq
        rwa [haddt] at this
      rcases subF_decomp hsubq2 with ⟨pre3, post3, hsp3, _, _⟩
      refine (parL_child).2 (addL q n F) hnd2 _ _ _ hsp3 ?_
      show n ∈ rootsOf (snocL tsq (AT.node n AL.nil))
      rw [rootsOf_snoc]
      simp [rootVal]

theorem parent_not_in_subtree {α : Type} [DecidableEq α] {F : AL α}
    {n r : α} {s : AT α} (hnd : (flatL F).Nodup)
    (hsub : subF F n = some s) (hp : parL F n = some r) : r ∉ flatT s := by
  intro hr
  rcases subF_decomp hsub with ⟨pren, postn, hspn, hfln, hrootn⟩
  have hiss := ((split_isSome r).1 s).mp hr
  rcases hrs : splitT s r with _ | rr
  · rw [hrs] at hiss
    simp at hiss
  rcases rr with ⟨pr2, sr2, po2⟩
  have hglob := split_comp.2 F hnd _ _ _ hspn _ _ _ hrs
  obtain ⟨prer, ts2, postr, hspr, hnts⟩ := (parL_some_bucket).2 F hnd hp
  rw [hspr] at hglob
  simp at hglob
  obtain ⟨hg1, hg2, hg3⟩ := hglob
  have hfs := (split_sound r).1 s _ _ _ hrs
  have hnds : (flatT s).Nodup := subF_flat_nodup hnd hsub
  have hnin2 : n ∈ flatL ts2 := (roots_sublist_flat ts2).subset hnts
  have hnmem_sr2 : n ∈ flatT sr2 := by
    rw [← hg2]
    show n ∈ flatT (AT.node r ts2)
    have h5 : flatT (AT.node r ts2) = r :: flatL ts2 := rfl
    rw [h5]
    exact List.mem_cons_of_mem _ hnin2
  have hfseq : flatT s = n :: flatL (kids s) := by
    rw [flatT_eq s, hrootn]
  have hnkids : n ∉ flatL (kids s) := by
    have h6 := hnds
    rw [hfseq, List.nodup_cons] at h6
    exact h6.1
  have hdec := hfs.1
  rw [hfseq] at hdec
  cases pr2 with
  | nil =>
    have h7 : flatT sr2 = r :: flatL ts2 := by
      rw [← hg2]
      rfl
    rw [h7] at hdec
    simp at hdec
    refine hnkids ?_
    rw [hdec.2]
    exact List.mem_append.mpr (Or.inl hnin2)
  | cons z pr2a =>
    have h8 : (z :: pr2a) ++ flatT sr2 ++ po2 =
        z :: (pr2a ++ flatT sr2 ++ po2) := by simp
    rw [h8] at hdec
    have h9 := (List.cons.inj hdec).2
    refine hnkids ?_
    rw [h9]
    refine List.mem_append.mpr (Or.inl ?_)
    exact List.mem_append.mpr (Or.inr hnmem_sr2)

theorem replay_correct {α : Type} [DecidableEq α] [Truthy α]
    (htru : ∀ b : α, Truthy.tru b) :
    (∀ s : AT α, ∀ (pa : Option α) (G : AL α) (t : Tree α),
      Represents G t → (flatT s).Nodup →
      (∀ y ∈ flatT s, y ∉ flatL G) →
      (pa = none ∨ ∃ pq, pa = some pq ∧ pq ∈ flatL G) →
      ∃ G2 t2, undoAll t (remEvT pa s) = .ok t2 ∧
        Represents G2 t2 ∧
        (∀ y, y ∈ flatL G2 ↔ y ∈ flatL G ∨ y ∈ flatT s) ∧
        (∀ y ∈ flatL G, parL G2 y = parL G y) ∧
        (∀ y ∈ flatT s, parL G2 y =
          if y = rootVal s then pa else parT s y)) ∧
    (∀ ts : AL α, ∀ (a : α) (G : AL α) (t : Tree α),
      Represents G t → (flatL ts).Nodup →
      (∀ y ∈ flatL ts, y ∉ flatL G) → a ∈ flatL G →
      ∃ G2 t2, undoAll t (remEvL (some a) ts) = .ok t2 ∧
        Represents G2 t2 ∧
        (∀ y, y ∈ flatL G2 ↔ y ∈ flatL G ∨ y ∈ flatL ts) ∧
        (∀ y ∈ flatL G, parL G2 y = parL G y) ∧
        (∀ y ∈ flatL ts, parL G2 y = parT (AT.node a ts) y)) := by
  refine alPair_ind _ _ ?_ ?_ ?_
  · -- a single subtree: re-add its root under the captured parent, then
    -- replay the children events
    intro a ts ih pa G t hrep hnds hdisj hok
    have hndG := rep_nodup hrep
    have hflT : flatT (AT.node a ts) = a :: flatL ts := rfl
    rw [hflT, List.nodup_cons] at hnds
    have ha_not : a ∉ flatL G := by
      refine hdisj a ?_
      rw [hflT]
      exact List.mem_cons_self _ _
    obtain ⟨t1, hadd, hrep1⟩ := add_refines htru hrep ha_not pa hok
    have hmemiff := addA_mem_iff (n := a) hndG hok
    obtain ⟨G2, t2, hfold2, hrep2, hmem2, hold2, hpar2⟩ :=
      ih a (addA pa a G) t1 hrep1 hnds.2
        (by
          intro y hy hmem
          rcases (hmemiff y).mp hmem with hyG | hya
          · exact hdisj y (by rw [hflT]; exact List.mem_cons_of_mem _ hy) hyG
          · rw [hya] at hy
            exact hnds.1 hy)
        ((hmemiff a).mpr (Or.inr rfl))
    have hrev1 : (remEvT pa (AT.node a ts)).reverse =
        Event.addEv a pa :: (remEvL (some a) ts).reverse := by
      show (remEvL (some a) ts ++ [Event.addEv a pa]).reverse = _
      rw [List.reverse_append]
      rfl
    refine ⟨G2, t2, ?_, hrep2, ?_, ?_, ?_⟩
    · show (remEvT pa (AT.node a ts)).reverse.foldlM applyEvent t = .ok t2
      rw [hrev1]
      simp only [List.foldlM_cons, applyEvent, hadd]
      simp only [bind, Except.bind]
      exact hfold2
    · intro y
      rw [hmem2 y, hmemiff y, hflT, List.mem_cons]
      tauto
    · intro y hyG
      rw [hold2 y ((hmemiff y).mpr (Or.inl hyG))]
      exact addA_parL_old hndG hok ha_not y hyG
    · intro y hy
      rw [hflT, List.mem_cons] at hy
      rcases hy with he | hm
      · rw [he, if_pos (show a = rootVal (AT.node a ts) from rfl)]
        rw [hold2 a ((hmemiff a).mpr (Or.inr rfl))]
        exact addA_parL_new hndG hok ha_not
      · have hya : ¬ y = rootVal (AT.node a ts) := by
          intro he
          have : y = a := he
          rw [this] at hm
          exact hnds.1 hm
        rw [if_neg hya]
        exact hpar2 y hm
  · -- empty child list: nothing to replay
    intro a G t hrep _ _ _
    refine ⟨G, t, ?_, hrep, ?_, ?_, ?_⟩
    · show (remEvL (some a) AL.nil).reverse.foldlM applyEvent t = .ok t
      rfl
    · intro y
      show y ∈ flatL G ↔ y ∈ flatL G ∨ y ∈ ([] : List α)
      simp
    · intro y _
      rfl
    · intro y hy
      cases hy
  · -- a list of subtrees: replay the younger siblings first, then the head
    intro u ts iht ihl a G t hrep hnd hdisj haG
    have hflL : flatL (AL.cons u ts) = flatT u ++ flatL ts := rfl
    rw [hflL, List.nodup_append] at hnd
    obtain ⟨hndu, hndts, hdisj2⟩ := hnd
    obtain ⟨G2, t2, hfold1, hrep2, hmem2, hold2, hpar2⟩ :=
      ihl a G t hrep hndts
        (fun y hy => hdisj y (by rw [hflL]; exact List.mem_append.mpr (Or.inr hy)))
        haG
    obtain ⟨G3, t3, hfold2, hrep3, hmem3, hold3, hpar3⟩ :=
      iht (some a) G2 t2 hrep2 hndu
        (by
          intro y hy hmem
          rcases (hmem2 y).mp hmem with hyG | hyts
          · exact hdisj y
              (by rw [hflL]; exact List.mem_append.mpr (Or.inl hy)) hyG
          · exact hdisj2 hy hyts)
        (Or.inr ⟨a, rfl, (hmem2 a).mpr (Or.inl haG)⟩)
    have hrev2 : (remEvL (some a) (AL.cons u ts)).reverse =
        (remEvL (some a) ts).reverse ++ (remEvT (some a) u).reverse := by
      show (remEvT (some a) u ++ remEvL (some a) ts).reverse = _
      rw [List.reverse_append]
    refine ⟨G3, t3, ?_, hrep3, ?_, ?_, ?_⟩
    · show (remEvL (some a) (AL.cons u ts)).reverse.foldlM applyEvent t =
        .ok t3
      rw [hrev2, List.foldlM_append]
      have h1 : (remEvL (some a) ts).reverse.foldlM applyEvent t =
          .ok t2 := hfold1
      rw [h1]
      simp only [bind, Except.bind]
      exact hfold2
    · intro y
      rw [hmem3 y, hmem2 y, hflL, List.mem_append]
      tauto
    · intro y hyG
      rw [hold3 y ((hmem2 y).mpr (Or.inl hyG))]
      exact hold2 y hyG
    · intro y hy
      rw [hflL, List.mem_append] at hy
      rcases hy with hm | hm
      · by_cases hyr : y = rootVal u
        · rw [hpar3 y hm, if_pos hyr]
          have hroot : y ∈ rootsOf (AL.cons u ts) := by
            have h5 : rootsOf (AL.cons u ts) = rootVal u :: rootsOf ts := rfl
            rw [h5, hyr]
            exact List.mem_cons_self _ _
          simp only [parT, if_pos hroot]
        · rw [hpar3 y hm, if_neg hyr]
          obtain ⟨p, hp⟩ := par_inside.1 u hndu hm hyr
          have hynroots : y ∉ rootsOf (AL.cons u ts) := by
            have h5 : rootsOf (AL.cons u ts) = rootVal u :: rootsOf ts := rfl
            rw [h5]
            intro hmem
            rcases List.mem_cons.mp hmem with he | hm2
            · exact hyr he
            · exact hdisj2 hm ((roots_sublist_flat ts).subset hm2)
          rw [hp]
          simp only [parT, if_neg hynroots]
          simp only [parL, hp]
      · have hynu : y ∉ flatT u := fun hh => hdisj2 hh hm
        rw [hold3 y ((hmem2 y).mpr (Or.inr hm)), hpar2 y hm,
          parT_cons_skip hynu]

theorem runCode_refines {α : Type} [DecidableEq α] [Truthy α]
    (htru : ∀ b : α, Truthy.tru b) :
    ∀ (ops : List (Call α)) (F : AL α) (t : Tree α) (F2 : AL α)
      (evs : List (Event α)), Represents F t → runA F ops = some (F2, evs) →
      ∃ t2, runCode t ops = .ok t2 ∧ Represents F2 t2 := by
  intro ops
  induction ops with
  | nil =>
    intro F t F2 evs hrep hrun
    simp [runA] at hrun
    refine ⟨t, rfl, ?_⟩
    rw [← hrun.1]
    exact hrep
  | cons op rest ih =>
    intro F t F2 evs hrep hrun
    cases op with
    | add n p =>
      by_cases hn : n ∈ flatL F
      · simp only [runA] at hrun
        rw [if_pos hn] at hrun
        cases hrun
      · cases p with
        | none =>
          simp only [runA] at hrun
          rw [if_neg hn] at hrun
          rcases hr : runA (addA none n F) rest with _ | r <;> rw [hr] at hrun
          · cases hrun
          · rcases r with ⟨F2a, evsa⟩
            simp only [Option.map] at hrun
            cases hrun
            obtain ⟨t1, hadd, hrep1⟩ :=
              add_refines htru hrep hn none (Or.inl rfl)
            obtain ⟨t2, hcode, hrep2⟩ := ih (addA none n F) t1 F2 evsa
              hrep1 hr
            refine ⟨t2, ?_, hrep2⟩
            simp only [runCode, hadd]
            exact hcode
        | some q =>
          simp only [runA] at hrun
          rw [if_neg hn] at hrun
          by_cases hq : q ∈ flatL F
          · rw [if_pos hq] at hrun
            rcases hr : runA (addA (some q) n F) rest with _ | r <;>
              rw [hr] at hrun
            · cases hrun
            · rcases r with ⟨F2a, evsa⟩
              simp only [Option.map] at hrun
              cases hrun
              obtain ⟨t1, hadd, hrep1⟩ :=
                add_refines htru hrep hn (some q) (Or.inr ⟨q, rfl, hq⟩)
              obtain ⟨t2, hcode, hrep2⟩ := ih (addA (some q) n F) t1 F2
                evsa hrep1 hr
              refine ⟨t2, ?_, hrep2⟩
              simp only [runCode, hadd]
              exact hcode
          · rw [if_neg hq] at hrun
            cases hrun
    | remove n =>
      simp only [runA] at hrun
      rcases hs : subF F n with _ | s <;> rw [hs] at hrun
      · cases hrun
      · rcases hr : runA (delL n F) rest with _ | r <;> rw [hr] at hrun
        · cases hrun
        · rcases r with ⟨F2a, evsa⟩
          simp only [Option.map] at hrun
          cases hrun
          have hnd := rep_nodup hrep
          have hdepth : depthT s ≤ stdFuel t := by
            have h1 : depthT s ≤ (flatT s).length := depth_le_flat.1 s
            have h2 : (flatT s).length ≤ (flatL F).length :=
              (subF_flat_sublist hs).length_le
            have h3 : stdFuel t = (flatL F).length + 1 := by
              rw [stdFuel, rep_nodes hrep]
            omega
          obtain ⟨t1, hrem, hrep1⟩ := removeFuel_correct (flatT s).length
            F t n s (stdFuel t) (le_refl _) hrep hs hdepth
          obtain ⟨t2, hcode, hrep2⟩ := ih (delL n F) t1 F2 evsa hrep1 hr
          refine ⟨t2, ?_, hrep2⟩
          simp only [runCode, Tree.remove, hrem]
          exact hcode

theorem undo_restores {α : Type} [DecidableEq α] [Truthy α]
    (htru : ∀ b : α, Truthy.tru b) :
    ∀ (ops : List (Call α)) (F F2 : AL α) (evs : List (Event α)),
      runA F ops = some (F2, evs) → (flatL F).Nodup →
      ∀ (G2 : AL α) (t2 : Tree α), Represents G2 t2 →
      (∀ y, y ∈ flatL G2 ↔ y ∈ flatL F2) → (∀ y, parL G2 y = parL F2 y) →
      ∃ G3 t3, undoAll t2 evs = .ok t3 ∧ Represents G3 t3 ∧
        (∀ y, y ∈ flatL G3 ↔ y ∈ flatL F) ∧
        (∀ y, parL G3 y = parL F y) := by
  intro ops
  induction ops with
  | nil =>
    intro F F2 evs hrun hnd G2 t2 hrep2 hmem hpar
    simp [runA] at hrun
    refine ⟨G2, t2, ?_, hrep2, ?_, ?_⟩
    · rw [hrun.2]
      rfl
    · intro y
      rw [hmem y, ← hrun.1]
    · intro y
      rw [hpar y, ← hrun.1]
  | cons op rest ih =>
    intro F F2 evs hrun hnd G2 t2 hrep2 hmem hpar
    cases op with
    | add n p =>
      by_cases hn : n ∈ flatL F
      · simp only [runA] at hrun
        rw [if_pos hn] at hrun
        cases hrun
      · have hmain : ∀ (hok : p = none ∨ ∃ q, p = some q ∧ q ∈ flatL F)
            (F2a : AL α) (evsa : List (Event α)),
            runA (addA p n F) rest = some (F2a, evsa) → F2 = F2a →
            evs = Event.removeEv n :: evsa →
            ∃ G3 t3, undoAll t2 evs = .ok t3 ∧ Represents G3 t3 ∧
              (∀ y, y ∈ flatL G3 ↔ y ∈ flatL F) ∧
              (∀ y, parL G3 y = parL F y) := by
          intro hok F2a evsa hr hF2 hevs
          subst hF2
          subst hevs
          have hnd1 : (flatL (addA p n F)).Nodup := addA_nodup hnd hok hn
          obtain ⟨G3a, t3, hfold, hrep3, hmem3, hpar3⟩ :=
            ih (addA p n F) F2 evsa hr hnd1 G2 t2 hrep2 hmem hpar
          have hnd3 := rep_nodup hrep3
          have hmem_n : n ∈ flatL G3a :=
            (hmem3 n).mpr ((addA_mem_iff hnd hok n).mpr (Or.inr rfl))
          have hnoc : ∀ c, parL G3a c ≠ some n := by
            intro c hc
            rw [hpar3 c] at hc
            by_cases hcn : c = n
            · rw [hcn, addA_parL_new hnd hok hn] at hc
              rcases hok with h | ⟨q, hpq, hq⟩
              · rw [h] at hc
                cases hc
              · rw [hpq] at hc
                have : q = n := Option.some.inj hc
                rw [this] at hq
                exact hn hq
            · by_cases hcF : c ∈ flatL F
              · rw [addA_parL_old hnd hok hn c hcF] at hc
                exact hn (parL_mem hnd hc)
              · have hcab : c ∉ flatL (addA p n F) := by
                  rw [addA_mem_iff hnd hok c]
                  push_neg
                  exact ⟨hcF, hcn⟩
                rw [(parL_absent c).2 _ hcab] at hc
                cases hc
          have hleaf := leaf_of_no_children hnd3 hmem_n hnoc
          have hdepth : depthT (AT.node n AL.nil) ≤ stdFuel t3 := by
            have h1 : depthT (AT.node n AL.nil) = 1 := rfl
            rw [h1, stdFuel]
            omega
          obtain ⟨t4, hrem, hrep4⟩ :=
            removeFuel_correct (flatT (AT.node n AL.nil)).length G3a t3 n
              (AT.node n AL.nil) (stdFuel t3) (le_refl _) hrep3 hleaf hdepth
          have hflatleaf : ∀ y, y ∈ flatT (AT.node n AL.nil) ↔ y = n := by
            intro y
            have h1 : flatT (AT.node n AL.nil) = [n] := rfl
            rw [h1]
            simp
          refine ⟨delL n G3a, t4, ?_, hrep4, ?_, ?_⟩
          · show (Event.removeEv n :: evsa).reverse.foldlM applyEvent t2 =
              .ok t4
            have hrev : (Event.removeEv n :: evsa).reverse =
                evsa.reverse ++ [Event.removeEv n] := by simp
            rw [hrev, List.foldlM_append]
            have h1 : evsa.reverse.foldlM applyEvent t2 = .ok t3 := hfold
            rw [h1]
            simp only [bind, Except.bind, List.foldlM_cons, applyEvent,
              Tree.remove, hrem, List.foldlM_nil]
            rfl
          · intro y
            rw [delL_mem hnd3 hleaf y, hmem3 y, addA_mem_iff hnd hok y,
              hflatleaf y]
            constructor
            · rintro ⟨h1 | h1, h2⟩
              · exact h1
              · exact absurd h1 h2
            · intro h1
              exact ⟨Or.inl h1, fun he => hn (he ▸ h1)⟩
          · intro y
            by_cases hy : y ∈ flatL (delL n G3a)
            · obtain ⟨hyG3, hyns⟩ := (delL_mem hnd3 hleaf y).mp hy
              rw [delL_parL hnd3 hleaf hyG3 hyns, hpar3 y]
              have hyF : y ∈ flatL F := by
                rcases (addA_mem_iff hnd hok y).mp ((hmem3 y).mp hyG3)
                  with h1 | h1
                · exact h1
                · exact absurd ((hflatleaf y).mpr h1) hyns
              exact addA_parL_old hnd hok hn y hyF
            · rw [(parL_absent y).2 _ hy]
              have hyF : y ∉ flatL F := by
                intro hh
                refine hy ?_
                rw [delL_mem hnd3 hleaf y]
                refine ⟨(hmem3 y).mpr ((addA_mem_iff hnd hok y).mpr
                  (Or.inl hh)), ?_⟩
                rw [hflatleaf y]
                exact fun he => hn (he ▸ hh)
              rw [(parL_absent y).2 F hyF]
        cases p with
        | none =>
          simp only [runA] at hrun
          rw [if_neg hn] at hrun
          rcases hr : runA (addA none n F) rest with _ | r <;> rw [hr] at hrun
          · cases hrun
          · rcases r with ⟨F2a, evsa⟩
            simp only [Option.map] at hrun
            have h1 := Option.some.inj hrun
            exact hmain (Or.inl rfl) F2a evsa hr
              (congrArg Prod.fst h1).symm (congrArg Prod.snd h1).symm
        | some q =>
          simp only [runA] at hrun
          rw [if_neg hn] at hrun
          by_cases hq : q ∈ flatL F
          · rw [if_pos hq] at hrun
            rcases hr : runA (addA (some q) n F) rest with _ | r <;>
              rw [hr] at hrun
            · cases hrun
            · rcases r with ⟨F2a, evsa⟩
              simp only [Option.map] at hrun
              have h1 := Option.some.inj hrun
              exact hmain (Or.inr ⟨q, rfl, hq⟩) F2a evsa hr
                (congrArg Prod.fst h1).symm (congrArg Prod.snd h1).symm
          · rw [if_neg hq] at hrun
            cases hrun
    | remove n =>
      simp only [runA] at hrun
      rcases hs : subF F n with _ | s <;> rw [hs] at hrun
      · cases hrun
      · rcases hr : runA (delL n F) rest with _ | r <;> rw [hr] at hrun
        · cases hrun
        · rcases r with ⟨F2a, evsa⟩
          simp only [Option.map] at hrun
          have h1 := Option.some.inj hrun
          have hF2 : F2 = F2a := (congrArg Prod.fst h1).symm
          have hevs : evs = remEvT (parL F n) s ++ evsa :=
            (congrArg Prod.snd h1).symm
          subst hF2
          subst hevs
          have hnd1 : (flatL (delL n F)).Nodup := delL_nodup hnd hs
          obtain ⟨G3a, t3, hfold, hrep3, hmem3, hpar3⟩ :=
            ih (delL n F) F2 evsa hr hnd1 G2 t2 hrep2 hmem hpar
          have hnd3 := rep_nodup hrep3
          have hndS : (flatT s).Nodup := subF_flat_nodup hnd hs
          have hdisjS : ∀ y ∈ flatT s, y ∉ flatL G3a := by
            intro y hy hmem2
            exact ((delL_mem hnd hs y).mp ((hmem3 y).mp hmem2)).2 hy
          have hok2 : parL F n = none ∨
              ∃ pq, parL F n = some pq ∧ pq ∈ flatL G3a := by
            rcases hpn : parL F n with _ | r2
            · exact Or.inl rfl
            · refine Or.inr ⟨r2, rfl, ?_⟩
              refine (hmem3 r2).mpr ?_
              rw [delL_mem hnd hs r2]
              exact ⟨parL_mem hnd hpn, parent_not_in_subtree hnd hs hpn⟩
          obtain ⟨G4, t4, hfoldT, hrep4, hmem4, hold4, hpar4⟩ :=
            (replay_correct htru).1 s (parL F n) G3a t3 hrep3 hndS
              hdisjS hok2
          have hsubset : ∀ y ∈ flatT s, y ∈ flatL F :=
            fun y hy => (subF_flat_sublist hs).subset hy
          refine ⟨G4, t4, ?_, hrep4, ?_, ?_⟩
          · show (remEvT (parL F n) s ++ evsa).reverse.foldlM applyEvent t2 =
              .ok t4
            rw [List.reverse_append, List.foldlM_append]
            have h2 : evsa.reverse.foldlM applyEvent t2 = .ok t3 := hfold
            rw [h2]
            simp only [bind, Except.bind]
            exact hfoldT
          · intro y
            rw [hmem4 y, hmem3 y, delL_mem hnd hs y]
            constructor
            · rintro (⟨h2, _⟩ | h2)
              · exact h2
              · exact hsubset y h2
            · intro h2
              by_cases hys : y ∈ flatT s
              · exact Or.inr hys
              · exact Or.inl ⟨h2, hys⟩
          · intro y
            by_cases hys : y ∈ flatT s
            · rw [hpar4 y hys]
              have hroot : rootVal s = n := subF_rootVal hs
              by_cases hyn : y = rootVal s
              · rw [if_pos hyn, hyn, hroot]
              · rw [if_neg hyn]
                rcases subF_decomp hs with ⟨pre, post, hsp, _, _⟩
                exact (subtree_par.2 F hnd _ _ _ hsp y hys hyn).symm
            · by_cases hyF : y ∈ flatL F
              · have hyG3 : y ∈ flatL G3a :=
                  (hmem3 y).mpr ((delL_mem hnd hs y).mpr ⟨hyF, hys⟩)
                rw [hold4 y hyG3, hpar3 y, delL_parL hnd hs hyF hys]
              · have hyG4 : y ∉ flatL G4 := by
                  rw [hmem4 y]
                  push_neg
                  refine ⟨?_, hys⟩
                  intro hh
                  exact hyF ((delL_mem hnd hs y).mp ((hmem3 y).mp hh)).1
                rw [(parL_absent y).2 _ hyG4, (parL_absent y).2 F hyF]

/-! ### C10: totality of `get_parent` -/

/-- C10 (amended): on a well-formed state, `get_parent` of an absent node
is the root sentinel `None` (the same value as for a present root-level
node) and raises nothing, while `get_children` of an absent node fails
with the error the spec names `UnknownNodeError`; `get_siblings` of an
absent node, however, does not fail: it returns the root children list. -/
theorem C10_get_parent_total {α : Type} [DecidableEq α] (t : Tree α) (n : α)
    (h : WF t) (hn : n ∉ t.nodes) :
    getParent t n = none ∧
    get_children t (some n) = .error .keyError ∧
    get_siblings t n = get_children t none ∧
    (∃ l, get_siblings t n = .ok l) := by
  obtain ⟨F, hR⟩ := h
  have hnF : n ∉ flatL F := by rw [← rep_nodes hR]; exact hn
  have hgp : getParent t n = none := rep_getParent_absent hR hnF
  have hgc : get_children t (some n) = .error .keyError := by
    rw [get_children, rep_lookup_absent hR hnF]
  have hroot := rep_lookup_root hR
  refine ⟨hgp, hgc, ?_, ?_⟩
  · rw [get_siblings, hgp]
  · refine ⟨rootsOf F, ?_⟩
    rw [get_siblings, hgp, get_children, hroot]

/-- Witness for C10 (amended) at the one-node state, with absent node 2. -/
theorem C10_get_parent_total_witness :
    getParent cW1 2 = none ∧
    get_children cW1 (some 2) = .error .keyError ∧
    get_siblings cW1 2 = get_children cW1 none ∧
    (∃ l, get_siblings cW1 2 = .ok l) :=
  C10_get_parent_total cW1 2
    ⟨.cons (.node 1 .nil) .nil, by decide⟩ (by decide)

/-- C1: the claimed invariant preservation fails on the code. The call
sequence `add(0); add(1, parent=0)` respects every stated precondition
(`0` then `1` are new, the referenced parent `0` is present), yet after
the second call the third invariant is violated: `1` is the first child
of `0` but `get_parent(1)` is `None`, not `0`, because `if parent:`
tests Python truthiness, and `0` is falsy. -/
theorem C1_add_remove_reparent_invariants :
    Tree.add (Tree.init : Tree Nat) 0 none = .ok cT1 ∧
    Tree.add cT1 1 (some 0) = .ok cT2 ∧
    (0 : Nat) ∉ (Tree.init : Tree Nat).nodes ∧
    (1 : Nat) ∉ cT1.nodes ∧ (0 : Nat) ∈ cT1.nodes ∧
    get_children cT2 (some 0) = .ok [1] ∧
    getParent cT2 1 ≠ some 0 := by decide

/-- C3: the claimed insertion position fails on the code. After
`add(0); add(5)` the node `0` is present and its next younger sibling is
`5` (at position 1 of the order), so by the claim `add(7, parent=0)`
should insert `7` immediately before `5`'s subtree; the code instead
appends `7` at the end of the order (position 2, after `5`), because
`_add_to_nodes` tests `if parent:` and `0` is falsy. -/
theorem C3_add_position_falsy_parent :
    Tree.add cV2 7 (some 0) = .ok cV3 ∧
    (0 : Nat) ∈ cV2.nodes ∧ (7 : Nat) ∉ cV2.nodes ∧
    get_next_sibling cV2 0 = .ok 5 ∧
    get_children cV3 (some 0) = .ok [7] ∧
    pyIndex cV3.nodes 5 = .ok 1 ∧
    pyIndex cV3.nodes 7 = .ok 2 ∧
    cV3.nodes ≠ [0, 7, 5] := by decide

/-- C5: node identities are not opaque to the code. The same call shape
with node value `0` and with node value `3` as parent behaves
differently: `add(1, parent=3)` records `3` as `1`'s parent, while
`add(1, parent=0)` — with `0` present, added by the same API — records no
parent for `1` at all, because `add` and `_add_to_nodes` branch on the
Python truthiness of the parent value. -/
theorem C5_node_identity_not_opaque :
    Tree.add cU1 1 (some 3) = .ok cU2 ∧ getParent cU2 1 = some 3 ∧
    Tree.add cT1 1 (some 0) = .ok cT2 ∧ getParent cT2 1 = none ∧
    (none : Option Nat) ≠ some 0 := by decide

/-- C6: re-adding a present node is not always rejected. With `1` present
as a childless node, `add(1)` passes the guard (`self._children.get(node)`
is the falsy empty list), completes without error, duplicates `1` in the
order and leaves the children dict with 2 entries against
`len(order) + 1 = 3`, violating the class's own documented invariant. -/
theorem C6_duplicate_add_not_rejected :
    (1 : Nat) ∈ cW1.nodes ∧
    Tree.add cW1 1 none = .ok cW2 ∧
    cW2.children.length ≠ cW2.nodes.length + 1 := by decide

/-- C2 (counterexample): replaying the recorded events of a legal,
recorded `remove(1)` on the two-root state `[1, 2]` does not restore the
order: the inverse `add(1, parent=None)` appends `1` at the end, giving
order `[2, 1]`. -/
theorem C2_replay_not_exact_counterexample :
    Represents cRF cR0 ∧
    (runA cRF [Call.remove 1]).map (fun r => (flatL r.1, r.2)) =
      some ([2], [Event.addEv 1 none]) ∧
    runCode cR0 [Call.remove 1] = .ok cR1 ∧
    undoAll cR1 [Event.addEv 1 none] = .ok cR2 ∧
    cR2.nodes ≠ cR0.nodes := by
  refine ⟨by decide, by decide, ?_, by decide, by decide⟩
  simp [runCode, Tree.remove, stdFuel, removeFuel, removeChildren, cR0, cR1,
    alookup, getParent, pyRemove, aset, adel]

/-- C8 (counterexample): `reparent(1, None)` on the one-root state stores
an explicit entry mapping `1` to `None` in the parent dict, although `1`
is then a root-level node. -/
theorem C8_reparent_none_entry :
    Tree.reparent cW1 1 none = .ok cP2 ∧
    getParent cP2 1 = none ∧
    alookup cP2.parents 1 = some none ∧
    alookup cP2.parents 1 ≠ none := by
  refine ⟨?_, by decide, by decide, by decide⟩
  simp [Tree.reparent, stdFuel, reparentNodes, reparentChildren, cW1, cP2,
    alookup, getParent, pyRemove, aset, adel, addToNodes]

/-- C10 (counterexample): `get_siblings` does not fail on an absent node.
With only `1` present, `get_siblings(2)` looks up the root bucket (since
`get_parent(2)` is `None`) and returns `[1]` instead of raising. -/
theorem C10_get_siblings_total_counterexample :
    (2 : Nat) ∉ cW1.nodes ∧
    get_children cW1 (some 2) = .error .keyError ∧
    get_siblings cW1 2 = .ok [1] := by decide

/-- C2: what replay does restore. For any state of truthy node values
representing an abstract forest, and any legal recorded run of `add` and
`remove` calls, the code executes the run without error, replaying the
recorded inverse events executes without error, and the final state agrees
with the initial one on the abstract data — which nodes are present and
every node's parent — though not on the exact order or dict contents (see
the counterexample: a re-added root is appended at the end of the order).
-/
theorem C2_replay_restores_abstract_state {α : Type} [DecidableEq α]
    [Truthy α] (htru : ∀ b : α, Truthy.tru b) (t : Tree α) (F : AL α)
    (ops : List (Call α)) (F2 : AL α) (evs : List (Event α))
    (hrep : Represents F t) (hrun : runA F ops = some (F2, evs)) :
    ∃ t2 t3, runCode t ops = .ok t2 ∧ undoAll t2 evs = .ok t3 ∧
      AbsEq t t3 := by
  obtain ⟨t2, hcode, hrep2⟩ := runCode_refines htru ops F t F2 evs hrep hrun
  obtain ⟨G3, t3, hundo, hrep3, hmem3, hpar3⟩ :=
    undo_restores htru ops F F2 evs hrun (rep_nodup hrep) F2 t2 hrep2
      (fun y => Iff.rfl) (fun y => rfl)
  refine ⟨t2, t3, hcode, hundo, ?_, ?_⟩
  · intro x
    rw [rep_nodes hrep, rep_nodes hrep3]
    exact (hmem3 x).symm
  · intro x
    by_cases hx : x ∈ flatL F
    · rw [rep_getParent hrep x hx,
        rep_getParent hrep3 x ((hmem3 x).mpr hx), hpar3 x]
    · rw [rep_getParent_absent hrep hx,
        rep_getParent_absent hrep3 (fun h => hx ((hmem3 x).mp h))]

/-- C2 (witness): the round-trip theorem applied to the one-root state of
an opaque (always truthy) node reference, running `remove` of that root.
-/
theorem C2_replay_restores_abstract_state_witness :
    ∃ t2 t3,
      runCode (⟨[⟨1⟩], [(none, [⟨1⟩]), (some ⟨1⟩, [])], []⟩ : Tree Ref)
        [Call.remove ⟨1⟩] = .ok t2 ∧
      undoAll t2 [Event.addEv ⟨1⟩ none] = .ok t3 ∧
      AbsEq (⟨[⟨1⟩], [(none, [⟨1⟩]), (some ⟨1⟩, [])], []⟩ : Tree Ref) t3 :=
  C2_replay_restores_abstract_state (fun b => rfl)
    ⟨[⟨1⟩], [(none, [⟨1⟩]), (some ⟨1⟩, [])], []⟩
    (AL.cons (AT.node ⟨1⟩ AL.nil) AL.nil)
    [Call.remove ⟨1⟩] AL.nil [Event.addEv ⟨1⟩ none]
    (by decide)
    (by simp [runA, subF, splitL, splitT, parL, parT, delL, delT, remEvT,
      remEvL, flatL, flatT, rootVal, kids, rootsOf])

end Gaphas
